import Mathlib

/-!
# vsfsck: consistency checker for the VSFS image (`vsfsck.c`)

A shallow embedding of `vsfsck.c`.  The image file and every buffer of the
program are byte maps (`Nat → Nat`, one byte per offset); the packed records
`Superblock` and `Inode` are views over such a byte map, their fields read and
written little-endian at the offsets the packed layout gives them.  The
standard output is a list of `Line` values, one constructor per `printf`
format.

Modelling conventions:
* `malloc`/`calloc` always succeed;
* the reference counters are `int`: a counter is an integer of the range
  `INT_MIN .. INT_MAX` and `ref_array[block]++` wraps from `INT_MAX` to `INT_MIN`
  (`wrap_int`), which is what the compiled program does (the overflow is
  undefined in C);
* bytes of a `File` at or beyond `size` are not part of the file; a short
  `fread` leaves those buffer bytes indeterminate and the model takes them
  from `data` there, so that every statement holds for each possible content.

The shell of the same repository (command history, redirection parsing) is
embedded in the namespace `Shell`, after the definitions of `Vsfsck`; its
theorems are at the end of the file.
-/

namespace Vsfsck

/-! ## Constants (`#define`s, lines 5-13) -/

def BLOCK_SIZE : Nat := 4096
def TOTAL_BLOCKS : Nat := 64
def SUPERBLOCK_BLOCK : Nat := 0
def INODE_BITMAP_BLOCK : Nat := 1
def DATA_BITMAP_BLOCK : Nat := 2
def INODE_TABLE_START : Nat := 3
def DATA_BLOCK_START : Nat := 8
def INODE_TABLE_BLOCKS : Nat := 5
def EXPECTED_MAGIC : Nat := 0xd34d

/-! ## Byte buffers and little-endian fields -/

/-- A byte buffer (or the contents of a file): the byte stored at each offset. -/
abbrev Buf := Nat → Nat

/-- Read a little-endian `uint16_t` at byte offset `off`. -/
def get16 (b : Buf) (off : Nat) : Nat :=
  b off + 256 * b (off + 1)

/-- Read a little-endian `uint32_t` at byte offset `off`. -/
def get32 (b : Buf) (off : Nat) : Nat :=
  b off + 256 * b (off + 1) + 65536 * b (off + 2) + 16777216 * b (off + 3)

/-- Store a `uint16_t` little-endian at byte offset `off`. -/
def set16 (b : Buf) (off v : Nat) : Buf := fun o =>
  if o = off then v % 256
  else if o = off + 1 then v / 256 % 256
  else b o

/-- Store a `uint32_t` little-endian at byte offset `off`. -/
def set32 (b : Buf) (off v : Nat) : Buf := fun o =>
  if o = off then v % 256
  else if o = off + 1 then v / 256 % 256
  else if o = off + 2 then v / 65536 % 256
  else if o = off + 3 then v / 16777216 % 256
  else b o

/-! ## The packed records (lines 16-47) -/

/-- Size of the packed `Superblock`: a 16-bit magic, eight 32-bit fields and
`reserved[4058]`. -/
def sizeof_Superblock : Nat := 2 + 8 * 4 + 4058

/-- Size of the packed `Inode`: ten 32-bit fields, `direct[12]`, three indirect
pointers and `reserved[156]`. -/
def sizeof_Inode : Nat := 10 * 4 + 12 * 4 + 3 * 4 + 156

def sb_magic (sb : Buf) : Nat := get16 sb 0
def sb_block_size (sb : Buf) : Nat := get32 sb 2
def sb_total_blocks (sb : Buf) : Nat := get32 sb 6
def sb_inode_bitmap_block (sb : Buf) : Nat := get32 sb 10
def sb_data_bitmap_block (sb : Buf) : Nat := get32 sb 14
def sb_inode_table_start (sb : Buf) : Nat := get32 sb 18
def sb_first_data_block (sb : Buf) : Nat := get32 sb 22
def sb_inode_size (sb : Buf) : Nat := get32 sb 26
def sb_inode_count (sb : Buf) : Nat := get32 sb 30

/-- Byte offset of `inodes[i].dtime` in the inode table buffer. -/
def off_dtime (i : Nat) : Nat := i * sizeof_Inode + 28
/-- Byte offset of `inodes[i].n_links`. -/
def off_n_links (i : Nat) : Nat := i * sizeof_Inode + 32
/-- Byte offset of `inodes[i].direct[j]`. -/
def off_direct (i j : Nat) : Nat := i * sizeof_Inode + 40 + 4 * j
/-- Byte offset of `inodes[i].single_indirect`. -/
def off_single (i : Nat) : Nat := i * sizeof_Inode + 88
/-- Byte offset of `inodes[i].double_indirect`. -/
def off_double (i : Nat) : Nat := i * sizeof_Inode + 92
/-- Byte offset of `inodes[i].triple_indirect`. -/
def off_triple (i : Nat) : Nat := i * sizeof_Inode + 96

/-- The test `inodes[i].n_links > 0 && inodes[i].dtime == 0` (lines 187, 221). -/
def valid_inode (inodes : Buf) (i : Nat) : Bool :=
  decide (0 < get32 inodes (off_n_links i)) && decide (get32 inodes (off_dtime i) = 0)

/-! ## Bitmap helpers (lines 51-61) -/

/-- Bitmap test: `(bitmap[index / 8] >> (index % 8)) & 1`. -/
def is_bit_set (bitmap : Buf) (index : Nat) : Nat :=
  (bitmap (index / 8) >>> (index % 8)) &&& 1

/-- Bitmap set: `bitmap[index / 8] |= (1 << (index % 8))`, stored as a byte. -/
def set_bit (bitmap : Buf) (index : Nat) : Buf :=
  Function.update bitmap (index / 8)
    ((bitmap (index / 8) ||| (1 <<< (index % 8))) % 256)

/-- Bitmap clear: `bitmap[index / 8] &= ~(1 << (index % 8))`; the complement is
taken on the 32-bit `int` and the result is stored as a byte. -/
def clear_bit (bitmap : Buf) (index : Nat) : Buf :=
  Function.update bitmap (index / 8)
    ((bitmap (index / 8) &&& (0xFFFFFFFF ^^^ (1 <<< (index % 8)))) % 256)

/-! ## Reference counters (lines 64-67) -/

/-- The value of a 32-bit `int` that receives the result `x` of an arithmetic
operation: `x` reduced to `INT_MIN .. INT_MAX` modulo `2^32` (two's complement). -/
def wrap_int (x : Int) : Int := (x + 2147483648) % 4294967296 - 2147483648

/-- Reference tracker: `if (block >= sb.first_data_block && block < sb.total_blocks)
ref_array[block]++;`, on the `int` array `ref_array`. -/
def add_block_reference (block : Nat) (ref_array : Nat → Int) (sb : Buf) : Nat → Int :=
  if sb_first_data_block sb ≤ block ∧ block < sb_total_blocks sb then
    Function.update ref_array block (wrap_int (ref_array block + 1))
  else ref_array

/-! ## The image file -/

/-- The image file: its length in bytes and the byte at each offset. -/
structure File where
  size : Nat
  data : Buf

/-- Number of complete items `fread(buf, size, nmemb, fp)` transfers after
`fseek(fp, off, SEEK_SET)`. -/
def fread_items (f : File) (off size nmemb : Nat) : Nat :=
  min nmemb ((f.size - off) / size)

/-- Buffer contents after an `fread` at offset `off`. -/
def fread_buf (f : File) (off : Nat) : Buf := fun o => f.data (off + o)

/-- File after `fseek(fp, off, SEEK_SET); fwrite(buf, 1, n, fp)`: the `n` bytes of
`buf` replace the bytes at `off`; a write past the end extends the file, the gap
reading as zero. -/
def fwrite (f : File) (off n : Nat) (buf : Buf) : File where
  size := max f.size (off + n)
  data := fun o =>
    if off ≤ o ∧ o < off + n then buf (o - off)
    else if f.size ≤ o ∧ o < off then 0
    else f.data o

/-! ## Report lines -/

/-- The superblock fields compared with a constant (lines 87-134). -/
inductive SbField
  | magic | block_size | total_blocks | inode_bitmap_block | data_bitmap_block
  | inode_table_start | first_data_block | inode_size
  deriving DecidableEq, Repr

/-- The places where the walker meets a pointer: the direct slots, the three
top-level indirect pointers of an inode, and the entries of the blocks of each
tree (`double_l1` is an entry of the double-indirect block, `double_l2` an entry
of a block it designates, and so on). -/
inductive Level
  | direct | single_ptr | single_entry
  | double_ptr | double_l1 | double_l2
  | triple_ptr | triple_l1 | triple_l2 | triple_l3
  deriving DecidableEq, Repr

/-- One line of the report, one constructor per `printf` format. -/
inductive Line
  /-- Line "Superblock error: ... incorrect. Expected X, got Y. Fixing...". -/
  | superblock_error (f : SbField) (expected got : Nat)
  /-- Line "Superblock error: inode count (N) exceeds maximum possible (M). Fixing...". -/
  | superblock_inode_count (got max_inodes : Nat)
  /-- Line "Superblock errors fixed.". -/
  | superblock_fixed
  /-- Line "Superblock validated successfully.". -/
  | superblock_ok
  /-- Line "Inode Bitmap error: Inode I is valid but not marked used. Fixing...". -/
  | inode_bitmap_unmarked (i : Nat)
  /-- Line "Inode Bitmap error: Inode I is invalid but marked used. Fixing...". -/
  | inode_bitmap_stale (i : Nat)
  /-- Line "Inode bitmap updated.". -/
  | inode_bitmap_updated
  /-- Line "Inode bitmap consistency check passed.". -/
  | inode_bitmap_ok
  /-- Line "Bad block error: Inode I ... P out of range. Clearing ...". -/
  | bad_block (i : Nat) (lvl : Level) (p : Nat)
  /-- Line "Data Bitmap error: Inode I ... block P ... not marked used. Fixing...". -/
  | data_bitmap_unmarked (i : Nat) (lvl : Level) (p : Nat)
  /-- Line "Error reading ... block for inode I". -/
  | read_error (i : Nat) (lvl : Level)
  /-- Line "Duplicate block error: Block B referenced N times. Fixing...". -/
  | duplicate_block (b : Nat) (n : Int)
  /-- Line "Duplicate block errors found and fixed.". -/
  | duplicate_found
  /-- Line "Duplicate block check passed.". -/
  | duplicate_ok
  /-- Line "Bad block errors found and fixed.". -/
  | bad_found
  /-- Line "Bad block check passed.". -/
  | bad_ok
  /-- Line "Data Bitmap error: Block B marked used but not referenced. Clearing bit...". -/
  | data_bitmap_orphan (b : Nat)
  /-- Line "Data bitmap updated.". -/
  | data_bitmap_updated
  /-- Line "Data bitmap consistency check passed.". -/
  | data_bitmap_ok
  /-- Line "VSFS consistency check complete.". -/
  | complete
  deriving DecidableEq, Repr

/-- A repair line: one that starts with "Superblock error", "Inode Bitmap error",
"Data Bitmap error" or "Bad block error"; the summaries "Superblock errors fixed."
and "Bad block errors found and fixed." start so too. -/
def Line.is_repair : Line → Bool
  | .superblock_error _ _ _ => true
  | .superblock_inode_count _ _ => true
  | .superblock_fixed => true
  | .inode_bitmap_unmarked _ => true
  | .inode_bitmap_stale _ => true
  | .bad_block _ _ _ => true
  | .bad_found => true
  | .data_bitmap_unmarked _ _ _ => true
  | .data_bitmap_orphan _ => true
  | _ => false

/-! ## Loops -/

/-- The loop `for (int k = 0; k < n; k++) s = body k s`. -/
def for_loop {σ : Type} (n : Nat) (body : Nat → σ → σ) (s : σ) : σ :=
  match n with
  | 0 => s
  | k + 1 => body k (for_loop k body s)

/-- The loop `for (int k = lo; k < hi; k++) s = body k s`. -/
def for_range {σ : Type} (lo hi : Nat) (body : Nat → σ → σ) (s : σ) : σ :=
  for_loop (hi - lo) (fun t => body (lo + t)) s

/-! ## Superblock validation (lines 86-149) -/

/-- State of the validation: the in-memory `sb`, `super_errors` and the report. -/
structure SbState where
  sb : Buf
  super_errors : Bool
  out : List Line

/-- One comparison of a 32-bit field with its constant: `if (sb.f != C) { printf(...);
sb.f = C; super_errors = 1; }`. -/
def check_field32 (f : SbField) (off expected : Nat) (s : SbState) : SbState :=
  if get32 s.sb off ≠ expected then
    { sb := set32 s.sb off expected, super_errors := true,
      out := s.out ++ [Line.superblock_error f expected (get32 s.sb off)] }
  else s

/-- The check of `sb.magic` (lines 87-92). -/
def check_magic (s : SbState) : SbState :=
  if sb_magic s.sb ≠ EXPECTED_MAGIC then
    { sb := set16 s.sb 0 EXPECTED_MAGIC, super_errors := true,
      out := s.out ++ [Line.superblock_error SbField.magic EXPECTED_MAGIC (sb_magic s.sb)] }
  else s

/-- The bound `max_inodes = INODE_TABLE_BLOCKS * (BLOCK_SIZE / sizeof(Inode))` (line 136). -/
def max_inodes : Nat := INODE_TABLE_BLOCKS * (BLOCK_SIZE / sizeof_Inode)

/-- The check of `sb.inode_count` (lines 137-142). -/
def check_inode_count (s : SbState) : SbState :=
  if sb_inode_count s.sb > max_inodes then
    { sb := set32 s.sb 30 max_inodes, super_errors := true,
      out := s.out ++ [Line.superblock_inode_count (sb_inode_count s.sb) max_inodes] }
  else s

/-- Lines 86-142: every check in source order, starting from the superblock read. -/
def validate_superblock (sb : Buf) : SbState :=
  let s : SbState := { sb := sb, super_errors := false, out := [] }
  let s := check_magic s
  let s := check_field32 SbField.block_size 2 BLOCK_SIZE s
  let s := check_field32 SbField.total_blocks 6 TOTAL_BLOCKS s
  let s := check_field32 SbField.inode_bitmap_block 10 INODE_BITMAP_BLOCK s
  let s := check_field32 SbField.data_bitmap_block 14 DATA_BITMAP_BLOCK s
  let s := check_field32 SbField.inode_table_start 18 INODE_TABLE_START s
  let s := check_field32 SbField.first_data_block 22 DATA_BLOCK_START s
  let s := check_field32 SbField.inode_size 26 sizeof_Inode s
  check_inode_count s

/-! ## Inode bitmap consistency checker (lines 183-205) -/

/-- State of the inode bitmap loop. -/
structure IbState where
  inode_bitmap : Buf
  inode_bitmap_errors : Bool
  out : List Line

/-- Body of the loop of lines 185-198. -/
def inode_bitmap_step (inodes : Buf) (i : Nat) (s : IbState) : IbState :=
  let bit_set := is_bit_set s.inode_bitmap i
  let valid := valid_inode inodes i
  if valid = true ∧ bit_set = 0 then
    { inode_bitmap := set_bit s.inode_bitmap i, inode_bitmap_errors := true,
      out := s.out ++ [Line.inode_bitmap_unmarked i] }
  else if valid = false ∧ bit_set ≠ 0 then
    { inode_bitmap := clear_bit s.inode_bitmap i, inode_bitmap_errors := true,
      out := s.out ++ [Line.inode_bitmap_stale i] }
  else s

/-- The loop of lines 184-198. -/
def check_inode_bitmap (inodes inode_bitmap : Buf) (inode_count : Nat) (out : List Line) :
    IbState :=
  for_loop inode_count (inode_bitmap_step inodes)
    { inode_bitmap := inode_bitmap, inode_bitmap_errors := false, out := out }

/-! ## The walk over the inodes (lines 216-432) -/

/-- What the walk reads and changes: the image file, the inode table, the data
bitmap, the reference counters, the flag `bad_block_errors` and the report. -/
structure Walk where
  fp : File
  inodes : Buf
  data_bitmap : Buf
  block_refs : Nat → Int
  bad_block_errors : Bool
  out : List Line

/-- The range test `p < sb.first_data_block || p >= sb.total_blocks`. -/
def out_of_range (sb : Buf) (p : Nat) : Bool :=
  decide (p < sb_first_data_block sb) || decide (sb_total_blocks sb ≤ p)

/-- The branch every level takes for an in-range pointer: `add_block_reference`,
then the data bitmap test and repair (lines 234-238, 250-254, 272-276, ...). -/
def note_block (sb : Buf) (i : Nat) (lvl : Level) (block : Nat) (w : Walk) : Walk :=
  let w := { w with block_refs := add_block_reference block w.block_refs sb }
  if is_bit_set w.data_bitmap block = 0 then
    { w with out := w.out ++ [Line.data_bitmap_unmarked i lvl block],
             data_bitmap := set_bit w.data_bitmap block }
  else w

/-- The branch for an out-of-range pointer held by the inode at byte offset `off`
of the inode table: report, zero the field, set `bad_block_errors`. -/
def clear_pointer (i : Nat) (lvl : Level) (off p : Nat) (w : Walk) : Walk :=
  { w with out := w.out ++ [Line.bad_block i lvl p],
           inodes := set32 w.inodes off 0,
           bad_block_errors := true }

/-- Body of the loop over the direct pointers (lines 225-240). -/
def direct_step (sb : Buf) (i j : Nat) (w : Walk) : Walk :=
  let block := get32 w.inodes (off_direct i j)
  if block = 0 then w
  else if out_of_range sb block = true then clear_pointer i Level.direct (off_direct i j) block w
  else note_block sb i Level.direct block w

/-- An indirection block being scanned: the buffer and the rest of the state. -/
structure Scan where
  buf : Buf
  w : Walk

/-- Body of a loop over the 1024 entries of an indirection block (lines 264-278,
303-343, 325-339, 368-426, 386-422, 404-418).  `child` is what the code does with
an in-range entry after counting it: nothing for an entry that designates data,
the scan of the designated block for an entry that designates an indirection
block. -/
def entry_step (sb : Buf) (i : Nat) (lvl : Level) (child : Nat → Walk → Walk)
    (k : Nat) (s : Scan) : Scan :=
  let e := get32 s.buf (4 * k)
  if e = 0 then s
  else if out_of_range sb e = true then
    { buf := set32 s.buf (4 * k) 0,
      w := { s.w with out := s.w.out ++ [Line.bad_block i lvl e], bad_block_errors := true } }
  else { buf := s.buf, w := child e (note_block sb i lvl e s.w) }

/-- One indirection block: `fseek`/`fread` of the block `blk` (with the report of a
short read), the loop over its entries, `fseek`/`fwrite` of the buffer. -/
def scan_block (sb : Buf) (i : Nat) (lvl : Level) (child : Nat → Walk → Walk)
    (blk : Nat) (w : Walk) : Walk :=
  let count := BLOCK_SIZE / 4
  let w := if fread_items w.fp (blk * BLOCK_SIZE) 4 count ≠ count then
      { w with out := w.out ++ [Line.read_error i lvl] } else w
  let s := for_loop count (entry_step sb i lvl child)
      { buf := fread_buf w.fp (blk * BLOCK_SIZE), w := w }
  { s.w with fp := fwrite s.w.fp (blk * BLOCK_SIZE) (4 * count) s.buf }

/-- What is done with an entry that designates data: nothing more. -/
def no_child (_e : Nat) (w : Walk) : Walk := w

/-- The single indirect pointer (lines 243-283). -/
def single_indirect (sb : Buf) (i : Nat) (w : Walk) : Walk :=
  let iblock := get32 w.inodes (off_single i)
  if iblock ≠ 0 then
    if out_of_range sb iblock = true then
      clear_pointer i Level.single_ptr (off_single i) iblock w
    else
      scan_block sb i Level.single_entry no_child iblock
        (note_block sb i Level.single_ptr iblock w)
  else w

/-- The double indirect pointer (lines 286-348). -/
def double_indirect (sb : Buf) (i : Nat) (w : Walk) : Walk :=
  let iblock := get32 w.inodes (off_double i)
  if iblock ≠ 0 then
    if out_of_range sb iblock = true then
      clear_pointer i Level.double_ptr (off_double i) iblock w
    else
      scan_block sb i Level.double_l1
        (scan_block sb i Level.double_l2 no_child) iblock
        (note_block sb i Level.double_ptr iblock w)
  else w

/-- The triple indirect pointer (lines 351-431). -/
def triple_indirect (sb : Buf) (i : Nat) (w : Walk) : Walk :=
  let iblock := get32 w.inodes (off_triple i)
  if iblock ≠ 0 then
    if out_of_range sb iblock = true then
      clear_pointer i Level.triple_ptr (off_triple i) iblock w
    else
      scan_block sb i Level.triple_l1
        (scan_block sb i Level.triple_l2
          (scan_block sb i Level.triple_l3 no_child)) iblock
        (note_block sb i Level.triple_ptr iblock w)
  else w

/-- Body of the loop over the inodes (lines 220-432). -/
def inode_step (sb : Buf) (i : Nat) (w : Walk) : Walk :=
  if valid_inode w.inodes i = false then w
  else
    let w := for_loop 12 (direct_step sb i) w
    let w := single_indirect sb i w
    let w := double_indirect sb i w
    triple_indirect sb i w

/-- The loop over the inodes (lines 220-432). -/
def walk_inodes (sb : Buf) (inode_count : Nat) (w : Walk) : Walk :=
  for_loop inode_count (inode_step sb) w

/-! ## Duplicate block checker and data bitmap final pass (lines 434-474) -/

/-- State of the duplicate loop. -/
structure DupState where
  duplicate_block_errors : Bool
  out : List Line

/-- Body of the loop of lines 436-443. -/
def duplicate_step (block_refs : Nat → Int) (i : Nat) (s : DupState) : DupState :=
  if block_refs i > 1 then
    { duplicate_block_errors := true,
      out := s.out ++ [Line.duplicate_block i (block_refs i)] }
  else s

/-- State of the final pass over the data bitmap. -/
structure DbState where
  data_bitmap : Buf
  data_bitmap_errors : Bool
  out : List Line

/-- Body of the loop of lines 459-467. -/
def data_bitmap_step (block_refs : Nat → Int) (i : Nat) (s : DbState) : DbState :=
  if is_bit_set s.data_bitmap i ≠ 0 then
    if block_refs i = 0 then
      { data_bitmap := clear_bit s.data_bitmap i, data_bitmap_errors := true,
        out := s.out ++ [Line.data_bitmap_orphan i] }
    else s
  else s

/-! ## The run (`main`, lines 70-486) -/

/-- The fatal exits of `main` (each prints to `stderr` and returns 1). -/
inductive Fatal
  | read_superblock | read_inode_bitmap | read_data_bitmap | read_inode_table
  deriving DecidableEq, Repr

/-- State at the end of a completed run: the image file after the last write, the
report, and the final contents of the program variables. -/
structure Done where
  fp : File
  out : List Line
  sb : Buf
  inode_count : Nat
  inode_bitmap : Buf
  data_bitmap : Buf
  inodes : Buf
  block_refs : Nat → Int

/-- Result of a run: a fatal exit (status 1) with the image and report at that
point, or a completed run (status 0). -/
inductive Outcome
  | fatal (err : Fatal) (fp : File) (out : List Line)
  | done (d : Done)

/-- Lines 183-485, reached once the superblock, both bitmaps and the inode table
have been read. -/
def check_image (fp : File) (sb inode_bitmap data_bitmap inodes : Buf) (out : List Line) :
    Done :=
  let inode_count := sb_inode_count sb
  -- Inode Bitmap Consistency Checker
  let ib := check_inode_bitmap inodes inode_bitmap inode_count out
  let fp := if ib.inode_bitmap_errors = true then
      fwrite fp (BLOCK_SIZE * sb_inode_bitmap_block sb) BLOCK_SIZE ib.inode_bitmap else fp
  let out := ib.out ++
    [if ib.inode_bitmap_errors = true then Line.inode_bitmap_updated else Line.inode_bitmap_ok]
  -- the walk
  let w := walk_inodes sb inode_count
    { fp := fp, inodes := inodes, data_bitmap := data_bitmap,
      block_refs := fun _ => 0, bad_block_errors := false, out := out }
  -- Duplicate Block Checker
  let dup := for_range (sb_first_data_block sb) TOTAL_BLOCKS (duplicate_step w.block_refs)
    { duplicate_block_errors := false, out := w.out }
  let out := dup.out ++
    [if dup.duplicate_block_errors = true then Line.duplicate_found else Line.duplicate_ok]
  -- Report Bad Block Errors
  let out := out ++ [if w.bad_block_errors = true then Line.bad_found else Line.bad_ok]
  -- Verify Data Bitmap correctness
  let db := for_range (sb_first_data_block sb) TOTAL_BLOCKS (data_bitmap_step w.block_refs)
    { data_bitmap := w.data_bitmap, data_bitmap_errors := false, out := out }
  let fp := if db.data_bitmap_errors = true then
      fwrite w.fp (BLOCK_SIZE * sb_data_bitmap_block sb) BLOCK_SIZE db.data_bitmap else w.fp
  let out := db.out ++
    [if db.data_bitmap_errors = true then Line.data_bitmap_updated else Line.data_bitmap_ok]
  -- Write back updated inode table
  let fp := fwrite fp (BLOCK_SIZE * sb_inode_table_start sb) (inode_count * sizeof_Inode) w.inodes
  { fp := fp, out := out ++ [Line.complete], sb := sb, inode_count := inode_count,
    inode_bitmap := ib.inode_bitmap, data_bitmap := db.data_bitmap, inodes := w.inodes,
    block_refs := w.block_refs }

/-- The program `main` run on the image `img` (the file `vsfs.img`). -/
def main (img : File) : Outcome :=
  -- Read and validate the superblock
  if fread_items img (BLOCK_SIZE * SUPERBLOCK_BLOCK) sizeof_Superblock 1 ≠ 1 then
    Outcome.fatal Fatal.read_superblock img []
  else
    let v := validate_superblock (fread_buf img (BLOCK_SIZE * SUPERBLOCK_BLOCK))
    let sb := v.sb
    let fp := if v.super_errors = true then
        fwrite img (BLOCK_SIZE * SUPERBLOCK_BLOCK) sizeof_Superblock sb else img
    let out := v.out ++
      [if v.super_errors = true then Line.superblock_fixed else Line.superblock_ok]
    -- Read inode and data bitmaps
    if fread_items fp (BLOCK_SIZE * sb_inode_bitmap_block sb) 1 BLOCK_SIZE ≠ BLOCK_SIZE then
      Outcome.fatal Fatal.read_inode_bitmap fp out
    else
      let inode_bitmap := fread_buf fp (BLOCK_SIZE * sb_inode_bitmap_block sb)
      if fread_items fp (BLOCK_SIZE * sb_data_bitmap_block sb) 1 BLOCK_SIZE ≠ BLOCK_SIZE then
        Outcome.fatal Fatal.read_data_bitmap fp out
      else
        let data_bitmap := fread_buf fp (BLOCK_SIZE * sb_data_bitmap_block sb)
        -- Read inode table
        let inode_count := sb_inode_count sb
        if fread_items fp (BLOCK_SIZE * sb_inode_table_start sb) sizeof_Inode inode_count
            ≠ inode_count then
          Outcome.fatal Fatal.read_inode_table fp out
        else
          let inodes := fread_buf fp (BLOCK_SIZE * sb_inode_table_start sb)
          Outcome.done (check_image fp sb inode_bitmap data_bitmap inodes out)

/-! ## Predicates used in the statements -/

/-- Superblock canonicality: every field but `inode_count` has its constant and
`inode_count` is at most `max_inodes`. -/
def Canonical (sb : Buf) : Prop :=
  sb_magic sb = EXPECTED_MAGIC ∧ sb_block_size sb = BLOCK_SIZE ∧
  sb_total_blocks sb = TOTAL_BLOCKS ∧ sb_inode_bitmap_block sb = INODE_BITMAP_BLOCK ∧
  sb_data_bitmap_block sb = DATA_BITMAP_BLOCK ∧ sb_inode_table_start sb = INODE_TABLE_START ∧
  sb_first_data_block sb = DATA_BLOCK_START ∧ sb_inode_size sb = sizeof_Inode ∧
  sb_inode_count sb ≤ max_inodes

/-- A pointer the walker clears: non-zero and out of range. -/
def bad_ptr (sb : Buf) (p : Nat) : Bool :=
  decide (p ≠ 0) && out_of_range sb p

/-- Buffer of an indirection block after the first `n` entries were scanned: the
bytes of each bad entry among them are zero, every other byte is as read. -/
def clean_upto (sb : Buf) (n : Nat) (buf : Buf) : Buf := fun o =>
  if o < 4 * n ∧ bad_ptr sb (get32 buf (o - o % 4)) = true then 0 else buf o

/-- Buffer of an indirection block after the scan of its 1024 entries. -/
def clean_buf (sb : Buf) (buf : Buf) : Buf := clean_upto sb (BLOCK_SIZE / 4) buf

/-- The byte offsets of the pointer fields of inode `i` in the inode table. -/
def PtrOff (i off : Nat) : Prop :=
  (∃ j, j < 12 ∧ off = off_direct i j) ∨ off = off_single i ∨ off = off_double i ∨
    off = off_triple i

/-- A property of the walk state kept by each elementary action of the scan of an
indirection block for inode `i`: counting an in-range pointer, reporting a bad
entry, reporting a short read, and writing a scanned block back. -/
structure ScanInv (sb : Buf) (i : Nat) (P : Walk → Prop) : Prop where
  note : ∀ lvl b w, P w → b ≠ 0 → out_of_range sb b = false → P (note_block sb i lvl b w)
  bad : ∀ lvl e w, P w → bad_ptr sb e = true →
    P { w with out := w.out ++ [Line.bad_block i lvl e], bad_block_errors := true }
  rderr : ∀ lvl blk w, P w → out_of_range sb blk = false →
    fread_items w.fp (blk * BLOCK_SIZE) 4 (BLOCK_SIZE / 4) ≠ BLOCK_SIZE / 4 →
    P { w with out := w.out ++ [Line.read_error i lvl] }
  write : ∀ blk w0 w, P w0 → P w → blk ≠ 0 → out_of_range sb blk = false →
    P { w with
      fp := fwrite w.fp (blk * BLOCK_SIZE) (4 * (BLOCK_SIZE / 4))
              (clean_buf sb (fread_buf w0.fp (blk * BLOCK_SIZE))) }

/-- A property of the walk state kept by each elementary action the walker takes
for inode `i`: those of a scan, and clearing a pointer field of the inode. -/
structure WalkInv (sb : Buf) (i : Nat) (P : Walk → Prop) extends ScanInv sb i P : Prop where
  clear : ∀ lvl off w, P w → PtrOff i off → valid_inode w.inodes i = true →
    bad_ptr sb (get32 w.inodes off) = true →
    P (clear_pointer i lvl off (get32 w.inodes off) w)

/-! ## The state of `main` when the checks start -/

/-- The superblock `sb` of `main` after validation. -/
def sb_of (img : File) : Buf :=
  (validate_superblock (fread_buf img (BLOCK_SIZE * SUPERBLOCK_BLOCK))).sb

/-- The image file after the superblock phase (lines 143-149). -/
def fp_after_sb (img : File) : File :=
  if (validate_superblock (fread_buf img (BLOCK_SIZE * SUPERBLOCK_BLOCK))).super_errors = true
  then fwrite img (BLOCK_SIZE * SUPERBLOCK_BLOCK) sizeof_Superblock (sb_of img) else img

/-- The report after the superblock phase. -/
def out_after_sb (img : File) : List Line :=
  (validate_superblock (fread_buf img (BLOCK_SIZE * SUPERBLOCK_BLOCK))).out ++
    [if (validate_superblock (fread_buf img (BLOCK_SIZE * SUPERBLOCK_BLOCK))).super_errors = true
      then Line.superblock_fixed else Line.superblock_ok]

/-- The state in which a run that meets no fatal error ends. -/
def run_done (img : File) : Done :=
  check_image (fp_after_sb img) (sb_of img)
    (fread_buf (fp_after_sb img) (BLOCK_SIZE * sb_inode_bitmap_block (sb_of img)))
    (fread_buf (fp_after_sb img) (BLOCK_SIZE * sb_data_bitmap_block (sb_of img)))
    (fread_buf (fp_after_sb img) (BLOCK_SIZE * sb_inode_table_start (sb_of img)))
    (out_after_sb img)

/-- The walk state when the loop over the inodes starts (lines 183-217). -/
def walk_start (img : File) : Walk :=
  let fp := fp_after_sb img
  let sb := sb_of img
  let inodes := fread_buf fp (BLOCK_SIZE * sb_inode_table_start sb)
  let ib := check_inode_bitmap inodes (fread_buf fp (BLOCK_SIZE * sb_inode_bitmap_block sb))
    (sb_inode_count sb) (out_after_sb img)
  { fp := if ib.inode_bitmap_errors = true then
      fwrite fp (BLOCK_SIZE * sb_inode_bitmap_block sb) BLOCK_SIZE ib.inode_bitmap else fp,
    inodes := inodes,
    data_bitmap := fread_buf fp (BLOCK_SIZE * sb_data_bitmap_block sb),
    block_refs := fun _ => 0, bad_block_errors := false,
    out := ib.out ++
      [if ib.inode_bitmap_errors = true then Line.inode_bitmap_updated else Line.inode_bitmap_ok] }

/-- The walk state when the loop over the inodes ends. -/
def walk_end (img : File) : Walk :=
  walk_inodes (sb_of img) (sb_inode_count (sb_of img)) (walk_start img)

/-- The state of the final pass over the data bitmap when it ends (lines 458-467). -/
def final_pass (img : File) : DbState :=
  let w := walk_end img
  let dup := for_range (sb_first_data_block (sb_of img)) TOTAL_BLOCKS
    (duplicate_step w.block_refs) { duplicate_block_errors := false, out := w.out }
  for_range (sb_first_data_block (sb_of img)) TOTAL_BLOCKS (data_bitmap_step w.block_refs)
    { data_bitmap := w.data_bitmap, data_bitmap_errors := false,
      out := (dup.out ++ [if dup.duplicate_block_errors = true then Line.duplicate_found
          else Line.duplicate_ok]) ++
        [if w.bad_block_errors = true then Line.bad_found else Line.bad_ok] }

/-- Every block whose counter is not zero has its bit set in the tool's data
bitmap, and only blocks of the data region have a counter that is not zero. -/
def RefsMarked (sb : Buf) (w : Walk) : Prop :=
  ∀ b, w.block_refs b ≠ 0 →
    is_bit_set w.data_bitmap b = 1 ∧ sb_first_data_block sb ≤ b ∧ b < sb_total_blocks sb

/-- The walk has not touched the file below the data region: the file has not
shrunk and each byte of `fp0` below block 8 is as it was. -/
def LowFrame (fp0 : File) (w : Walk) : Prop :=
  fp0.size ≤ w.fp.size ∧
    ∀ o, o < DATA_BLOCK_START * BLOCK_SIZE → o < fp0.size → w.fp.data o = fp0.data o

/-- The state of the inode bitmap loop when it ends (lines 184-198). -/
def inode_bitmap_end (img : File) : IbState :=
  check_inode_bitmap (fread_buf (fp_after_sb img) (BLOCK_SIZE * sb_inode_table_start (sb_of img)))
    (fread_buf (fp_after_sb img) (BLOCK_SIZE * sb_inode_bitmap_block (sb_of img)))
    (sb_inode_count (sb_of img)) (out_after_sb img)

/-! ## Concrete images -/

/-- A byte map given by the list of its non-zero bytes. -/
def bytes_of (l : List (Nat × Nat)) : Buf := fun o =>
  match l.lookup o with
  | some v => v
  | none => 0

/-- The bytes of a canonical superblock with `inode_count = 1`. -/
def canonical_sb_bytes : List (Nat × Nat) :=
  [(0, 0x4d), (1, 0xd3), (3, 0x10), (6, 64), (10, 1), (14, 2), (18, 3), (22, 8), (27, 1),
    (30, 1)]

/-- A 64-block image with a canonical superblock and one inode, live and marked in
the inode bitmap, whose `direct[0]` is block 10, while the data bitmap is empty
(scenario "missing bitmap bit"). -/
def img_missing_bit : File where
  size := 64 * 4096
  data := bytes_of (canonical_sb_bytes ++ [(4096, 1), (12288 + 32, 1), (12288 + 40, 10)])

/-- A 64-block image with magic 0, one live inode that is not marked in the inode
bitmap, with `direct[0] = 200` (out of range) and `direct[1] = 10`, and a data
bitmap in which only bit 20 is set. -/
def img_damaged : File where
  size := 64 * 4096
  data := bytes_of ([(3, 0x10), (6, 64), (10, 1), (14, 2), (18, 3), (22, 8), (27, 1), (30, 1)]
    ++ [(8192 + 2, 16), (12288 + 32, 1), (12288 + 40, 200), (12288 + 44, 10)])

/-! ## The data region during the walk -/

/-- File contents in which every bad 32-bit entry is zeroed: what a block holds
once it has been scanned as an indirection block and written back. -/
def clean_data (sb : Buf) (d : Buf) : Buf := fun o =>
  if bad_ptr sb (get32 d (o - o % 4)) = true then 0 else d o

/-- The two contents agree on block `blk`. -/
def BlockEq (a b : Buf) (blk : Nat) : Prop :=
  ∀ o, o < BLOCK_SIZE → a (blk * BLOCK_SIZE + o) = b (blk * BLOCK_SIZE + o)

/-- State of the data region during the walk, `orig` being the contents when the
walk started: the file holds all 64 blocks, each block of the data region is as
it was or is its cleaned version, and every block of the set `C` is cleaned. -/
def DataInv (sb : Buf) (orig : Buf) (C : Nat → Prop) (w : Walk) : Prop :=
  TOTAL_BLOCKS * BLOCK_SIZE ≤ w.fp.size ∧
  (∀ blk, DATA_BLOCK_START ≤ blk → blk < TOTAL_BLOCKS →
    BlockEq w.fp.data orig blk ∨ BlockEq w.fp.data (clean_data sb orig) blk) ∧
  (∀ blk, C blk → BlockEq w.fp.data (clean_data sb orig) blk)

/-! ## Trees of indirection blocks -/

/-- The scan of the tree under an in-range pointer: one nested `scan_block` per
level of `lvls` (one level for the single indirect pointer, two for the double,
three for the triple). -/
def scan_tree (sb : Buf) (i : Nat) : List Level → Nat → Walk → Walk
  | [] => no_child
  | lvl :: rest => scan_block sb i lvl (scan_tree sb i rest)

/-- The common shape of the handling of a pointer field of an inode (a direct
slot or one of the three indirect pointers): skip a zero pointer, clear a bad
one, count a good one and scan what it designates. -/
def ptr_step (sb : Buf) (i : Nat) (lvl : Level) (off : Nat) (scan : Nat → Walk → Walk)
    (w : Walk) : Walk :=
  if get32 w.inodes off = 0 then w
  else if out_of_range sb (get32 w.inodes off) = true then
    clear_pointer i lvl off (get32 w.inodes off) w
  else scan (get32 w.inodes off) (note_block sb i lvl (get32 w.inodes off) w)

/-- The indirection blocks of the tree of depth `depth` under the pointer `p`, in
the contents `orig`: `p` itself when it is a good pointer, and the blocks of the
trees under its entries. -/
def InTree (sb : Buf) (orig : Buf) : Nat → Nat → Nat → Prop
  | 0, _, _ => False
  | depth + 1, p, b =>
    p ≠ 0 ∧ out_of_range sb p = false ∧
      (b = p ∨ ∃ k, k < BLOCK_SIZE / 4 ∧
        InTree sb orig depth (get32 orig (p * BLOCK_SIZE + 4 * k)) b)

/-- A pointer is safe: zero, or a block of the data region. -/
def SafePtr (p : Nat) : Prop := p = 0 ∨ (DATA_BLOCK_START ≤ p ∧ p < TOTAL_BLOCKS)

/-- Every entry of every indirection block of the tree of depth `depth` under
`p`, in the contents `data`, is safe. -/
def SafeTree (data : Buf) : Nat → Nat → Prop
  | 0, _ => True
  | depth + 1, p =>
    p ≠ 0 → ∀ k, k < BLOCK_SIZE / 4 →
      SafePtr (get32 data (p * BLOCK_SIZE + 4 * k)) ∧
      SafeTree data depth (get32 data (p * BLOCK_SIZE + 4 * k))

/-- Pointer safety of an image: for every live inode below `inode_count`, the 12
direct slots and the three indirect pointers are safe, and so is every entry of
every indirection block reachable from them within the depth of their tree. -/
def PointerSafe (f : File) : Prop :=
  ∀ i, i < sb_inode_count (fread_buf f (BLOCK_SIZE * SUPERBLOCK_BLOCK)) →
    valid_inode (fread_buf f (BLOCK_SIZE * INODE_TABLE_START)) i = true →
    (∀ j, j < 12 →
      SafePtr (get32 (fread_buf f (BLOCK_SIZE * INODE_TABLE_START)) (off_direct i j))) ∧
    SafePtr (get32 (fread_buf f (BLOCK_SIZE * INODE_TABLE_START)) (off_single i)) ∧
    SafePtr (get32 (fread_buf f (BLOCK_SIZE * INODE_TABLE_START)) (off_double i)) ∧
    SafePtr (get32 (fread_buf f (BLOCK_SIZE * INODE_TABLE_START)) (off_triple i)) ∧
    SafeTree f.data 1 (get32 (fread_buf f (BLOCK_SIZE * INODE_TABLE_START)) (off_single i)) ∧
    SafeTree f.data 2 (get32 (fread_buf f (BLOCK_SIZE * INODE_TABLE_START)) (off_double i)) ∧
    SafeTree f.data 3 (get32 (fread_buf f (BLOCK_SIZE * INODE_TABLE_START)) (off_triple i))

/-- State of a pointer field (at byte offset `off` of the inode table) before the
walker handles it, `v` being its value when the walk started: the data region
invariant holds and the field still holds `v`, or zero. -/
def FieldPre (sb orig : Buf) (off v : Nat) (w : Walk) : Prop :=
  DataInv sb orig (fun _ => False) w ∧ (get32 w.inodes off = v ∨ get32 w.inodes off = 0)

/-- State of a pointer field heading a tree of depth `depth` once the walker has
handled it: the field is zero, or it holds its original value `v`, which is not
bad, and every indirection block of its tree is cleaned. -/
def FieldClean (sb orig : Buf) (off depth v : Nat) (w : Walk) : Prop :=
  DataInv sb orig (fun _ => False) w ∧
  (get32 w.inodes off = 0 ∨
    (get32 w.inodes off = v ∧ bad_ptr sb v = false ∧
      ∀ b, InTree sb orig depth v b → BlockEq w.fp.data (clean_data sb orig) b))

/-- The pointer fields of inode `i` with the depth of the tree each one heads: 0
for a direct slot, 1, 2 and 3 for the single, double and triple indirect
pointers. -/
def FieldOf (i off depth : Nat) : Prop :=
  (∃ j, j < 12 ∧ off = off_direct i j ∧ depth = 0) ∨ (off = off_single i ∧ depth = 1) ∨
    (off = off_double i ∧ depth = 2) ∨ (off = off_triple i ∧ depth = 3)

/-! ## Referenced blocks and consistent images -/

/-- The walk state `t` differs from `w` at most in the reference counters. -/
def SameButRefs (w t : Walk) : Prop :=
  t.fp = w.fp ∧ t.inodes = w.inodes ∧ t.data_bitmap = w.data_bitmap ∧
    t.bad_block_errors = w.bad_block_errors ∧ t.out = w.out

/-- From `w` to `t` only reference counters changed: the counter of each block
`b` was incremented `c b` times, and every non-zero value of `S` was counted at
least once. -/
def Counted (w t : Walk) (S : Nat → Prop) : Prop :=
  SameButRefs w t ∧ ∃ c : Nat → Nat,
    (∀ b, wrap_int (t.block_refs b) = wrap_int (w.block_refs b + (c b : Int))) ∧
    ∀ q, S q → q ≠ 0 → 1 ≤ c q

/-- A 64-block image that is fully consistent: canonical superblock with one
inode, live and marked in the inode bitmap, whose `direct[0]` is block 8, and a
data bitmap in which exactly bit 8 is set (scenario "clean image"). -/
def img_clean : File where
  size := 64 * 4096
  data := bytes_of (canonical_sb_bytes ++
    [(4096, 1), (8192 + 1, 1), (12288 + 32, 1), (12288 + 40, 8)])

/-- A 64-block image with a canonical superblock and two inodes, both live and
marked in the inode bitmap, whose `direct[0]` both are block 15, while the data
bitmap is empty (scenario "duplicate reference" with bit 15 clear). -/
def img_duplicate : File where
  size := 64 * 4096
  data := bytes_of
    [(0, 0x4d), (1, 0xd3), (3, 0x10), (6, 64), (10, 1), (14, 2), (18, 3), (22, 8), (27, 1),
      (30, 2), (4096, 3), (12288 + 32, 1), (12288 + 40, 15), (12288 + 256 + 32, 1),
      (12288 + 256 + 40, 15)]

/-- A file that holds block 0 only (4096 bytes), all of them zero. -/
def img_block0 : File where
  size := 4096
  data := bytes_of []

/-- A file of 4092 bytes that holds a canonical superblock with `inode_count = 1`
and nothing else. -/
def img_4092 : File where
  size := 4092
  data := bytes_of canonical_sb_bytes

/-! ## The inode table after the walk -/

/-- The inode table in which each pointer field (bytes 40..99 of an inode) of a
live inode that holds a bad pointer is zeroed, every other byte being as in
`inodes`. -/
def clean_inodes (sb : Buf) (inodes : Buf) : Buf := fun o =>
  if valid_inode inodes (o / sizeof_Inode) = true ∧ 40 ≤ o % sizeof_Inode ∧
      o % sizeof_Inode < 100 ∧ bad_ptr sb (get32 inodes (o - o % 4)) = true
  then 0 else inodes o

/-- A 64-block image with a canonical superblock and two inodes: inode 0 is live,
marked in the inode bitmap, with `direct[0] = 200` (out of range); inode 1 is
free (`n_links = 0`), not marked, also with `direct[0] = 200`; the data bitmap is
empty. -/
def img_free_inode : File where
  size := 64 * 4096
  data := bytes_of
    [(0, 0x4d), (1, 0xd3), (3, 0x10), (6, 64), (10, 1), (14, 2), (18, 3), (22, 8), (27, 1),
      (30, 2), (4096, 1), (12288 + 32, 1), (12288 + 40, 200), (12288 + 256 + 40, 200)]

/-- Block `b` is visited as an indirection block by the walk over the first `n`
inodes of the image: it is an indirection block of the single, double or triple
indirect tree of a live inode (a direct slot heads a tree of depth 0, which has
no indirection block). -/
def Visited (img : File) (n b : Nat) : Prop :=
  ∃ i off depth, i < n ∧
    valid_inode (fread_buf img (BLOCK_SIZE * INODE_TABLE_START)) i = true ∧
    FieldOf i off depth ∧
    InTree (sb_of img) img.data depth
      (get32 (fread_buf img (BLOCK_SIZE * INODE_TABLE_START)) off) b

/-! ## Occurrences of a block number among the pointers the traversal visits -/

/-- An indexed access to one of the three arrays, or the visit of a block. -/
inductive Access
  /-- A call `is_bit_set`, `set_bit` or `clear_bit` on `inode_bitmap` at `index`. -/
  | inode_bit (index : Nat)
  /-- A call `is_bit_set`, `set_bit` or `clear_bit` on `data_bitmap` at `index`. -/
  | data_bit (index : Nat)
  /-- An access `block_refs[index]` (`ref_array[index]` in `add_block_reference`). -/
  | counter (index : Nat)
  /-- The visit of the indirection block `blk`: `fseek`, `fread`, the loop over
  its entries, `fseek`, `fwrite`. -/
  | visit (blk : Nat)
  deriving DecidableEq, Repr

/-- Log of the loop `for (k = 0; k < n; k++) s = body k s`, `body_log k s` being the
log of iteration `k` started in state `s`. -/
def loop_log {σ : Type} (n : Nat) (body : Nat → σ → σ) (body_log : Nat → σ → List Access)
    (s : σ) : List Access :=
  match n with
  | 0 => []
  | k + 1 => loop_log k body body_log s ++ body_log k (for_loop k body s)

/-- Accesses of one iteration of the inode bitmap loop (lines 186-197):
`is_bit_set`, then `set_bit` or `clear_bit` when the bit is wrong. -/
def inode_bitmap_log (inodes : Buf) (i : Nat) (s : IbState) : List Access :=
  [Access.inode_bit i] ++
    if valid_inode inodes i = true ∧ is_bit_set s.inode_bitmap i = 0 then [Access.inode_bit i]
    else if valid_inode inodes i = false ∧ is_bit_set s.inode_bitmap i ≠ 0 then
      [Access.inode_bit i]
    else []

/-- Accesses of `add_block_reference` (lines 65-66): the counter, under the range
test. -/
def add_block_reference_log (block : Nat) (sb : Buf) : List Access :=
  if sb_first_data_block sb ≤ block ∧ block < sb_total_blocks sb then [Access.counter block]
  else []

/-- Accesses of the branch for an in-range pointer (`note_block`):
`add_block_reference`, `is_bit_set`, and `set_bit` when the bit is clear. -/
def note_block_log (sb : Buf) (block : Nat) (w : Walk) : List Access :=
  add_block_reference_log block sb ++ [Access.data_bit block] ++
    if is_bit_set w.data_bitmap block = 0 then [Access.data_bit block] else []

/-- Accesses of `direct_step`. -/
def direct_log (sb : Buf) (i j : Nat) (w : Walk) : List Access :=
  let block := get32 w.inodes (off_direct i j)
  if block = 0 then []
  else if out_of_range sb block = true then []
  else note_block_log sb block w

/-- Accesses of `entry_step`, `child_log` being the log of `child`. -/
def entry_log (sb : Buf) (i : Nat) (lvl : Level) (child_log : Nat → Walk → List Access)
    (k : Nat) (s : Scan) : List Access :=
  let e := get32 s.buf (4 * k)
  if e = 0 then []
  else if out_of_range sb e = true then []
  else note_block_log sb e s.w ++ child_log e (note_block sb i lvl e s.w)

/-- Accesses of `scan_block`: the visit of `blk`, then the loop over its entries. -/
def scan_block_log (sb : Buf) (i : Nat) (lvl : Level) (child : Nat → Walk → Walk)
    (child_log : Nat → Walk → List Access) (blk : Nat) (w : Walk) : List Access :=
  let count := BLOCK_SIZE / 4
  let w := if fread_items w.fp (blk * BLOCK_SIZE) 4 count ≠ count then
      { w with out := w.out ++ [Line.read_error i lvl] } else w
  [Access.visit blk] ++
    loop_log count (entry_step sb i lvl child) (entry_log sb i lvl child_log)
      { buf := fread_buf w.fp (blk * BLOCK_SIZE), w := w }

/-- Accesses of `no_child`: none. -/
def no_child_log (_e : Nat) (_w : Walk) : List Access := []

/-- Accesses of `single_indirect`. -/
def single_indirect_log (sb : Buf) (i : Nat) (w : Walk) : List Access :=
  let iblock := get32 w.inodes (off_single i)
  if iblock ≠ 0 then
    if out_of_range sb iblock = true then []
    else
      note_block_log sb iblock w ++
        scan_block_log sb i Level.single_entry no_child no_child_log iblock
          (note_block sb i Level.single_ptr iblock w)
  else []

/-- Accesses of `double_indirect`. -/
def double_indirect_log (sb : Buf) (i : Nat) (w : Walk) : List Access :=
  let iblock := get32 w.inodes (off_double i)
  if iblock ≠ 0 then
    if out_of_range sb iblock = true then []
    else
      note_block_log sb iblock w ++
        scan_block_log sb i Level.double_l1
          (scan_block sb i Level.double_l2 no_child)
          (scan_block_log sb i Level.double_l2 no_child no_child_log) iblock
          (note_block sb i Level.double_ptr iblock w)
  else []

/-- Accesses of `triple_indirect`. -/
def triple_indirect_log (sb : Buf) (i : Nat) (w : Walk) : List Access :=
  let iblock := get32 w.inodes (off_triple i)
  if iblock ≠ 0 then
    if out_of_range sb iblock = true then []
    else
      note_block_log sb iblock w ++
        scan_block_log sb i Level.triple_l1
          (scan_block sb i Level.triple_l2 (scan_block sb i Level.triple_l3 no_child))
          (scan_block_log sb i Level.triple_l2 (scan_block sb i Level.triple_l3 no_child)
            (scan_block_log sb i Level.triple_l3 no_child no_child_log)) iblock
          (note_block sb i Level.triple_ptr iblock w)
  else []

/-- Accesses of `inode_step`. -/
def inode_log (sb : Buf) (i : Nat) (w : Walk) : List Access :=
  if valid_inode w.inodes i = false then []
  else
    let w1 := for_loop 12 (direct_step sb i) w
    let w2 := single_indirect sb i w1
    let w3 := double_indirect sb i w2
    loop_log 12 (direct_step sb i) (direct_log sb i) w ++ single_indirect_log sb i w1 ++
      double_indirect_log sb i w2 ++ triple_indirect_log sb i w3

/-- Accesses of the walk. -/
def walk_log (sb : Buf) (inode_count : Nat) (w : Walk) : List Access :=
  loop_log inode_count (inode_step sb) (inode_log sb) w

/-- Accesses of one iteration of the duplicate loop (lines 437-438): the test
reads `block_refs[i]`, the `printf` reads it again. -/
def duplicate_log (block_refs : Nat → Int) (i : Nat) (_s : DupState) : List Access :=
  [Access.counter i] ++ if block_refs i > 1 then [Access.counter i] else []

/-- Accesses of one iteration of the final pass (lines 460-463): `is_bit_set`,
then `block_refs[i]` when the bit is set, then `clear_bit` when the count is 0. -/
def data_bitmap_log (block_refs : Nat → Int) (i : Nat) (s : DbState) : List Access :=
  [Access.data_bit i] ++
    if is_bit_set s.data_bitmap i ≠ 0 then
      [Access.counter i] ++ if block_refs i = 0 then [Access.data_bit i] else []
    else []

/-- Accesses of `for (k = lo; k < hi; k++)`. -/
def range_log {σ : Type} (lo hi : Nat) (body : Nat → σ → σ) (body_log : Nat → σ → List Access)
    (s : σ) : List Access :=
  loop_log (hi - lo) (fun t => body (lo + t)) (fun t => body_log (lo + t)) s

/-- The accesses of a run that meets no fatal error, in program order: the inode
bitmap loop, the walk, the duplicate loop and the final pass. -/
def run_log (img : File) : List Access :=
  let sb := sb_of img
  let inodes := fread_buf (fp_after_sb img) (BLOCK_SIZE * sb_inode_table_start sb)
  let w := walk_end img
  let dup := for_range (sb_first_data_block sb) TOTAL_BLOCKS (duplicate_step w.block_refs)
    { duplicate_block_errors := false, out := w.out }
  loop_log (sb_inode_count sb) (inode_bitmap_step inodes) (inode_bitmap_log inodes)
      { inode_bitmap := fread_buf (fp_after_sb img) (BLOCK_SIZE * sb_inode_bitmap_block sb),
        inode_bitmap_errors := false, out := out_after_sb img } ++
    walk_log sb (sb_inode_count sb) (walk_start img) ++
    range_log (sb_first_data_block sb) TOTAL_BLOCKS
      (duplicate_step w.block_refs) (duplicate_log w.block_refs)
      { duplicate_block_errors := false, out := w.out } ++
    range_log (sb_first_data_block sb) TOTAL_BLOCKS
      (data_bitmap_step w.block_refs) (data_bitmap_log w.block_refs)
      { data_bitmap := w.data_bitmap, data_bitmap_errors := false,
        out := (dup.out ++ [if dup.duplicate_block_errors = true then Line.duplicate_found
            else Line.duplicate_ok]) ++
          [if w.bad_block_errors = true then Line.bad_found else Line.bad_ok] }

/-- Number of visits of indirection blocks in a log. -/
def visits (l : List Access) : Nat :=
  l.countP (fun a => match a with
    | Access.visit _ => true
    | _ => false)

/-- The range the code relies on for each access: an inode index below 80, a block
index in 8..63 for the data bitmap and for the counters, a block in 8..63 for a
visit. -/
def Access.in_range : Access → Prop
  | Access.inode_bit i => i < 80
  | Access.data_bit b => 8 ≤ b ∧ b < 64
  | Access.counter b => 8 ≤ b ∧ b < 64
  | Access.visit b => 8 ≤ b ∧ b < 64

/-- A 64-block image with a canonical superblock and one live inode whose triple
indirect pointer is block 10, entry 0 of block 10 being 10 itself: the block
points back to itself at every level. -/
def img_cycle : File where
  size := 64 * 4096
  data := bytes_of
    [(0, 0x4d), (1, 0xd3), (3, 0x10), (6, 64), (10, 1), (14, 2), (18, 3), (22, 8), (27, 1),
      (30, 1), (4096, 1), (8192 + 1, 4), (12288 + 32, 1), (12288 + 96, 10), (10 * 4096, 10)]

/-- A 64-block image with a canonical superblock and one live inode, marked in the
inode bitmap, whose single, double and triple indirect pointers are 200, 3 and
70 (all out of range); the data bitmap is empty. -/
def img_bad_indirect : File where
  size := 64 * 4096
  data := bytes_of (canonical_sb_bytes ++
    [(4096, 1), (12288 + 32, 1), (12288 + 88, 200), (12288 + 92, 3), (12288 + 96, 70)])

/-- Two walk states that differ at most in the report. -/
def SameButOut (w t : Walk) : Prop :=
  t.fp = w.fp ∧ t.inodes = w.inodes ∧ t.data_bitmap = w.data_bitmap ∧
    t.block_refs = w.block_refs ∧ t.bad_block_errors = w.bad_block_errors
/-- The image `img_damaged` with its first 30 bytes (the magic and the seven layout
fields of the superblock) zeroed. -/
def img_other_layout : File where
  size := 64 * 4096
  data := fun o => if o < 30 then 0 else img_damaged.data o

end Vsfsck

/-!
# The shell (`LAB Section 14_ Group 3_ Term- project 2.c`)

A shallow embedding of the command history and of the redirection parsing of
the shell.  A C string is the list of its characters before the terminating
NUL; a pointer into a string buffer is the list that starts there.  `strdup`
always succeeds.
-/

namespace Shell

/-! ## Constants (`#define`s, lines 11-13) -/

def MAX_CMD_LEN : Nat := 1024
def MAX_ARGS : Nat := 100
def HISTORY_SIZE : Nat := 100

/-! ## Command history (lines 15-43) -/

/-- The globals `char *history[HISTORY_SIZE]` and `int history_count` (lines
15-16): a slot is `NULL` (`none`) or owns the copy of a command. -/
structure History where
  history : Nat → Option (List Char)
  history_count : Nat

/-- The globals when the program starts: zero-initialised. -/
def history_start : History := { history := fun _ => none, history_count := 0 }

/-- The call `memmove(a, a + 1, n * sizeof(char *))`: slot `i < n` receives what slot
`i + 1` held. -/
def memmove_down (a : Nat → Option (List Char)) (n : Nat) : Nat → Option (List Char) :=
  fun i => if i < n then a (i + 1) else a i

/-- The function `add_to_history` (lines 25-43). -/
def add_to_history (cmd : List Char) (h : History) : History :=
  if h.history_count < HISTORY_SIZE then
    { history := Function.update h.history h.history_count (some cmd),
      history_count := h.history_count + 1 }
  else
    -- Rotate history
    { history := Function.update (memmove_down h.history (HISTORY_SIZE - 1))
        (HISTORY_SIZE - 1) (some cmd),
      history_count := h.history_count }

/-- The history after the calls `add_to_history(c)` for the commands `c` of `cmds`,
in order, from program start. -/
def history_after (cmds : List (List Char)) : History :=
  cmds.foldl (fun h c => add_to_history c h) history_start

/-! ## Strings -/

/-- The call `strchr(s, c)`: the index of the first `c` in `s`, `none` for `NULL`. -/
def strchr : List Char → Char → Option Nat
  | [], _ => none
  | x :: xs, c => if x = c then some 0 else (strchr xs c).map (fun k => k + 1)

/-- Whether `s` starts with `t`. -/
def starts_with : List Char → List Char → Bool
  | _, [] => true
  | [], _ :: _ => false
  | x :: xs, y :: ys => decide (x = y) && starts_with xs ys

/-- The call `strstr(s, t)`: the index of the first occurrence of `t` in `s`, `none`
for `NULL`. -/
def strstr : List Char → List Char → Option Nat
  | [], t => if starts_with [] t = true then some 0 else none
  | x :: xs, t =>
    if starts_with (x :: xs) t = true then some 0 else (strstr xs t).map (fun k => k + 1)

/-- The function `trim_whitespace` (lines 45-63), on a non-NULL string: the leading
blanks and tabs are skipped; when something is left, `end` moves back from the
last character over blanks, tabs and newlines while `end > str`, and the string
is cut after `end`. -/
def trim_whitespace (str : List Char) : List Char :=
  match str.dropWhile (fun c => c = ' ' || c = '\t') with
  | [] => []
  | c :: rest =>
    c :: (rest.reverse.dropWhile (fun c => c = ' ' || c = '\t' || c = '\n')).reverse

/-! ## Redirection (lines 142-205) -/

/-- What `handle_redirection` has parsed when it forks: the three file names
(`NULL` is `none`) and the argument of `execute_command`. -/
structure Redirection where
  input : Option (List Char)
  output : Option (List Char)
  append : Option (List Char)
  command : List Char
  deriving DecidableEq, Repr

/-- The parsing part of `handle_redirection` (lines 142-166, 200).  The string `cmd`
is cut in place at each operator found: after `*in_pos = 0` the searches for
`>>` and `>` see the text before `<` only. -/
def handle_redirection (cmd : List Char) : Redirection :=
  -- Check for input redirection
  let in_pos := strchr cmd '<'
  let input := in_pos.map (fun k => trim_whitespace (cmd.drop (k + 1)))
  let cmd := match in_pos with
    | some k => cmd.take k
    | none => cmd
  -- Check for output redirection (append)
  match strstr cmd ['>', '>'] with
  | some k =>
    { input := input, output := none, append := some (trim_whitespace (cmd.drop (k + 2))),
      command := trim_whitespace (cmd.take k) }
  | none =>
    -- Check for output redirection (overwrite)
    match strchr cmd '>' with
    | some k =>
      { input := input, output := some (trim_whitespace (cmd.drop (k + 1))), append := none,
        command := trim_whitespace (cmd.take k) }
    | none => { input := input, output := none, append := none, command := trim_whitespace cmd }

end Shell

namespace Vsfsck

theorem for_loop_inv {σ : Type} (P : Nat → σ → Prop) (n : Nat) (body : Nat → σ → σ) (s : σ)
    (h0 : P 0 s) (hstep : ∀ k, k < n → ∀ t, P k t → P (k + 1) (body k t)) :
    P n (for_loop n body s) := by
  induction n with
  | zero => exact h0
  | succ m ih =>
    show P (m + 1) (body m (for_loop m body s))
    exact hstep m (Nat.lt_succ_self m) _
      (ih (fun k hk t ht => hstep k (Nat.lt_succ_of_lt hk) t ht))

theorem for_range_inv {σ : Type} (P : Nat → σ → Prop) (lo hi : Nat) (body : Nat → σ → σ)
    (s : σ) (hle : lo ≤ hi) (h0 : P lo s)
    (hstep : ∀ k, lo ≤ k → k < hi → ∀ t, P k t → P (k + 1) (body k t)) :
    P hi (for_range lo hi body s) := by
  have h := for_loop_inv (fun k t => P (lo + k) t) (hi - lo) (fun t => body (lo + t)) s h0
    (fun k hk t ht => hstep (lo + k) (Nat.le_add_right lo k) (by omega) t ht)
  have e : lo + (hi - lo) = hi := by omega
  simp only [e] at h
  exact h

theorem for_loop_zero {σ : Type} (body : Nat → σ → σ) (s : σ) : for_loop 0 body s = s := rfl

theorem for_loop_succ {σ : Type} (n : Nat) (body : Nat → σ → σ) (s : σ) :
    for_loop (n + 1) body s = body n (for_loop n body s) := rfl

/- From here on loops are unfolded only through `for_loop_zero` and `for_loop_succ`. -/
attribute [irreducible] for_loop

/-! ## Little-endian fields -/

theorem set32_apply_of_lt (b : Buf) (off v o : Nat) (h : o < off) : set32 b off v o = b o := by
  unfold set32
  rw [if_neg (by omega), if_neg (by omega), if_neg (by omega), if_neg (by omega)]

theorem set32_apply_of_ge (b : Buf) (off v o : Nat) (h : off + 4 ≤ o) :
    set32 b off v o = b o := by
  unfold set32
  rw [if_neg (by omega), if_neg (by omega), if_neg (by omega), if_neg (by omega)]

theorem set32_zero_apply (b : Buf) (off o : Nat) :
    set32 b off 0 o = if off ≤ o ∧ o < off + 4 then 0 else b o := by
  unfold set32
  by_cases h0 : o = off
  · subst h0; simp
  by_cases h1 : o = off + 1
  · subst h1; simp
  by_cases h2 : o = off + 2
  · subst h2; simp
  by_cases h3 : o = off + 3
  · subst h3; simp
  rw [if_neg h0, if_neg h1, if_neg h2, if_neg h3, if_neg (by omega)]

theorem set16_apply_of_ge (b : Buf) (off v o : Nat) (h : off + 2 ≤ o) :
    set16 b off v o = b o := by
  unfold set16
  rw [if_neg (by omega), if_neg (by omega)]

theorem get32_congr (b c : Buf) (off : Nat) (h : ∀ t, t < 4 → b (off + t) = c (off + t)) :
    get32 b off = get32 c off := by
  unfold get32
  have h0 := h 0 (by omega)
  rw [Nat.add_zero] at h0
  rw [h0, h 1 (by omega), h 2 (by omega), h 3 (by omega)]

theorem get32_set32_same (b : Buf) (off v : Nat) (hv : v < 4294967296) :
    get32 (set32 b off v) off = v := by
  unfold get32 set32
  rw [if_pos rfl, if_neg (by omega), if_pos rfl, if_neg (by omega), if_neg (by omega),
    if_pos rfl, if_neg (by omega), if_neg (by omega), if_neg (by omega), if_pos rfl]
  omega

theorem get32_set32_disjoint (b : Buf) (off v off2 : Nat) (h : off2 + 4 ≤ off ∨ off + 4 ≤ off2) :
    get32 (set32 b off v) off2 = get32 b off2 := by
  apply get32_congr
  intro t ht
  rcases h with h | h
  · exact set32_apply_of_lt b off v _ (by omega)
  · exact set32_apply_of_ge b off v _ (by omega)

theorem get16_set16_same (b : Buf) (off v : Nat) (hv : v < 65536) :
    get16 (set16 b off v) off = v := by
  unfold get16 set16
  rw [if_pos rfl, if_neg (by omega), if_pos rfl]
  omega

theorem get32_set16_disjoint (b : Buf) (off v off2 : Nat) (h : off + 2 ≤ off2) :
    get32 (set16 b off v) off2 = get32 b off2 := by
  apply get32_congr
  intro t _
  exact set16_apply_of_ge b off v _ (by omega)

theorem get16_set32_disjoint (b : Buf) (off v off2 : Nat) (h : off2 + 2 ≤ off) :
    get16 (set32 b off v) off2 = get16 b off2 := by
  unfold get16
  rw [set32_apply_of_lt b off v off2 (by omega), set32_apply_of_lt b off v (off2 + 1) (by omega)]

/-! ## Bitmaps -/

theorem is_bit_set_eq (bm : Buf) (i : Nat) :
    is_bit_set bm i = ((bm (i / 8)).testBit (i % 8)).toNat := by
  unfold is_bit_set
  rw [Nat.toNat_testBit, Nat.and_one_is_mod, Nat.shiftRight_eq_div_pow]

theorem is_bit_set_cases (bm : Buf) (i : Nat) : is_bit_set bm i = 0 ∨ is_bit_set bm i = 1 := by
  rw [is_bit_set_eq]
  cases (bm (i / 8)).testBit (i % 8) <;> simp

theorem testBit_set_byte (x k j : Nat) (hj : j < 8) :
    ((x ||| (1 <<< k)) % 256).testBit j = (decide (k = j) || x.testBit j) := by
  have e : (256 : Nat) = 2 ^ 8 := by norm_num
  rw [e, Nat.testBit_mod_two_pow, Nat.testBit_or, Nat.one_shiftLeft, Nat.testBit_two_pow]
  simp [hj, Bool.or_comm]

theorem testBit_clear_byte (x k j : Nat) (hj : j < 8) :
    ((x &&& (0xFFFFFFFF ^^^ (1 <<< k))) % 256).testBit j = (!decide (k = j) && x.testBit j) := by
  have e : (256 : Nat) = 2 ^ 8 := by norm_num
  have e2 : (0xFFFFFFFF : Nat) = 2 ^ 32 - 1 := by norm_num
  rw [e, Nat.testBit_mod_two_pow, Nat.testBit_and, Nat.testBit_xor, Nat.one_shiftLeft,
    Nat.testBit_two_pow, e2, Nat.testBit_two_pow_sub_one]
  have h32 : j < 32 := by omega
  by_cases hkj : k = j <;> simp [hj, h32, hkj, Bool.and_comm]

theorem is_bit_set_set_bit (bm : Buf) (i j : Nat) :
    is_bit_set (set_bit bm i) j = if j = i then 1 else is_bit_set bm j := by
  rw [is_bit_set_eq, is_bit_set_eq]
  unfold set_bit
  by_cases hb : j / 8 = i / 8
  · rw [hb, Function.update_same, testBit_set_byte _ _ _ (Nat.mod_lt _ (by norm_num))]
    by_cases hji : j = i
    · subst hji; simp
    · have : i % 8 ≠ j % 8 := by omega
      simp [this, hji]
  · have hji : j ≠ i := fun h => hb (by rw [h])
    rw [Function.update_noteq hb, if_neg hji]

theorem is_bit_set_clear_bit (bm : Buf) (i j : Nat) :
    is_bit_set (clear_bit bm i) j = if j = i then 0 else is_bit_set bm j := by
  rw [is_bit_set_eq, is_bit_set_eq]
  unfold clear_bit
  by_cases hb : j / 8 = i / 8
  · rw [hb, Function.update_same, testBit_clear_byte _ _ _ (Nat.mod_lt _ (by norm_num))]
    by_cases hji : j = i
    · subst hji; simp
    · have : i % 8 ≠ j % 8 := by omega
      simp [this, hji]
  · have hji : j ≠ i := fun h => hb (by rw [h])
    rw [Function.update_noteq hb, if_neg hji]

/-! ## Superblock validation -/

theorem check_field32_field (f : SbField) (off expected : Nat) (s : SbState)
    (he : expected < 4294967296) : get32 (check_field32 f off expected s).sb off = expected := by
  unfold check_field32
  by_cases h : get32 s.sb off = expected
  · rw [if_neg (not_not.mpr h)]; exact h
  · rw [if_pos h]; exact get32_set32_same _ _ _ he

theorem check_field32_other (f : SbField) (off expected : Nat) (s : SbState) (off2 : Nat)
    (h : off2 + 4 ≤ off ∨ off + 4 ≤ off2) :
    get32 (check_field32 f off expected s).sb off2 = get32 s.sb off2 := by
  unfold check_field32
  split
  · exact get32_set32_disjoint _ _ _ _ h
  · rfl

theorem check_field32_magic (f : SbField) (off expected : Nat) (s : SbState) (h : 2 ≤ off) :
    get16 (check_field32 f off expected s).sb 0 = get16 s.sb 0 := by
  unfold check_field32
  split
  · exact get16_set32_disjoint _ _ _ _ (by omega)
  · rfl

theorem check_magic_field (s : SbState) : get16 (check_magic s).sb 0 = EXPECTED_MAGIC := by
  unfold check_magic sb_magic
  by_cases h : get16 s.sb 0 = EXPECTED_MAGIC
  · rw [if_neg (not_not.mpr h)]; exact h
  · rw [if_pos h]; exact get16_set16_same _ _ _ (by decide)

theorem check_magic_other (s : SbState) (off2 : Nat) (h : 2 ≤ off2) :
    get32 (check_magic s).sb off2 = get32 s.sb off2 := by
  unfold check_magic
  split
  · exact get32_set16_disjoint _ _ _ _ (by omega)
  · rfl

theorem check_inode_count_field (s : SbState) :
    get32 (check_inode_count s).sb 30 ≤ max_inodes := by
  unfold check_inode_count sb_inode_count
  by_cases h : get32 s.sb 30 > max_inodes
  · rw [if_pos h, get32_set32_same _ _ _ (by decide)]
  · rw [if_neg h]; omega

theorem check_inode_count_other (s : SbState) (off2 : Nat) (h : off2 + 4 ≤ 30) :
    get32 (check_inode_count s).sb off2 = get32 s.sb off2 := by
  unfold check_inode_count
  split
  · exact get32_set32_disjoint _ _ _ _ (Or.inl h)
  · rfl

theorem check_inode_count_magic (s : SbState) :
    get16 (check_inode_count s).sb 0 = get16 s.sb 0 := by
  unfold check_inode_count
  split
  · exact get16_set32_disjoint _ _ _ _ (by omega)
  · rfl

/-- The validated superblock is canonical, whatever was read. -/
theorem validate_canonical (sb : Buf) : Canonical (validate_superblock sb).sb := by
  unfold Canonical validate_superblock sb_magic sb_block_size sb_total_blocks
    sb_inode_bitmap_block sb_data_bitmap_block sb_inode_table_start sb_first_data_block
    sb_inode_size sb_inode_count
  refine ⟨?_, ?_, ?_, ?_, ?_, ?_, ?_, ?_, ?_⟩
  · simp only [check_inode_count_magic, check_field32_magic, Nat.reduceLeDiff, check_magic_field]
  · simp only [check_inode_count_other, check_field32_other, Nat.reduceLeDiff, Nat.reduceAdd,
      or_true, true_or]
    exact check_field32_field _ _ _ _ (by decide)
  · simp only [check_inode_count_other, check_field32_other, Nat.reduceLeDiff, Nat.reduceAdd,
      or_true, true_or]
    exact check_field32_field _ _ _ _ (by decide)
  · simp only [check_inode_count_other, check_field32_other, Nat.reduceLeDiff, Nat.reduceAdd,
      or_true, true_or]
    exact check_field32_field _ _ _ _ (by decide)
  · simp only [check_inode_count_other, check_field32_other, Nat.reduceLeDiff, Nat.reduceAdd,
      or_true, true_or]
    exact check_field32_field _ _ _ _ (by decide)
  · simp only [check_inode_count_other, check_field32_other, Nat.reduceLeDiff, Nat.reduceAdd,
      or_true, true_or]
    exact check_field32_field _ _ _ _ (by decide)
  · simp only [check_inode_count_other, check_field32_other, Nat.reduceLeDiff, Nat.reduceAdd,
      or_true, true_or]
    exact check_field32_field _ _ _ _ (by decide)
  · simp only [check_inode_count_other, check_field32_other, Nat.reduceLeDiff, Nat.reduceAdd,
      or_true, true_or]
    exact check_field32_field _ _ _ _ (by decide)
  · exact check_inode_count_field _

/-- A canonical superblock passes validation untouched and without a line. -/
theorem validate_of_canonical (sb : Buf) (h : Canonical sb) :
    validate_superblock sb = { sb := sb, super_errors := false, out := [] } := by
  obtain ⟨h1, h2, h3, h4, h5, h6, h7, h8, h9⟩ := h
  unfold sb_magic at h1
  unfold sb_block_size at h2
  unfold sb_total_blocks at h3
  unfold sb_inode_bitmap_block at h4
  unfold sb_data_bitmap_block at h5
  unfold sb_inode_table_start at h6
  unfold sb_first_data_block at h7
  unfold sb_inode_size at h8
  unfold sb_inode_count at h9
  unfold validate_superblock
  simp only [check_magic, check_field32, check_inode_count, sb_magic, sb_inode_count,
    h1, h2, h3, h4, h5, h6, h7, h8, ne_eq, not_true_eq_false, if_false, gt_iff_lt,
    not_lt.mpr h9]

/-- When validation sets no flag it has changed nothing and printed nothing. -/
theorem validate_clean (sb : Buf) (h : (validate_superblock sb).super_errors = false) :
    (validate_superblock sb).sb = sb ∧ (validate_superblock sb).out = [] := by
  have key : ∀ s : SbState, (s.super_errors = false → s.sb = sb ∧ s.out = []) →
      (∀ f off e, (check_field32 f off e s).super_errors = false →
        (check_field32 f off e s).sb = sb ∧ (check_field32 f off e s).out = []) ∧
      ((check_magic s).super_errors = false →
        (check_magic s).sb = sb ∧ (check_magic s).out = []) ∧
      ((check_inode_count s).super_errors = false →
        (check_inode_count s).sb = sb ∧ (check_inode_count s).out = []) := by
    intro s hs
    refine ⟨?_, ?_, ?_⟩
    · intro f off e
      unfold check_field32
      split
      · intro hc; simp at hc
      · exact hs
    · unfold check_magic
      split
      · intro hc; simp at hc
      · exact hs
    · unfold check_inode_count
      split
      · intro hc; simp at hc
      · exact hs
  unfold validate_superblock at h ⊢
  have k0 := (key { sb := sb, super_errors := false, out := [] } (fun _ => ⟨rfl, rfl⟩)).2.1
  have k1 := (key _ k0).1 SbField.block_size 2 BLOCK_SIZE
  have k2 := (key _ k1).1 SbField.total_blocks 6 TOTAL_BLOCKS
  have k3 := (key _ k2).1 SbField.inode_bitmap_block 10 INODE_BITMAP_BLOCK
  have k4 := (key _ k3).1 SbField.data_bitmap_block 14 DATA_BITMAP_BLOCK
  have k5 := (key _ k4).1 SbField.inode_table_start 18 INODE_TABLE_START
  have k6 := (key _ k5).1 SbField.first_data_block 22 DATA_BLOCK_START
  have k7 := (key _ k6).1 SbField.inode_size 26 sizeof_Inode
  have k8 := (key _ k7).2.2
  exact k8 h

/-! ## The scan of an indirection block -/

theorem bad_ptr_zero (sb : Buf) : bad_ptr sb 0 = false := by
  simp [bad_ptr]

theorem bad_ptr_of (sb : Buf) (e : Nat) (h0 : e ≠ 0) (h : out_of_range sb e = true) :
    bad_ptr sb e = true := by
  simp [bad_ptr, h0, h]

theorem bad_ptr_false_of (sb : Buf) (e : Nat) (h : out_of_range sb e = false) :
    bad_ptr sb e = false := by
  simp [bad_ptr, h]

theorem clean_upto_apply_ge (sb : Buf) (n : Nat) (buf : Buf) (o : Nat) (h : 4 * n ≤ o) :
    clean_upto sb n buf o = buf o := by
  unfold clean_upto
  rw [if_neg (by omega)]

theorem get32_clean_upto (sb : Buf) (n : Nat) (buf : Buf) :
    get32 (clean_upto sb n buf) (4 * n) = get32 buf (4 * n) := by
  apply get32_congr
  intro t _
  exact clean_upto_apply_ge sb n buf _ (by omega)

/-- The entry loop leaves in the buffer exactly the bytes `clean_upto` describes. -/
theorem scan_buf (sb : Buf) (i : Nat) (lvl : Level) (child : Nat → Walk → Walk) (n : Nat)
    (s : Scan) :
    (for_loop n (entry_step sb i lvl child) s).buf = clean_upto sb n s.buf := by
  induction n with
  | zero =>
    rw [for_loop_zero]
    funext o
    rw [clean_upto_apply_ge sb 0 s.buf o (by omega)]
  | succ m ih =>
    rw [for_loop_succ]
    generalize for_loop m (entry_step sb i lvl child) s = t at ih
    have he : get32 t.buf (4 * m) = get32 s.buf (4 * m) := by
      rw [ih]; exact get32_clean_upto sb m s.buf
    have hword : ∀ o, 4 * m ≤ o → o < 4 * (m + 1) → o - o % 4 = 4 * m := by
      intro o h1 h2; omega
    unfold entry_step
    simp only [he]
    by_cases h0 : get32 s.buf (4 * m) = 0
    · rw [if_pos h0, ih]
      funext o
      unfold clean_upto
      by_cases ho : o < 4 * m
      · simp [ho, show o < 4 * (m + 1) by omega]
      · have hb : ¬ (o < 4 * (m + 1) ∧ bad_ptr sb (get32 s.buf (o - o % 4)) = true) := by
          rintro ⟨h1, h2⟩
          rw [hword o (by omega) h1, h0, bad_ptr_zero] at h2
          exact Bool.noConfusion h2
        rw [if_neg hb, if_neg (by omega)]
    · rw [if_neg h0]
      by_cases hr : out_of_range sb (get32 s.buf (4 * m)) = true
      · rw [if_pos hr]
        show set32 t.buf (4 * m) 0 = _
        rw [ih]
        funext o
        rw [set32_zero_apply]
        unfold clean_upto
        by_cases ho : o < 4 * m
        · simp [ho, show o < 4 * (m + 1) by omega, show ¬ (4 * m ≤ o) by omega]
        · by_cases ho2 : o < 4 * (m + 1)
          · have hw := hword o (by omega) ho2
            rw [if_pos ⟨by omega, by omega⟩, hw, if_pos ⟨ho2, bad_ptr_of sb _ h0 hr⟩]
          · rw [if_neg (by omega), if_neg (by omega), if_neg (by omega)]
      · rw [if_neg hr]
        show t.buf = _
        rw [ih]
        funext o
        unfold clean_upto
        by_cases ho : o < 4 * m
        · simp [ho, show o < 4 * (m + 1) by omega]
        · have hb : ¬ (o < 4 * (m + 1) ∧ bad_ptr sb (get32 s.buf (o - o % 4)) = true) := by
            rintro ⟨h1, h2⟩
            rw [hword o (by omega) h1, bad_ptr_false_of sb _ (by simpa using hr)] at h2
            exact Bool.noConfusion h2
          rw [if_neg hb, if_neg (by omega)]

/-- The entry loop keeps every property that the elementary actions and the
treatment of an in-range entry keep. -/
theorem scan_entries_inv (sb : Buf) (i : Nat) (P : Walk → Prop) (hP : ScanInv sb i P)
    (lvl : Level) (child : Nat → Walk → Walk)
    (hchild : ∀ e w, P w → e ≠ 0 → out_of_range sb e = false → P (child e w))
    (n : Nat) (s : Scan) (hs : P s.w) :
    P (for_loop n (entry_step sb i lvl child) s).w := by
  induction n with
  | zero => rw [for_loop_zero]; exact hs
  | succ m ih =>
    rw [for_loop_succ]
    generalize for_loop m (entry_step sb i lvl child) s = t at ih
    unfold entry_step
    by_cases h0 : get32 t.buf (4 * m) = 0
    · simp only [h0, if_true]; exact ih
    · by_cases hr : out_of_range sb (get32 t.buf (4 * m)) = true
      · simp only [h0, hr, if_true, if_false]
        exact hP.bad lvl _ t.w ih (bad_ptr_of sb _ h0 hr)
      · simp only [h0, hr, if_false]
        have hr2 : out_of_range sb (get32 t.buf (4 * m)) = false := by simpa using hr
        exact hchild _ _ (hP.note lvl _ t.w ih h0 hr2) h0 hr2

/-- The scan of one indirection block keeps every such property. -/
theorem scan_block_inv (sb : Buf) (i : Nat) (P : Walk → Prop) (hP : ScanInv sb i P)
    (lvl : Level) (child : Nat → Walk → Walk)
    (hchild : ∀ e w, P w → e ≠ 0 → out_of_range sb e = false → P (child e w))
    (blk : Nat) (w : Walk) (hw : P w) (hb0 : blk ≠ 0) (hb : out_of_range sb blk = false) :
    P (scan_block sb i lvl child blk w) := by
  unfold scan_block
  simp only []
  have hw1 : P (if fread_items w.fp (blk * BLOCK_SIZE) 4 (BLOCK_SIZE / 4) ≠ BLOCK_SIZE / 4 then
      { w with out := w.out ++ [Line.read_error i lvl] } else w) := by
    split
    · exact hP.rderr lvl blk w hw hb (by assumption)
    · exact hw
  have hfp : (if fread_items w.fp (blk * BLOCK_SIZE) 4 (BLOCK_SIZE / 4) ≠ BLOCK_SIZE / 4 then
      { w with out := w.out ++ [Line.read_error i lvl] } else w).fp = w.fp := by
    split <;> rfl
  rw [scan_buf]
  simp only [hfp]
  exact hP.write blk w _ hw (scan_entries_inv sb i P hP lvl child hchild _ _ hw1) hb0 hb

theorem no_child_inv (sb : Buf) (P : Walk → Prop) :
    ∀ e w, P w → e ≠ 0 → out_of_range sb e = false → P (no_child e w) :=
  fun _ _ hw _ _ => hw

/-! ## Properties kept by the walk -/

theorem direct_step_inv (sb : Buf) (i : Nat) (P : Walk → Prop) (hP : WalkInv sb i P)
    (j : Nat) (hj : j < 12) (w : Walk) (hv : valid_inode w.inodes i = true) (hw : P w) :
    P (direct_step sb i j w) := by
  unfold direct_step
  by_cases h0 : get32 w.inodes (off_direct i j) = 0
  · simp only [h0, if_true]; exact hw
  · by_cases hr : out_of_range sb (get32 w.inodes (off_direct i j)) = true
    · simp only [h0, hr, if_true, if_false]
      exact hP.clear _ _ w hw (Or.inl ⟨j, hj, rfl⟩) hv (bad_ptr_of sb _ h0 hr)
    · simp only [h0, hr, if_false]
      exact hP.note _ _ w hw h0 (by simpa using hr)

theorem single_indirect_inv (sb : Buf) (i : Nat) (P : Walk → Prop) (hP : WalkInv sb i P)
    (w : Walk) (hv : valid_inode w.inodes i = true) (hw : P w) :
    P (single_indirect sb i w) := by
  unfold single_indirect
  by_cases h0 : get32 w.inodes (off_single i) = 0
  · simp only [h0, ne_eq, not_true_eq_false, if_false]; exact hw
  · by_cases hr : out_of_range sb (get32 w.inodes (off_single i)) = true
    · simp only [h0, hr, ne_eq, not_false_eq_true, if_true]
      exact hP.clear _ _ w hw (Or.inr (Or.inl rfl)) hv (bad_ptr_of sb _ h0 hr)
    · simp only [h0, hr, ne_eq, not_false_eq_true, if_true, if_false]
      have hr2 : out_of_range sb (get32 w.inodes (off_single i)) = false := by simpa using hr
      exact scan_block_inv sb i P hP.toScanInv _ _ (no_child_inv sb P) _ _ (hP.note _ _ w hw h0 hr2) h0 hr2

theorem double_indirect_inv (sb : Buf) (i : Nat) (P : Walk → Prop) (hP : WalkInv sb i P)
    (w : Walk) (hv : valid_inode w.inodes i = true) (hw : P w) :
    P (double_indirect sb i w) := by
  unfold double_indirect
  by_cases h0 : get32 w.inodes (off_double i) = 0
  · simp only [h0, ne_eq, not_true_eq_false, if_false]; exact hw
  · by_cases hr : out_of_range sb (get32 w.inodes (off_double i)) = true
    · simp only [h0, hr, ne_eq, not_false_eq_true, if_true]
      exact hP.clear _ _ w hw (Or.inr (Or.inr (Or.inl rfl))) hv (bad_ptr_of sb _ h0 hr)
    · simp only [h0, hr, ne_eq, not_false_eq_true, if_true, if_false]
      have hr2 : out_of_range sb (get32 w.inodes (off_double i)) = false := by simpa using hr
      refine scan_block_inv sb i P hP.toScanInv _ _ ?_ _ _ (hP.note _ _ w hw h0 hr2) h0 hr2
      intro e w1 hw1 he0 he
      exact scan_block_inv sb i P hP.toScanInv _ _ (no_child_inv sb P) _ _ hw1 he0 he

theorem triple_indirect_inv (sb : Buf) (i : Nat) (P : Walk → Prop) (hP : WalkInv sb i P)
    (w : Walk) (hv : valid_inode w.inodes i = true) (hw : P w) :
    P (triple_indirect sb i w) := by
  unfold triple_indirect
  by_cases h0 : get32 w.inodes (off_triple i) = 0
  · simp only [h0, ne_eq, not_true_eq_false, if_false]; exact hw
  · by_cases hr : out_of_range sb (get32 w.inodes (off_triple i)) = true
    · simp only [h0, hr, ne_eq, not_false_eq_true, if_true]
      exact hP.clear _ _ w hw (Or.inr (Or.inr (Or.inr rfl))) hv (bad_ptr_of sb _ h0 hr)
    · simp only [h0, hr, ne_eq, not_false_eq_true, if_true, if_false]
      have hr2 : out_of_range sb (get32 w.inodes (off_triple i)) = false := by simpa using hr
      refine scan_block_inv sb i P hP.toScanInv _ _ ?_ _ _ (hP.note _ _ w hw h0 hr2) h0 hr2
      intro e w1 hw1 he0 he
      refine scan_block_inv sb i P hP.toScanInv _ _ ?_ _ _ hw1 he0 he
      intro e2 w2 hw2 he20 he2
      exact scan_block_inv sb i P hP.toScanInv _ _ (no_child_inv sb P) _ _ hw2 he20 he2

theorem sizeof_Inode_eq : sizeof_Inode = 256 := rfl

theorem sizeof_Superblock_eq : sizeof_Superblock = 4092 := rfl

/-- Zeroing a pointer field of any inode leaves `n_links` and `dtime` of every
inode as they were. -/
theorem valid_inode_set32_ptr (inodes : Buf) (k off i : Nat) (h : PtrOff k off) :
    valid_inode (set32 inodes off 0) i = valid_inode inodes i := by
  have hd : ∀ o2, o2 = off_n_links i ∨ o2 = off_dtime i →
      get32 (set32 inodes off 0) o2 = get32 inodes o2 := by
    intro o2 ho2
    apply get32_set32_disjoint
    unfold PtrOff off_direct off_single off_double off_triple at h
    unfold off_n_links off_dtime at ho2
    rw [sizeof_Inode_eq] at h ho2
    rcases h with ⟨j, hj, rfl⟩ | rfl | rfl | rfl <;> rcases ho2 with rfl | rfl <;> omega
  unfold valid_inode
  rw [hd _ (Or.inl rfl), hd _ (Or.inr rfl)]

theorem WalkInv.and_valid {sb : Buf} {i : Nat} {P : Walk → Prop} (hP : WalkInv sb i P)
    (i2 : Nat) : WalkInv sb i (fun w => P w ∧ valid_inode w.inodes i2 = true) where
  note := by
    intro lvl b w hw hb0 hb
    refine ⟨hP.note lvl b w hw.1 hb0 hb, ?_⟩
    have : (note_block sb i lvl b w).inodes = w.inodes := by
      unfold note_block; simp only []; split <;> rfl
    rw [this]; exact hw.2
  clear := by
    intro lvl off w hw ho hv hb
    refine ⟨hP.clear lvl off w hw.1 ho hv hb, ?_⟩
    show valid_inode (set32 w.inodes off 0) i2 = true
    rw [valid_inode_set32_ptr _ _ _ _ ho]; exact hw.2
  bad := fun lvl e w hw hb => ⟨hP.bad lvl e w hw.1 hb, hw.2⟩
  rderr := fun lvl blk w hw hb hr => ⟨hP.rderr lvl blk w hw.1 hb hr, hw.2⟩
  write := fun blk w0 w hw0 hw hb0 hb => ⟨hP.write blk w0 w hw0.1 hw.1 hb0 hb, hw.2⟩

/-- One iteration of the loop over the inodes keeps every property that the
elementary actions keep. -/
theorem inode_step_inv (sb : Buf) (i : Nat) (P : Walk → Prop) (hP : WalkInv sb i P)
    (w : Walk) (hw : P w) : P (inode_step sb i w) := by
  unfold inode_step
  by_cases hv : valid_inode w.inodes i = false
  · rw [if_pos hv]; exact hw
  · rw [if_neg hv]
    have hv1 : valid_inode w.inodes i = true := by simpa using hv
    have hQ := hP.and_valid i
    have h1 : P (for_loop 12 (direct_step sb i) w) ∧
        valid_inode (for_loop 12 (direct_step sb i) w).inodes i = true :=
      for_loop_inv (fun _ t => P t ∧ valid_inode t.inodes i = true) 12 _ w ⟨hw, hv1⟩
        (fun k hk t ht => direct_step_inv sb i _ hQ k hk t ht.2 ht)
    have h2 := single_indirect_inv sb i _ hQ _ h1.2 h1
    have h3 := double_indirect_inv sb i _ hQ _ h2.2 h2
    exact (triple_indirect_inv sb i _ hQ _ h3.2 h3).1

/-- The whole walk keeps every property that the elementary actions keep. -/
theorem walk_inodes_inv (sb : Buf) (n : Nat) (P : Walk → Prop)
    (hP : ∀ i, i < n → WalkInv sb i P) (w : Walk) (hw : P w) :
    P (walk_inodes sb n w) :=
  for_loop_inv (fun _ t => P t) n _ w hw (fun k hk t ht => inode_step_inv sb k P (hP k hk) t ht)

/-! ## The run -/

theorem sb_of_canonical (img : File) : Canonical (sb_of img) :=
  validate_canonical _

theorem sb_of_first (img : File) : sb_first_data_block (sb_of img) = 8 :=
  (sb_of_canonical img).2.2.2.2.2.2.1

theorem sb_of_total (img : File) : sb_total_blocks (sb_of img) = 64 :=
  (sb_of_canonical img).2.2.1

theorem sb_of_count_le (img : File) : sb_inode_count (sb_of img) ≤ 80 :=
  (sb_of_canonical img).2.2.2.2.2.2.2.2

theorem sb_of_inode_bitmap_block (img : File) : sb_inode_bitmap_block (sb_of img) = 1 :=
  (sb_of_canonical img).2.2.2.1

theorem sb_of_data_bitmap_block (img : File) : sb_data_bitmap_block (sb_of img) = 2 :=
  (sb_of_canonical img).2.2.2.2.1

theorem sb_of_inode_table_start (img : File) : sb_inode_table_start (sb_of img) = 3 :=
  (sb_of_canonical img).2.2.2.2.2.1

/-- The program `main` as a cascade over the four reads. -/
theorem main_eq (img : File) :
    main img =
      if fread_items img (BLOCK_SIZE * SUPERBLOCK_BLOCK) sizeof_Superblock 1 ≠ 1 then
        Outcome.fatal Fatal.read_superblock img []
      else if fread_items (fp_after_sb img) (BLOCK_SIZE * sb_inode_bitmap_block (sb_of img)) 1
          BLOCK_SIZE ≠ BLOCK_SIZE then
        Outcome.fatal Fatal.read_inode_bitmap (fp_after_sb img) (out_after_sb img)
      else if fread_items (fp_after_sb img) (BLOCK_SIZE * sb_data_bitmap_block (sb_of img)) 1
          BLOCK_SIZE ≠ BLOCK_SIZE then
        Outcome.fatal Fatal.read_data_bitmap (fp_after_sb img) (out_after_sb img)
      else if fread_items (fp_after_sb img) (BLOCK_SIZE * sb_inode_table_start (sb_of img))
          sizeof_Inode (sb_inode_count (sb_of img)) ≠ sb_inode_count (sb_of img) then
        Outcome.fatal Fatal.read_inode_table (fp_after_sb img) (out_after_sb img)
      else Outcome.done (run_done img) := rfl

/-- A completed run ends in `run_done`, and the file held the superblock, both
bitmaps and the inode table. -/
theorem main_done (img : File) (d : Done) (h : main img = Outcome.done d) :
    d = run_done img ∧
    fread_items img 0 sizeof_Superblock 1 = 1 ∧
    fread_items (fp_after_sb img) (BLOCK_SIZE * 1) 1 BLOCK_SIZE = BLOCK_SIZE ∧
    fread_items (fp_after_sb img) (BLOCK_SIZE * 2) 1 BLOCK_SIZE = BLOCK_SIZE ∧
    fread_items (fp_after_sb img) (BLOCK_SIZE * 3) sizeof_Inode (sb_inode_count (sb_of img))
      = sb_inode_count (sb_of img) := by
  rw [main_eq, sb_of_inode_bitmap_block, sb_of_data_bitmap_block, sb_of_inode_table_start] at h
  by_cases h1 : fread_items img (BLOCK_SIZE * SUPERBLOCK_BLOCK) sizeof_Superblock 1 ≠ 1
  · rw [if_pos h1] at h; exact Outcome.noConfusion h
  rw [if_neg h1] at h
  by_cases h2 : fread_items (fp_after_sb img) (BLOCK_SIZE * 1) 1 BLOCK_SIZE ≠ BLOCK_SIZE
  · rw [if_pos h2] at h; exact Outcome.noConfusion h
  rw [if_neg h2] at h
  by_cases h3 : fread_items (fp_after_sb img) (BLOCK_SIZE * 2) 1 BLOCK_SIZE ≠ BLOCK_SIZE
  · rw [if_pos h3] at h; exact Outcome.noConfusion h
  rw [if_neg h3] at h
  by_cases h4 : fread_items (fp_after_sb img) (BLOCK_SIZE * 3) sizeof_Inode
      (sb_inode_count (sb_of img)) ≠ sb_inode_count (sb_of img)
  · rw [if_pos h4] at h; exact Outcome.noConfusion h
  rw [if_neg h4] at h
  injection h with h
  exact ⟨h.symm, not_not.mp h1, not_not.mp h2, not_not.mp h3, not_not.mp h4⟩

/-- The run ends in `run_done` as soon as the four reads are complete. -/
theorem main_of_reads (img : File)
    (h1 : fread_items img 0 sizeof_Superblock 1 = 1)
    (h2 : fread_items (fp_after_sb img) (BLOCK_SIZE * 1) 1 BLOCK_SIZE = BLOCK_SIZE)
    (h3 : fread_items (fp_after_sb img) (BLOCK_SIZE * 2) 1 BLOCK_SIZE = BLOCK_SIZE)
    (h4 : fread_items (fp_after_sb img) (BLOCK_SIZE * 3) sizeof_Inode
      (sb_inode_count (sb_of img)) = sb_inode_count (sb_of img)) :
    main img = Outcome.done (run_done img) := by
  rw [main_eq, sb_of_inode_bitmap_block, sb_of_data_bitmap_block, sb_of_inode_table_start]
  have h1b : fread_items img (BLOCK_SIZE * SUPERBLOCK_BLOCK) sizeof_Superblock 1 = 1 := h1
  rw [if_neg (not_not.mpr h1b), if_neg (not_not.mpr h2), if_neg (not_not.mpr h3),
    if_neg (not_not.mpr h4)]

theorem run_done_block_refs (img : File) :
    (run_done img).block_refs = (walk_end img).block_refs := by
  simp only [run_done, check_image, walk_end, walk_start]

theorem run_done_inodes (img : File) : (run_done img).inodes = (walk_end img).inodes := by
  simp only [run_done, check_image, walk_end, walk_start]

theorem run_done_data_bitmap (img : File) :
    (run_done img).data_bitmap = (final_pass img).data_bitmap := by
  simp only [run_done, check_image, final_pass, walk_end, walk_start]

theorem run_done_out (img : File) :
    (run_done img).out = ((final_pass img).out ++
      [if (final_pass img).data_bitmap_errors = true then Line.data_bitmap_updated
        else Line.data_bitmap_ok]) ++ [Line.complete] := by
  simp only [run_done, check_image, final_pass, walk_end, walk_start]

theorem run_done_fp (img : File) :
    (run_done img).fp =
      fwrite (if (final_pass img).data_bitmap_errors = true then
          fwrite (walk_end img).fp (BLOCK_SIZE * sb_data_bitmap_block (sb_of img)) BLOCK_SIZE
            (final_pass img).data_bitmap
        else (walk_end img).fp)
        (BLOCK_SIZE * sb_inode_table_start (sb_of img))
        (sb_inode_count (sb_of img) * sizeof_Inode) (walk_end img).inodes := by
  simp only [run_done, check_image, final_pass, walk_end, walk_start]

/-! ## The final pass over the data bitmap -/

/-- Bits after the final pass: cleared where the block is in the scanned range and
has no reference, as before elsewhere. -/
theorem final_pass_bits (refs : Nat → Int) (lo hi : Nat) (hle : lo ≤ hi) (s : DbState) (b : Nat) :
    is_bit_set (for_range lo hi (data_bitmap_step refs) s).data_bitmap b =
      if lo ≤ b ∧ b < hi ∧ refs b = 0 then 0 else is_bit_set s.data_bitmap b := by
  have h := for_range_inv
    (fun k t => is_bit_set t.data_bitmap b =
      if lo ≤ b ∧ b < k ∧ refs b = 0 then 0 else is_bit_set s.data_bitmap b)
    lo hi (data_bitmap_step refs) s hle
    (by show is_bit_set s.data_bitmap b = _; rw [if_neg (by omega)]) ?_
  · exact h
  · intro k hk1 hk2 t ht
    show is_bit_set (data_bitmap_step refs k t).data_bitmap b = _
    unfold data_bitmap_step
    by_cases hbk : b = k
    · subst hbk
      rw [if_neg (by omega)] at ht
      by_cases hs : is_bit_set t.data_bitmap b ≠ 0
      · rw [if_pos hs]
        by_cases hr : refs b = 0
        · rw [if_pos hr]
          show is_bit_set (clear_bit t.data_bitmap b) b = _
          rw [is_bit_set_clear_bit, if_pos rfl, if_pos ⟨hk1, by omega, hr⟩]
        · rw [if_neg hr, if_neg (by tauto)]; exact ht
      · rw [if_neg hs]
        have h0 : is_bit_set t.data_bitmap b = 0 := not_not.mp hs
        rw [ht] at h0
        rw [ht, h0]; simp
    · have hkeep : is_bit_set (if is_bit_set t.data_bitmap k ≠ 0 then
          if refs k = 0 then
            ({ data_bitmap := clear_bit t.data_bitmap k, data_bitmap_errors := true,
               out := t.out ++ [Line.data_bitmap_orphan k] } : DbState)
          else t else t).data_bitmap b = is_bit_set t.data_bitmap b := by
        split
        · split
          · show is_bit_set (clear_bit t.data_bitmap k) b = _
            rw [is_bit_set_clear_bit, if_neg hbk]
          · rfl
        · rfl
      rw [hkeep, ht]
      by_cases hA : lo ≤ b ∧ b < k ∧ refs b = 0
      · rw [if_pos hA, if_pos ⟨hA.1, by omega, hA.2.2⟩]
      · rw [if_neg hA, if_neg (fun h => hA ⟨h.1, by omega, h.2.2⟩)]

/-! ## Reference counters and data bitmap during the walk -/

theorem add_block_reference_apply (block : Nat) (refs : Nat → Int) (sb : Buf) (b : Nat) :
    add_block_reference block refs sb b =
      if b = block ∧ sb_first_data_block sb ≤ block ∧ block < sb_total_blocks sb
      then wrap_int (refs b + 1) else refs b := by
  unfold add_block_reference
  by_cases h : sb_first_data_block sb ≤ block ∧ block < sb_total_blocks sb
  · rw [if_pos h]
    by_cases hb : b = block
    · subst hb; rw [Function.update_same, if_pos ⟨rfl, h⟩]
    · rw [Function.update_noteq hb, if_neg (by tauto)]
  · rw [if_neg h, if_neg (by tauto)]

theorem note_block_refs (sb : Buf) (i : Nat) (lvl : Level) (block : Nat) (w : Walk) :
    (note_block sb i lvl block w).block_refs = add_block_reference block w.block_refs sb := by
  unfold note_block; simp only []; split <;> rfl

theorem note_block_bit (sb : Buf) (i : Nat) (lvl : Level) (block : Nat) (w : Walk) (b : Nat) :
    is_bit_set (note_block sb i lvl block w).data_bitmap b =
      if b = block then 1 else is_bit_set w.data_bitmap b := by
  unfold note_block
  simp only []
  by_cases h : is_bit_set w.data_bitmap block = 0
  · rw [if_pos h]
    show is_bit_set (set_bit w.data_bitmap block) b = _
    rw [is_bit_set_set_bit]
  · rw [if_neg h]
    show is_bit_set w.data_bitmap b = _
    by_cases hb : b = block
    · subst hb
      rw [if_pos rfl]
      rcases is_bit_set_cases w.data_bitmap b with h0 | h1
      · exact absurd h0 h
      · exact h1
    · rw [if_neg hb]


theorem refsMarked_inv (sb : Buf) (i : Nat) : WalkInv sb i (RefsMarked sb) where
  note := by
    intro lvl blk w hw _ _ b hb
    rw [note_block_refs, add_block_reference_apply] at hb
    rw [note_block_bit]
    by_cases hc : b = blk ∧ sb_first_data_block sb ≤ blk ∧ blk < sb_total_blocks sb
    · rw [if_pos hc.1]
      exact ⟨rfl, by rw [hc.1]; exact hc.2.1, by rw [hc.1]; exact hc.2.2⟩
    · rw [if_neg hc] at hb
      have := hw b hb
      refine ⟨?_, this.2⟩
      split
      · rfl
      · exact this.1
  clear := fun _ _ _ hw _ _ _ => hw
  bad := fun _ _ _ hw _ => hw
  rderr := fun _ _ _ hw _ _ => hw
  write := fun _ _ _ _ hw _ _ => hw

theorem walk_end_refsMarked (img : File) : RefsMarked (sb_of img) (walk_end img) := by
  unfold walk_end
  apply walk_inodes_inv _ _ _ (fun i _ => refsMarked_inv (sb_of img) i)
  intro b hb
  simp [walk_start] at hb

theorem fwrite_size_ge (f : File) (off n : Nat) (buf : Buf) : f.size ≤ (fwrite f off n buf).size :=
  Nat.le_max_left _ _

theorem fwrite_size_of_le (f : File) (off n : Nat) (buf : Buf) (h : off + n ≤ f.size) :
    (fwrite f off n buf).size = f.size :=
  Nat.max_eq_left h

theorem fwrite_data_of_lt (f : File) (off n : Nat) (buf : Buf) (o : Nat) (h1 : o < off)
    (h2 : o < f.size) : (fwrite f off n buf).data o = f.data o := by
  show (if off ≤ o ∧ o < off + n then buf (o - off) else
    if f.size ≤ o ∧ o < off then 0 else f.data o) = f.data o
  rw [if_neg (by omega), if_neg (by omega)]

theorem fwrite_data_of_ge (f : File) (off n : Nat) (buf : Buf) (o : Nat) (h1 : off + n ≤ o) :
    (fwrite f off n buf).data o = f.data o := by
  show (if off ≤ o ∧ o < off + n then buf (o - off) else
    if f.size ≤ o ∧ o < off then 0 else f.data o) = f.data o
  rw [if_neg (by omega), if_neg (by omega)]

theorem fwrite_data_in (f : File) (off n : Nat) (buf : Buf) (o : Nat) (h1 : off ≤ o)
    (h2 : o < off + n) : (fwrite f off n buf).data o = buf (o - off) := by
  show (if off ≤ o ∧ o < off + n then buf (o - off) else
    if f.size ≤ o ∧ o < off then 0 else f.data o) = buf (o - off)
  rw [if_pos ⟨h1, h2⟩]

theorem fread_items_bytes (f : File) (off n : Nat) (h : fread_items f off 1 n = n) :
    n ≤ f.size - off := by
  unfold fread_items at h
  rw [Nat.div_one] at h
  omega

theorem in_range_of (sb : Buf) (p : Nat) (h : out_of_range sb p = false) :
    sb_first_data_block sb ≤ p ∧ p < sb_total_blocks sb := by
  unfold out_of_range at h
  simp only [Bool.or_eq_false_iff, decide_eq_false_iff_not, not_lt, not_le] at h
  exact h

theorem lowFrame_inv (sb : Buf) (h8 : sb_first_data_block sb = 8) (i : Nat) (fp0 : File) :
    WalkInv sb i (LowFrame fp0) where
  note := by
    intro lvl b w hw _ _
    have : (note_block sb i lvl b w).fp = w.fp := by
      unfold note_block; simp only []; split <;> rfl
    unfold LowFrame; rw [this]; exact hw
  clear := fun _ _ _ hw _ _ _ => hw
  bad := fun _ _ _ hw _ => hw
  rderr := fun _ _ _ hw _ _ => hw
  write := by
    intro blk w0 w _ hw _ hb
    have hr := (in_range_of sb blk hb).1
    rw [h8] at hr
    refine ⟨Nat.le_trans hw.1 (fwrite_size_ge _ _ _ _), ?_⟩
    intro o ho1 ho2
    show (fwrite w.fp (blk * BLOCK_SIZE) (4 * (BLOCK_SIZE / 4)) _).data o = _
    have e1 : DATA_BLOCK_START * BLOCK_SIZE = 32768 := rfl
    have e2 : BLOCK_SIZE = 4096 := rfl
    rw [e1] at ho1
    rw [fwrite_data_of_lt _ _ _ _ _ (by rw [e2]; omega) (Nat.lt_of_lt_of_le ho2 hw.1)]
    exact hw.2 o (by rw [e1]; exact ho1) ho2

theorem walk_end_lowFrame (img : File) : LowFrame (walk_start img).fp (walk_end img) := by
  unfold walk_end
  apply walk_inodes_inv _ _ _ (fun i _ => lowFrame_inv (sb_of img) (sb_of_first img) i _)
  exact ⟨Nat.le_refl _, fun _ _ _ => rfl⟩

/-! ## The inode bitmap checker -/

/-- Bits after the inode bitmap loop: bit `b < n` says whether inode `b` is valid,
the other bits are as before. -/
theorem check_inode_bitmap_bits (inodes bm : Buf) (n : Nat) (out : List Line) (b : Nat) :
    is_bit_set (check_inode_bitmap inodes bm n out).inode_bitmap b =
      if b < n then (if valid_inode inodes b = true then 1 else 0) else is_bit_set bm b := by
  unfold check_inode_bitmap
  have h := for_loop_inv
    (fun k t => is_bit_set t.inode_bitmap b =
      if b < k then (if valid_inode inodes b = true then 1 else 0) else is_bit_set bm b)
    n (inode_bitmap_step inodes)
    { inode_bitmap := bm, inode_bitmap_errors := false, out := out }
    (by show is_bit_set bm b = _; rw [if_neg (by omega)]) ?_
  · exact h
  · intro k _ t ht
    show is_bit_set (inode_bitmap_step inodes k t).inode_bitmap b = _
    unfold inode_bitmap_step
    simp only []
    by_cases hbk : b = k
    · subst hbk
      rw [if_neg (show ¬ b < b by omega)] at ht
      rw [if_pos (show b < b + 1 by omega)]
      rcases is_bit_set_cases t.inode_bitmap b with h0 | h1
      · by_cases hv : valid_inode inodes b = true
        · have hc : valid_inode inodes b = true ∧ is_bit_set t.inode_bitmap b = 0 := ⟨hv, h0⟩
          rw [if_pos hc, if_pos hv]
          show is_bit_set (set_bit t.inode_bitmap b) b = 1
          rw [is_bit_set_set_bit, if_pos rfl]
        · have hc : ¬ (valid_inode inodes b = true ∧ is_bit_set t.inode_bitmap b = 0) :=
            fun hc => hv hc.1
          have hc2 : ¬ (valid_inode inodes b = false ∧ is_bit_set t.inode_bitmap b ≠ 0) :=
            fun hc => hc.2 h0
          rw [if_neg hc, if_neg hc2, if_neg hv]
          exact h0
      · by_cases hv : valid_inode inodes b = true
        · have hc : ¬ (valid_inode inodes b = true ∧ is_bit_set t.inode_bitmap b = 0) := by
            rw [h1]; simp
          have hc2 : ¬ (valid_inode inodes b = false ∧ is_bit_set t.inode_bitmap b ≠ 0) := by
            rw [hv]; simp
          rw [if_neg hc, if_neg hc2, if_pos hv]
          exact h1
        · have hc : ¬ (valid_inode inodes b = true ∧ is_bit_set t.inode_bitmap b = 0) :=
            fun hc => hv hc.1
          have hc2 : valid_inode inodes b = false ∧ is_bit_set t.inode_bitmap b ≠ 0 := by
            rw [h1]; simp; simpa using hv
          rw [if_neg hc, if_pos hc2, if_neg hv]
          show is_bit_set (clear_bit t.inode_bitmap b) b = 0
          rw [is_bit_set_clear_bit, if_pos rfl]
    · have hkeep : is_bit_set (if valid_inode inodes k = true ∧ is_bit_set t.inode_bitmap k = 0
          then ({ inode_bitmap := set_bit t.inode_bitmap k, inode_bitmap_errors := true,
                  out := t.out ++ [Line.inode_bitmap_unmarked k] } : IbState)
          else if valid_inode inodes k = false ∧ is_bit_set t.inode_bitmap k ≠ 0 then
            { inode_bitmap := clear_bit t.inode_bitmap k, inode_bitmap_errors := true,
              out := t.out ++ [Line.inode_bitmap_stale k] }
          else t).inode_bitmap b = is_bit_set t.inode_bitmap b := by
        split
        · show is_bit_set (set_bit t.inode_bitmap k) b = _
          rw [is_bit_set_set_bit, if_neg hbk]
        · split
          · show is_bit_set (clear_bit t.inode_bitmap k) b = _
            rw [is_bit_set_clear_bit, if_neg hbk]
          · rfl
      rw [hkeep, ht]
      by_cases hb : b < k
      · rw [if_pos hb, if_pos (show b < k + 1 by omega)]
      · rw [if_neg hb, if_neg (show ¬ b < k + 1 by omega)]

/-- When the inode bitmap loop sets no flag it has changed nothing and printed
nothing. -/
theorem check_inode_bitmap_clean (inodes bm : Buf) (n : Nat) (out : List Line)
    (h : (check_inode_bitmap inodes bm n out).inode_bitmap_errors = false) :
    (check_inode_bitmap inodes bm n out).inode_bitmap = bm ∧
      (check_inode_bitmap inodes bm n out).out = out := by
  unfold check_inode_bitmap at h ⊢
  have key := for_loop_inv
    (fun _ t => t.inode_bitmap_errors = false → t.inode_bitmap = bm ∧ t.out = out)
    n (inode_bitmap_step inodes)
    { inode_bitmap := bm, inode_bitmap_errors := false, out := out }
    (fun _ => ⟨rfl, rfl⟩) ?_
  · exact key h
  · intro k _ t ht
    show (inode_bitmap_step inodes k t).inode_bitmap_errors = false → _
    unfold inode_bitmap_step
    simp only []
    split
    · intro hc; exact Bool.noConfusion hc
    · split
      · intro hc; exact Bool.noConfusion hc
      · exact ht

/-! ## The image file during a completed run -/

theorem BLOCK_SIZE_eq : BLOCK_SIZE = 4096 := rfl

theorem fread_items_one (f : File) (n : Nat) (hn : 0 < n) (h : fread_items f 0 n 1 = 1) :
    n ≤ f.size := by
  unfold fread_items at h
  have h2 : 1 ≤ (f.size - 0) / n := by omega
  have h3 := (Nat.le_div_iff_mul_le hn).mp h2
  omega

theorem fread_items_records (f : File) (off n : Nat) (h : fread_items f off 256 n = n) :
    n * 256 ≤ f.size - off := by
  unfold fread_items at h
  have h2 : n ≤ (f.size - off) / 256 := by omega
  exact (Nat.le_div_iff_mul_le (by norm_num)).mp h2

theorem fp_after_sb_size (img : File) (h : 4092 ≤ img.size) :
    (fp_after_sb img).size = img.size := by
  unfold fp_after_sb
  split
  · exact fwrite_size_of_le _ _ _ _ (by
      show BLOCK_SIZE * SUPERBLOCK_BLOCK + sizeof_Superblock ≤ img.size
      rw [sizeof_Superblock_eq]; simpa [SUPERBLOCK_BLOCK] using h)
  · rfl

/-- After the superblock phase the first 4092 bytes of the file are the validated
superblock. -/
theorem fp_after_sb_data_low (img : File) (o : Nat) (ho : o < 4092) :
    (fp_after_sb img).data o = sb_of img o := by
  unfold fp_after_sb
  split
  · rw [fwrite_data_in _ _ _ _ _ (by simp [SUPERBLOCK_BLOCK])
      (by rw [sizeof_Superblock_eq]; simpa [SUPERBLOCK_BLOCK] using ho)]
    simp [SUPERBLOCK_BLOCK]
  · rename_i hs
    have hc := (validate_clean (fread_buf img (BLOCK_SIZE * SUPERBLOCK_BLOCK))
      (by simpa using hs)).1
    unfold sb_of
    rw [hc]
    simp [fread_buf, SUPERBLOCK_BLOCK]

theorem fp_after_sb_data_high (img : File) (o : Nat) (ho : 4092 ≤ o) :
    (fp_after_sb img).data o = img.data o := by
  unfold fp_after_sb
  split
  · exact fwrite_data_of_ge _ _ _ _ _ (by
      rw [sizeof_Superblock_eq]; simpa [SUPERBLOCK_BLOCK] using ho)
  · rfl

theorem walk_start_fp (img : File) :
    (walk_start img).fp =
      if (inode_bitmap_end img).inode_bitmap_errors = true then
        fwrite (fp_after_sb img) 4096 4096 (inode_bitmap_end img).inode_bitmap
      else fp_after_sb img := by
  simp only [walk_start, inode_bitmap_end, sb_of_inode_bitmap_block]
  rfl

theorem walk_start_inodes (img : File) :
    (walk_start img).inodes = fread_buf (fp_after_sb img) 12288 := by
  simp only [walk_start, sb_of_inode_table_start]
  rfl

theorem walk_start_data_bitmap (img : File) :
    (walk_start img).data_bitmap = fread_buf (fp_after_sb img) 8192 := by
  simp only [walk_start, sb_of_data_bitmap_block]
  rfl

theorem walk_start_fp_size (img : File) (h : 8192 ≤ (fp_after_sb img).size) :
    (walk_start img).fp.size = (fp_after_sb img).size := by
  rw [walk_start_fp]
  split
  · exact fwrite_size_of_le _ _ _ _ (by omega)
  · rfl

/-- When the walk starts, block 1 of the file is the checked inode bitmap. -/
theorem walk_start_fp_block1 (img : File) (o : Nat) (ho : o < 4096) :
    (walk_start img).fp.data (4096 + o) = (inode_bitmap_end img).inode_bitmap o := by
  rw [walk_start_fp]
  split
  · rw [fwrite_data_in _ _ _ _ _ (show 4096 ≤ 4096 + o by omega)
      (show 4096 + o < 4096 + 4096 by omega), show 4096 + o - 4096 = o by omega]
  · rename_i hs
    have hc := (check_inode_bitmap_clean _ _ _ _ (by simpa using hs :
      (inode_bitmap_end img).inode_bitmap_errors = false)).1
    unfold inode_bitmap_end
    rw [hc, sb_of_inode_bitmap_block]
    unfold fread_buf
    rw [BLOCK_SIZE_eq]

theorem walk_start_fp_other (img : File) (o : Nat) (ho : o < 4096 ∨ 8192 ≤ o)
    (hs : o < (fp_after_sb img).size ∨ 8192 ≤ o) :
    (walk_start img).fp.data o = (fp_after_sb img).data o := by
  rw [walk_start_fp]
  split
  · rcases ho with ho | ho
    · rcases hs with hs | hs
      · exact fwrite_data_of_lt _ _ _ _ _ ho hs
      · omega
    · exact fwrite_data_of_ge _ _ _ _ _ (by omega)
  · rfl

theorem walk_end_fp_size_ge (img : File) (h : 8192 ≤ (fp_after_sb img).size) :
    (fp_after_sb img).size ≤ (walk_end img).fp.size := by
  have := (walk_end_lowFrame img).1
  rw [walk_start_fp_size img h] at this
  exact this

theorem walk_end_fp_low (img : File) (h : 8192 ≤ (fp_after_sb img).size) (o : Nat)
    (ho : o < 32768) (ho2 : o < (fp_after_sb img).size) :
    (walk_end img).fp.data o = (walk_start img).fp.data o :=
  (walk_end_lowFrame img).2 o ho (by rw [walk_start_fp_size img h]; exact ho2)

/-- The file before the last write (of the inode table). -/
theorem run_done_fp_eq (img : File) :
    (run_done img).fp =
      fwrite (if (final_pass img).data_bitmap_errors = true then
          fwrite (walk_end img).fp 8192 4096 (final_pass img).data_bitmap
        else (walk_end img).fp)
        12288 (sb_inode_count (sb_of img) * 256) (walk_end img).inodes := by
  rw [run_done_fp, sb_of_data_bitmap_block, sb_of_inode_table_start]
  rfl

/-- The inode table of the image after the run is the inode table the walk left
in memory. -/
theorem run_done_fp_inodes (img : File) (o : Nat) (ho : o < sb_inode_count (sb_of img) * 256) :
    (run_done img).fp.data (12288 + o) = (walk_end img).inodes o := by
  rw [run_done_fp_eq, fwrite_data_in _ _ _ _ _ (show 12288 ≤ 12288 + o by omega)
    (show 12288 + o < 12288 + sb_inode_count (sb_of img) * 256 by omega),
    show 12288 + o - 12288 = o by omega]

/-- Blocks 0 and 1 of the image after the run are as they were when the walk
started. -/
theorem run_done_fp_low (img : File) (hsz : 12288 ≤ (fp_after_sb img).size) (o : Nat)
    (ho : o < 8192) : (run_done img).fp.data o = (walk_start img).fp.data o := by
  have hs1 := walk_end_fp_size_ge img (by omega)
  rw [run_done_fp_eq]
  by_cases he : (final_pass img).data_bitmap_errors = true
  · rw [if_pos he, fwrite_data_of_lt _ _ _ _ _ (show o < 12288 by omega)
      (Nat.lt_of_lt_of_le (show o < (walk_end img).fp.size by omega) (fwrite_size_ge _ _ _ _)),
      fwrite_data_of_lt _ _ _ _ _ ho (by omega)]
    exact walk_end_fp_low img (by omega) o (by omega) (by omega)
  · rw [if_neg he, fwrite_data_of_lt _ _ _ _ _ (show o < 12288 by omega)
      (show o < (walk_end img).fp.size by omega)]
    exact walk_end_fp_low img (by omega) o (by omega) (by omega)

/-- Block 2 of the image after the run: the final data bitmap when the final pass
set its flag, the block as it was otherwise. -/
theorem run_done_fp_block2 (img : File) (hsz : 12288 ≤ (fp_after_sb img).size) (o : Nat)
    (ho : o < 4096) :
    (run_done img).fp.data (8192 + o) =
      if (final_pass img).data_bitmap_errors = true then (final_pass img).data_bitmap o
      else (fp_after_sb img).data (8192 + o) := by
  have hs1 := walk_end_fp_size_ge img (by omega)
  rw [run_done_fp_eq]
  by_cases he : (final_pass img).data_bitmap_errors = true
  · rw [if_pos he, if_pos he, fwrite_data_of_lt _ _ _ _ _ (show 8192 + o < 12288 by omega)
      (Nat.lt_of_lt_of_le (show 8192 + o < (walk_end img).fp.size by omega)
        (fwrite_size_ge _ _ _ _)),
      fwrite_data_in _ _ _ _ _ (show 8192 ≤ 8192 + o by omega)
        (show 8192 + o < 8192 + 4096 by omega), show 8192 + o - 8192 = o by omega]
  · rw [if_neg he, if_neg he, fwrite_data_of_lt _ _ _ _ _ (show 8192 + o < 12288 by omega)
      (show 8192 + o < (walk_end img).fp.size by omega),
      walk_end_fp_low img (by omega) _ (by omega) (by omega)]
    exact walk_start_fp_other img _ (Or.inr (by omega)) (Or.inr (by omega))

/-- Sizes a completed run implies. -/
theorem done_sizes (img : File) (d : Done) (h : main img = Outcome.done d) :
    4092 ≤ img.size ∧ (fp_after_sb img).size = img.size ∧ 12288 ≤ img.size ∧
      12288 + sb_inode_count (sb_of img) * 256 ≤ img.size := by
  obtain ⟨_, h1, _, h3, h4⟩ := main_done img d h
  have s1 : 4092 ≤ img.size := fread_items_one img 4092 (by norm_num) h1
  have s2 := fp_after_sb_size img s1
  have s3 := fread_items_bytes _ _ _ h3
  have s4 := fread_items_records _ _ _ h4
  rw [BLOCK_SIZE_eq, s2] at s3
  rw [BLOCK_SIZE_eq, s2] at s4
  exact ⟨s1, s2, by omega, by omega⟩

/-- The first 4092 bytes of the image after a completed run are the validated
superblock. -/
theorem done_fp_superblock (img : File) (d : Done) (h : main img = Outcome.done d) (o : Nat)
    (ho : o < 4092) : d.fp.data o = sb_of img o := by
  obtain ⟨s1, s2, s3, _⟩ := done_sizes img d h
  rw [(main_done img d h).1, run_done_fp_low img (by omega) o (by omega),
    walk_start_fp_other img o (Or.inl (by omega)) (Or.inl (by omega)),
    fp_after_sb_data_low img o ho]

theorem get16_congr (b c : Buf) (off : Nat) (h : ∀ t, t < 2 → b (off + t) = c (off + t)) :
    get16 b off = get16 c off := by
  unfold get16
  have h0 := h 0 (by omega)
  rw [Nat.add_zero] at h0
  rw [h0, h 1 (by omega)]

/-- Claim C6.  Superblock canonicality: for every superblock read, after validation
`magic`, `block_size`, `total_blocks`, `inode_bitmap_block`, `data_bitmap_block`,
`inode_table_start`, `first_data_block` and `inode_size` are 0xD34D, 4096, 64, 1, 2,
3, 8 and 256 and `inode_count` is at most 80; and the same holds for the superblock
stored in block 0 of the image after every completed run. -/
theorem superblock_canonical (sb : Buf) :
    (sb_magic (validate_superblock sb).sb = 0xD34D ∧
      sb_block_size (validate_superblock sb).sb = 4096 ∧
      sb_total_blocks (validate_superblock sb).sb = 64 ∧
      sb_inode_bitmap_block (validate_superblock sb).sb = 1 ∧
      sb_data_bitmap_block (validate_superblock sb).sb = 2 ∧
      sb_inode_table_start (validate_superblock sb).sb = 3 ∧
      sb_first_data_block (validate_superblock sb).sb = 8 ∧
      sb_inode_size (validate_superblock sb).sb = 256 ∧
      sb_inode_count (validate_superblock sb).sb ≤ 80) ∧
    ∀ (img : File) (d : Done), main img = Outcome.done d →
      sb_magic (fread_buf d.fp 0) = 0xD34D ∧
      sb_block_size (fread_buf d.fp 0) = 4096 ∧
      sb_total_blocks (fread_buf d.fp 0) = 64 ∧
      sb_inode_bitmap_block (fread_buf d.fp 0) = 1 ∧
      sb_data_bitmap_block (fread_buf d.fp 0) = 2 ∧
      sb_inode_table_start (fread_buf d.fp 0) = 3 ∧
      sb_first_data_block (fread_buf d.fp 0) = 8 ∧
      sb_inode_size (fread_buf d.fp 0) = 256 ∧
      sb_inode_count (fread_buf d.fp 0) ≤ 80 := by
  refine ⟨validate_canonical sb, ?_⟩
  intro img d h
  have hb : ∀ o, o < 4092 → fread_buf d.fp 0 o = sb_of img o := by
    intro o ho
    unfold fread_buf
    rw [Nat.zero_add]
    exact done_fp_superblock img d h o ho
  have h32 : ∀ off, off + 4 ≤ 4092 → get32 (fread_buf d.fp 0) off = get32 (sb_of img) off :=
    fun off hoff => get32_congr _ _ off (fun t ht => hb _ (by omega))
  have h16 : get16 (fread_buf d.fp 0) 0 = get16 (sb_of img) 0 :=
    get16_congr _ _ 0 (fun t ht => hb _ (by omega))
  have hc := sb_of_canonical img
  unfold Canonical sb_magic sb_block_size sb_total_blocks sb_inode_bitmap_block
    sb_data_bitmap_block sb_inode_table_start sb_first_data_block sb_inode_size
    sb_inode_count at hc
  unfold sb_magic sb_block_size sb_total_blocks sb_inode_bitmap_block
    sb_data_bitmap_block sb_inode_table_start sb_first_data_block sb_inode_size
    sb_inode_count
  rw [h16, h32 2 (by omega), h32 6 (by omega), h32 10 (by omega), h32 14 (by omega),
    h32 18 (by omega), h32 22 (by omega), h32 26 (by omega), h32 30 (by omega)]
  exact hc

/-! ## Inode liveness during the walk -/

theorem note_block_inodes (sb : Buf) (i : Nat) (lvl : Level) (block : Nat) (w : Walk) :
    (note_block sb i lvl block w).inodes = w.inodes := by
  unfold note_block; simp only []; split <;> rfl

theorem note_block_fp (sb : Buf) (i : Nat) (lvl : Level) (block : Nat) (w : Walk) :
    (note_block sb i lvl block w).fp = w.fp := by
  unfold note_block; simp only []; split <;> rfl

theorem valid_kept_inv (sb : Buf) (i : Nat) (inodes0 : Buf) :
    WalkInv sb i (fun w => ∀ k, valid_inode w.inodes k = valid_inode inodes0 k) where
  note := by
    intro lvl b w hw _ _ k
    rw [note_block_inodes]; exact hw k
  clear := by
    intro lvl off w hw ho _ _ k
    show valid_inode (set32 w.inodes off 0) k = _
    rw [valid_inode_set32_ptr _ _ _ _ ho]; exact hw k
  bad := fun _ _ _ hw _ => hw
  rderr := fun _ _ _ hw _ _ => hw
  write := fun _ _ _ _ hw _ _ => hw

/-- The walk changes the liveness of no inode. -/
theorem walk_end_valid (img : File) (k : Nat) :
    valid_inode (walk_end img).inodes k = valid_inode (walk_start img).inodes k := by
  unfold walk_end
  exact walk_inodes_inv _ _ _ (fun i _ => valid_kept_inv (sb_of img) i (walk_start img).inodes)
    _ (fun _ => rfl) k

theorem is_bit_set_congr (bm bm2 : Buf) (i : Nat) (h : bm (i / 8) = bm2 (i / 8)) :
    is_bit_set bm i = is_bit_set bm2 i := by
  unfold is_bit_set; rw [h]

theorem valid_inode_congr (a b : Buf) (i : Nat)
    (h : ∀ o, i * 256 ≤ o → o < (i + 1) * 256 → a o = b o) :
    valid_inode a i = valid_inode b i := by
  unfold valid_inode off_n_links off_dtime
  rw [sizeof_Inode_eq, get32_congr a b (i * 256 + 32) (fun t ht => h _ (by omega) (by omega)),
    get32_congr a b (i * 256 + 28) (fun t ht => h _ (by omega) (by omega))]

theorem valid_inode_iff (a : Buf) (i : Nat) :
    valid_inode a i = true ↔ 0 < get32 a (off_n_links i) ∧ get32 a (off_dtime i) = 0 := by
  unfold valid_inode
  simp

/-- Claim C5.  After a completed run, for every inode index `i` below the
`inode_count` of the (clamped) superblock, bit `i` of the inode bitmap block of
the resulting image is 1 if and only if inode `i` of the resulting image has
`n_links > 0` and `dtime = 0`. -/
theorem inode_bitmap_iff_live (img : File) (d : Done) (h : main img = Outcome.done d)
    (i : Nat) (hi : i < sb_inode_count (fread_buf d.fp (BLOCK_SIZE * SUPERBLOCK_BLOCK))) :
    is_bit_set (fread_buf d.fp (BLOCK_SIZE * INODE_BITMAP_BLOCK)) i = 1 ↔
      (0 < get32 (fread_buf d.fp (BLOCK_SIZE * INODE_TABLE_START)) (off_n_links i) ∧
        get32 (fread_buf d.fp (BLOCK_SIZE * INODE_TABLE_START)) (off_dtime i) = 0) := by
  obtain ⟨s1, s2, s3, s4⟩ := done_sizes img d h
  have hd := (main_done img d h).1
  -- the inode count of the stored superblock is the validated one
  have hcnt : sb_inode_count (fread_buf d.fp (BLOCK_SIZE * SUPERBLOCK_BLOCK)) =
      sb_inode_count (sb_of img) := by
    unfold sb_inode_count
    apply get32_congr
    intro t ht
    show d.fp.data (BLOCK_SIZE * SUPERBLOCK_BLOCK + (30 + t)) = _
    rw [show BLOCK_SIZE * SUPERBLOCK_BLOCK + (30 + t) = 30 + t from by
      rw [BLOCK_SIZE_eq]; show 4096 * 0 + (30 + t) = _; omega]
    exact done_fp_superblock img d h _ (by omega)
  rw [hcnt] at hi
  have hi80 := sb_of_count_le img
  -- the bit in the image is the bit the checker left
  have hbit : is_bit_set (fread_buf d.fp (BLOCK_SIZE * INODE_BITMAP_BLOCK)) i =
      is_bit_set (inode_bitmap_end img).inode_bitmap i := by
    apply is_bit_set_congr
    show d.fp.data (BLOCK_SIZE * INODE_BITMAP_BLOCK + i / 8) = _
    rw [show BLOCK_SIZE * INODE_BITMAP_BLOCK + i / 8 = 4096 + i / 8 from by
      rw [BLOCK_SIZE_eq]; rfl,
      hd, run_done_fp_low img (by omega) _ (by omega), walk_start_fp_block1 img _ (by omega)]
  -- the inode in the image is as valid as when it was read
  have hval : valid_inode (fread_buf d.fp (BLOCK_SIZE * INODE_TABLE_START)) i =
      valid_inode (walk_start img).inodes i := by
    rw [← walk_end_valid]
    apply valid_inode_congr
    intro o ho1 ho2
    show d.fp.data (BLOCK_SIZE * INODE_TABLE_START + o) = _
    rw [show BLOCK_SIZE * INODE_TABLE_START + o = 12288 + o from by
      rw [BLOCK_SIZE_eq]; rfl, hd]
    have : (i + 1) * 256 ≤ sb_inode_count (sb_of img) * 256 :=
      Nat.mul_le_mul_right 256 hi
    exact run_done_fp_inodes img o (by omega)
  rw [← valid_inode_iff, hval, hbit]
  unfold inode_bitmap_end
  rw [check_inode_bitmap_bits, if_pos hi, walk_start_inodes, sb_of_inode_table_start]
  have e : BLOCK_SIZE * 3 = 12288 := rfl
  rw [e]
  by_cases hv : valid_inode (fread_buf (fp_after_sb img) 12288) i = true
  · rw [if_pos hv]; simp [hv]
  · rw [if_neg hv]; simp [hv]

/-! ## Orphan bits -/

theorem bit_kept_inv (sb : Buf) (i b : Nat) :
    WalkInv sb i (fun w => is_bit_set w.data_bitmap b = 1) where
  note := by
    intro lvl blk w hw _ _
    show is_bit_set (note_block sb i lvl blk w).data_bitmap b = 1
    rw [note_block_bit]
    split
    · rfl
    · exact hw
  clear := fun _ _ _ hw _ _ _ => hw
  bad := fun _ _ _ hw _ => hw
  rderr := fun _ _ _ hw _ _ => hw
  write := fun _ _ _ _ hw _ _ => hw

/-- A bit that is set when the walk starts is set when it ends. -/
theorem walk_end_bit_kept (img : File) (b : Nat)
    (h : is_bit_set (walk_start img).data_bitmap b = 1) :
    is_bit_set (walk_end img).data_bitmap b = 1 := by
  unfold walk_end
  exact walk_inodes_inv _ _ _ (fun i _ => bit_kept_inv (sb_of img) i b) _ h

/-- The final pass reports each set bit of an unreferenced block of its range and
sets its flag. -/
theorem final_pass_report (refs : Nat → Int) (lo hi : Nat) (s : DbState) (b : Nat)
    (hlo : lo ≤ b) (hhi : b < hi) (hbit : is_bit_set s.data_bitmap b ≠ 0) (hr : refs b = 0) :
    (for_range lo hi (data_bitmap_step refs) s).data_bitmap_errors = true ∧
      Line.data_bitmap_orphan b ∈ (for_range lo hi (data_bitmap_step refs) s).out := by
  have h := for_range_inv
    (fun k t => (k ≤ b → is_bit_set t.data_bitmap b ≠ 0) ∧
      (b < k → t.data_bitmap_errors = true ∧ Line.data_bitmap_orphan b ∈ t.out))
    lo hi (data_bitmap_step refs) s (by omega) ⟨fun _ => hbit, fun hc => by omega⟩ ?_
  · exact h.2 hhi
  · intro k hk1 hk2 t ht
    show (k + 1 ≤ b → is_bit_set (data_bitmap_step refs k t).data_bitmap b ≠ 0) ∧
      (b < k + 1 → (data_bitmap_step refs k t).data_bitmap_errors = true ∧
        Line.data_bitmap_orphan b ∈ (data_bitmap_step refs k t).out)
    unfold data_bitmap_step
    by_cases hkb : k = b
    · subst hkb
      have hb1 := ht.1 (Nat.le_refl k)
      rw [if_pos hb1, if_pos hr]
      exact ⟨fun hc => by omega, fun _ => ⟨rfl, List.mem_append_right _ (List.mem_singleton.mpr rfl)⟩⟩
    · constructor
      · intro hc
        have hb1 := ht.1 (by omega)
        split
        · split
          · show is_bit_set (clear_bit t.data_bitmap k) b ≠ 0
            rw [is_bit_set_clear_bit, if_neg (fun e => hkb e.symm)]
            exact hb1
          · exact hb1
        · exact hb1
      · intro hc
        have hb2 := ht.2 (by omega)
        split
        · split
          · exact ⟨rfl, List.mem_append_left _ hb2.2⟩
          · exact hb2
        · exact hb2

/-- Claim C10.  Orphan bits are cleared and persisted: on every image on which the
run completes, for every block `b` in 8..63 whose bit is set in the data bitmap
block of the image while `refs[b] = 0` after the walk, the run prints "Block b
marked used but not referenced" and bit `b` is 0 in the data bitmap block of the
image after the run. -/
theorem orphan_bit_cleared (img : File) (d : Done) (h : main img = Outcome.done d)
    (b : Nat) (h8 : 8 ≤ b) (h64 : b < 64)
    (hbit : is_bit_set (fread_buf img (BLOCK_SIZE * DATA_BITMAP_BLOCK)) b = 1)
    (href : d.block_refs b = 0) :
    Line.data_bitmap_orphan b ∈ d.out ∧
      is_bit_set (fread_buf d.fp (BLOCK_SIZE * DATA_BITMAP_BLOCK)) b = 0 := by
  obtain ⟨s1, s2, s3, s4⟩ := done_sizes img d h
  have hd := (main_done img d h).1
  rw [hd, run_done_block_refs] at href
  have e2 : BLOCK_SIZE * DATA_BITMAP_BLOCK = 8192 := rfl
  rw [e2] at hbit ⊢
  -- the bit is set when the walk starts, hence when it ends
  have hstart : is_bit_set (walk_start img).data_bitmap b = 1 := by
    rw [← hbit, walk_start_data_bitmap]
    apply is_bit_set_congr
    show (fp_after_sb img).data (8192 + b / 8) = img.data (8192 + b / 8)
    exact fp_after_sb_data_high img _ (by omega)
  have hend := walk_end_bit_kept img b hstart
  -- the final pass reports it and sets its flag
  have hle : sb_first_data_block (sb_of img) ≤ b := by rw [sb_of_first]; exact h8
  have hrep : (final_pass img).data_bitmap_errors = true ∧
      Line.data_bitmap_orphan b ∈ (final_pass img).out := by
    unfold final_pass
    dsimp only
    exact final_pass_report _ _ _ _ b hle h64 (by dsimp only; rw [hend]; decide) href
  have hfin : is_bit_set (final_pass img).data_bitmap b = 0 := by
    unfold final_pass
    dsimp only
    rw [final_pass_bits _ _ _ (by rw [sb_of_first]; decide)]
    have hc : sb_first_data_block (sb_of img) ≤ b ∧ b < TOTAL_BLOCKS ∧
        (walk_end img).block_refs b = 0 := ⟨hle, h64, href⟩
    rw [if_pos hc]
  constructor
  · rw [hd, run_done_out]
    exact List.mem_append_left _ (List.mem_append_left _ hrep.2)
  · rw [← hfin]
    apply is_bit_set_congr
    show d.fp.data (8192 + b / 8) = _
    rw [hd, run_done_fp_block2 img (by omega) _ (by omega), if_pos hrep.1]

/-! ## Bad direct pointers -/

theorem note_block_out (sb : Buf) (i : Nat) (lvl : Level) (block : Nat) (w : Walk) (l : Line)
    (h : l ∈ w.out) : l ∈ (note_block sb i lvl block w).out := by
  unfold note_block
  simp only []
  split
  · exact List.mem_append_left _ h
  · exact h

/-- A pointer field that is zero stays zero, and a printed line stays printed. -/
theorem zeroed_inv (sb : Buf) (i off : Nat) (l : Line) :
    WalkInv sb i (fun w => (∀ t, t < 4 → w.inodes (off + t) = 0) ∧ l ∈ w.out) where
  note := by
    intro lvl b w hw _ _
    rw [note_block_inodes]
    exact ⟨hw.1, note_block_out sb i lvl b w l hw.2⟩
  clear := by
    intro lvl off2 w hw _ _ _
    refine ⟨?_, List.mem_append_left _ hw.2⟩
    intro t ht
    show set32 w.inodes off2 0 (off + t) = 0
    rw [set32_zero_apply]
    split
    · rfl
    · exact hw.1 t ht
  bad := fun _ _ _ hw _ => ⟨hw.1, List.mem_append_left _ hw.2⟩
  rderr := fun _ _ _ hw _ _ => ⟨hw.1, List.mem_append_left _ hw.2⟩
  write := fun _ _ _ _ hw _ _ => hw

/-- The actions taken for inode `i` change no byte of the inode table outside
inode `i`. -/
theorem other_inode_inv (sb : Buf) (i : Nat) (inodes0 : Buf) (o : Nat)
    (ho : o < i * 256 ∨ (i + 1) * 256 ≤ o) :
    WalkInv sb i (fun w => w.inodes o = inodes0 o) where
  note := by
    intro lvl b w hw _ _
    rw [note_block_inodes]; exact hw
  clear := by
    intro lvl off w hw hoff _ _
    show set32 w.inodes off 0 o = _
    unfold PtrOff off_direct off_single off_double off_triple at hoff
    rw [sizeof_Inode_eq] at hoff
    rcases ho with ho | ho
    · rw [set32_apply_of_lt _ _ _ _ (by rcases hoff with ⟨j, hj, rfl⟩ | rfl | rfl | rfl <;> omega)]
      exact hw
    · rw [set32_apply_of_ge _ _ _ _ (by rcases hoff with ⟨j, hj, rfl⟩ | rfl | rfl | rfl <;> omega)]
      exact hw
  bad := fun _ _ _ hw _ => hw
  rderr := fun _ _ _ hw _ _ => hw
  write := fun _ _ _ _ hw _ _ => hw

theorem direct_step_inodes_other (sb : Buf) (i j : Nat) (w : Walk) (o : Nat)
    (ho : o < off_direct i j ∨ off_direct i j + 4 ≤ o) :
    (direct_step sb i j w).inodes o = w.inodes o := by
  unfold direct_step
  simp only []
  split
  · rfl
  · split
    · show set32 w.inodes (off_direct i j) 0 o = _
      rcases ho with ho | ho
      · exact set32_apply_of_lt _ _ _ _ ho
      · exact set32_apply_of_ge _ _ _ _ ho
    · rw [note_block_inodes]

theorem direct_step_valid (sb : Buf) (i j k : Nat) (hj : j < 12) (w : Walk) :
    valid_inode (direct_step sb i j w).inodes k = valid_inode w.inodes k := by
  unfold direct_step
  simp only []
  split
  · rfl
  · split
    · show valid_inode (set32 w.inodes (off_direct i j) 0) k = _
      exact valid_inode_set32_ptr _ i _ _ (Or.inl ⟨j, hj, rfl⟩)
    · rw [note_block_inodes]

/-- The loop over the inodes meets a bad direct pointer of a live inode: when the
iteration for that inode ends, the slot is zero and the error line is printed. -/
theorem inode_step_bad_direct (sb : Buf) (i j : Nat) (hj : j < 12) (w : Walk)
    (hv : valid_inode w.inodes i = true)
    (hbad : bad_ptr sb (get32 w.inodes (off_direct i j)) = true) :
    (∀ t, t < 4 → (inode_step sb i w).inodes (off_direct i j + t) = 0) ∧
      Line.bad_block i Level.direct (get32 w.inodes (off_direct i j)) ∈
        (inode_step sb i w).out := by
  have hQ := (zeroed_inv sb i (off_direct i j)
    (Line.bad_block i Level.direct (get32 w.inodes (off_direct i j)))).and_valid i
  unfold inode_step
  rw [if_neg (by rw [hv]; exact Bool.noConfusion)]
  dsimp only
  -- the loop over the direct slots
  have hloop := for_loop_inv
    (fun k t => valid_inode t.inodes i = true ∧
      (k ≤ j → ∀ u, u < 4 → t.inodes (off_direct i j + u) = w.inodes (off_direct i j + u)) ∧
      (j < k → (∀ u, u < 4 → t.inodes (off_direct i j + u) = 0) ∧
        Line.bad_block i Level.direct (get32 w.inodes (off_direct i j)) ∈ t.out))
    12 (direct_step sb i) w ⟨hv, fun _ _ _ => rfl, fun hc => absurd hc (Nat.not_lt_zero _)⟩ ?_
  · have h1 := hloop.2.2 hj
    have h2 := single_indirect_inv sb i _ hQ _ hloop.1 ⟨h1, hloop.1⟩
    have h3 := double_indirect_inv sb i _ hQ _ h2.2 h2
    exact (triple_indirect_inv sb i _ hQ _ h3.2 h3).1
  · intro k hk t ht
    refine ⟨by rw [direct_step_valid sb i k i hk]; exact ht.1, ?_, ?_⟩
    · intro hkj u hu
      rw [direct_step_inodes_other sb i k t _ (by unfold off_direct; omega)]
      exact ht.2.1 (by omega) u hu
    · intro hjk
      by_cases hkj : k = j
      · subst hkj
        have hfield : get32 t.inodes (off_direct i k) = get32 w.inodes (off_direct i k) :=
          get32_congr _ _ _ (ht.2.1 (Nat.le_refl k))
        unfold bad_ptr at hbad
        simp only [Bool.and_eq_true, decide_eq_true_eq] at hbad
        unfold direct_step
        simp only []
        rw [hfield, if_neg hbad.1, if_pos hbad.2]
        refine ⟨?_, List.mem_append_right _ (List.mem_singleton.mpr rfl)⟩
        intro u hu
        show set32 t.inodes (off_direct i k) 0 (off_direct i k + u) = 0
        rw [set32_zero_apply, if_pos ⟨by omega, by omega⟩]
      · exact direct_step_inv sb i _ (zeroed_inv sb i (off_direct i j) _) k hk t ht.1
          (ht.2.2 (by omega))

/-- The walk meets a bad direct pointer of a live inode below `n`: when the walk
ends the slot is zero and the error line is printed. -/
theorem walk_bad_direct (sb : Buf) (n i j : Nat) (hi : i < n) (hj : j < 12) (w : Walk)
    (hv : valid_inode w.inodes i = true)
    (hbad : bad_ptr sb (get32 w.inodes (off_direct i j)) = true) :
    (∀ t, t < 4 → (walk_inodes sb n w).inodes (off_direct i j + t) = 0) ∧
      Line.bad_block i Level.direct (get32 w.inodes (off_direct i j)) ∈
        (walk_inodes sb n w).out := by
  unfold walk_inodes
  have hloop := for_loop_inv
    (fun k t =>
      (k ≤ i → ∀ o, i * 256 ≤ o → o < (i + 1) * 256 → t.inodes o = w.inodes o) ∧
      (i < k → (∀ u, u < 4 → t.inodes (off_direct i j + u) = 0) ∧
        Line.bad_block i Level.direct (get32 w.inodes (off_direct i j)) ∈ t.out))
    n (inode_step sb) w ⟨fun _ _ _ _ => rfl, fun hc => absurd hc (Nat.not_lt_zero _)⟩ ?_
  · exact hloop.2 hi
  · intro k _ t ht
    constructor
    · intro hki o ho1 ho2
      have hne : o < k * 256 ∨ (k + 1) * 256 ≤ o := by
        have : (k + 1) * 256 ≤ i * 256 := Nat.mul_le_mul_right 256 hki
        omega
      exact inode_step_inv sb k _ (other_inode_inv sb k w.inodes o hne) t
        (ht.1 (by omega) o ho1 ho2)
    · intro hik
      by_cases hki : k = i
      · subst hki
        have hsame := ht.1 (Nat.le_refl k)
        have hv2 : valid_inode t.inodes k = true := by
          rw [valid_inode_congr t.inodes w.inodes k hsame]; exact hv
        have hfield : get32 t.inodes (off_direct k j) = get32 w.inodes (off_direct k j) := by
          apply get32_congr
          intro u hu
          exact hsame _ (by unfold off_direct; rw [sizeof_Inode_eq]; omega)
            (by unfold off_direct; rw [sizeof_Inode_eq]; omega)
        have := inode_step_bad_direct sb k j hj t hv2 (by rw [hfield]; exact hbad)
        rw [hfield] at this
        exact this
      · exact inode_step_inv sb k _ (zeroed_inv sb k (off_direct i j) _) t (ht.2 (by omega))

theorem walk_end_eq (img : File) :
    walk_end img = walk_inodes (sb_of img) (sb_inode_count (sb_of img)) (walk_start img) := by
  rw [walk_end]

theorem duplicate_pass_out (refs : Nat → Int) (lo hi : Nat) (s : DupState) (l : Line)
    (h : l ∈ s.out) : l ∈ (for_range lo hi (duplicate_step refs) s).out := by
  unfold for_range
  refine for_loop_inv (fun _ t => l ∈ t.out) _ _ s h ?_
  intro k _ t ht
  show l ∈ (duplicate_step refs (lo + k) t).out
  unfold duplicate_step
  split
  · exact List.mem_append_left _ ht
  · exact ht

theorem final_pass_out (refs : Nat → Int) (lo hi : Nat) (s : DbState) (l : Line)
    (h : l ∈ s.out) : l ∈ (for_range lo hi (data_bitmap_step refs) s).out := by
  unfold for_range
  refine for_loop_inv (fun _ t => l ∈ t.out) _ _ s h ?_
  intro k _ t ht
  show l ∈ (data_bitmap_step refs (lo + k) t).out
  unfold data_bitmap_step
  split
  · split
    · exact List.mem_append_left _ ht
    · exact ht
  · exact ht

/-- Every line the walk printed is in the final report. -/
theorem walk_out_in_report (img : File) (l : Line) (h : l ∈ (walk_end img).out) :
    l ∈ (run_done img).out := by
  rw [run_done_out]
  apply List.mem_append_left
  apply List.mem_append_left
  unfold final_pass
  dsimp only
  apply final_pass_out
  dsimp only
  apply List.mem_append_left
  apply List.mem_append_left
  apply duplicate_pass_out
  dsimp only
  exact h

theorem run_done_sb (img : File) : (run_done img).sb = sb_of img := by
  simp only [run_done, check_image]

theorem run_done_inode_count (img : File) :
    (run_done img).inode_count = sb_inode_count (sb_of img) := by
  simp only [run_done, check_image]

/-- The inode table read from the image is the one the walk starts from. -/
theorem walk_start_inodes_img (img : File) (o : Nat) :
    (walk_start img).inodes o = fread_buf img (BLOCK_SIZE * INODE_TABLE_START) o := by
  rw [walk_start_inodes]
  show (fp_after_sb img).data (12288 + o) = img.data (12288 + o)
  exact fp_after_sb_data_high img _ (by omega)

/-- Claim C8.  For every live inode `i` of the table and direct slot `j` whose
value `p` is non-zero and out of range (`p < 8` or `p ≥ 64`), a completed run
prints the bad block error for it and `direct[j]` of inode `i` is 0 in the inode
table of the image after the run; no reference is counted for `p`, and the
handling of the slot changes no reference counter and no data bitmap bit. -/
theorem bad_direct_pointer_cleared (img : File) (d : Done) (h : main img = Outcome.done d)
    (i j : Nat) (hi : i < d.inode_count) (hj : j < 12)
    (hlive : valid_inode (fread_buf img (BLOCK_SIZE * INODE_TABLE_START)) i = true)
    (p : Nat) (hp : get32 (fread_buf img (BLOCK_SIZE * INODE_TABLE_START)) (off_direct i j) = p)
    (h0 : p ≠ 0) (hr : p < 8 ∨ 64 ≤ p) :
    Line.bad_block i Level.direct p ∈ d.out ∧
    get32 (fread_buf d.fp (BLOCK_SIZE * INODE_TABLE_START)) (off_direct i j) = 0 ∧
    d.block_refs p = 0 ∧
    ∀ w : Walk, get32 w.inodes (off_direct i j) = p →
      (direct_step d.sb i j w).block_refs = w.block_refs ∧
      (direct_step d.sb i j w).data_bitmap = w.data_bitmap := by
  have hd := (main_done img d h).1
  rw [hd, run_done_inode_count] at hi
  have hoor : out_of_range (sb_of img) p = true := by
    unfold out_of_range
    rw [sb_of_first, sb_of_total]
    simp only [Bool.or_eq_true, decide_eq_true_eq]
    exact hr
  have hbadp : bad_ptr (sb_of img) p = true := bad_ptr_of _ _ h0 hoor
  have hv : valid_inode (walk_start img).inodes i = true := by
    rw [valid_inode_congr _ (fread_buf img (BLOCK_SIZE * INODE_TABLE_START)) i
      (fun o _ _ => walk_start_inodes_img img o)]
    exact hlive
  have hfield : get32 (walk_start img).inodes (off_direct i j) = p := by
    rw [← hp]
    exact get32_congr _ _ _ (fun t _ => walk_start_inodes_img img _)
  have hw := walk_bad_direct (sb_of img) (sb_inode_count (sb_of img)) i j hi hj (walk_start img)
    hv (by rw [hfield]; exact hbadp)
  rw [hfield, ← walk_end_eq] at hw
  refine ⟨?_, ?_, ?_, ?_⟩
  · rw [hd]
    exact walk_out_in_report img _ hw.2
  · have hz : ∀ t, t < 4 →
        fread_buf d.fp (BLOCK_SIZE * INODE_TABLE_START) (off_direct i j + t) = 0 := by
      intro t ht
      show d.fp.data (BLOCK_SIZE * INODE_TABLE_START + (off_direct i j + t)) = 0
      have hlt : off_direct i j + t < sb_inode_count (sb_of img) * 256 := by
        have : (i + 1) * 256 ≤ sb_inode_count (sb_of img) * 256 := Nat.mul_le_mul_right 256 hi
        unfold off_direct; rw [sizeof_Inode_eq]; omega
      rw [show BLOCK_SIZE * INODE_TABLE_START = 12288 from rfl, hd,
        run_done_fp_inodes img _ hlt]
      exact hw.1 t ht
    unfold get32
    have hz0 := hz 0 (by omega)
    rw [Nat.add_zero] at hz0
    rw [hz0, hz 1 (by omega), hz 2 (by omega), hz 3 (by omega)]
  · rw [hd, run_done_block_refs]
    by_contra hne
    have h1 := (walk_end_refsMarked img p hne).2
    rw [sb_of_first, sb_of_total] at h1
    clear hw hd hfield hv hp hlive h
    omega
  · intro w hwp
    rw [hd, run_done_sb]
    unfold direct_step
    simp only []
    rw [hwp, if_neg h0, if_pos hoor]
    exact ⟨rfl, rfl⟩

/-! ## Concrete runs -/

theorem img_missing_bit_done : main img_missing_bit = Outcome.done (run_done img_missing_bit) :=
  main_of_reads img_missing_bit (by with_unfolding_all decide) (by with_unfolding_all decide)
    (by with_unfolding_all decide) (by with_unfolding_all decide)

theorem img_damaged_done : main img_damaged = Outcome.done (run_done img_damaged) :=
  main_of_reads img_damaged (by with_unfolding_all decide) (by with_unfolding_all decide)
    (by with_unfolding_all decide) (by with_unfolding_all decide)

set_option maxRecDepth 100000 in
/-- Claim C2, evaluated at the failing input `img_missing_bit`: the run completes,
inode 0 is live and still points to block 10, the walker printed the repair line
and set bit 10 in memory, but bit 10 of block 2 of the image after the run is 0. -/
theorem missing_bit_not_written :
    main img_missing_bit = Outcome.done (run_done img_missing_bit) ∧
    valid_inode (fread_buf (run_done img_missing_bit).fp (BLOCK_SIZE * INODE_TABLE_START)) 0
      = true ∧
    get32 (fread_buf (run_done img_missing_bit).fp (BLOCK_SIZE * INODE_TABLE_START))
      (off_direct 0 0) = 10 ∧
    (run_done img_missing_bit).block_refs 10 = 1 ∧
    Line.data_bitmap_unmarked 0 Level.direct 10 ∈ (run_done img_missing_bit).out ∧
    is_bit_set (run_done img_missing_bit).data_bitmap 10 = 1 ∧
    is_bit_set (fread_buf (run_done img_missing_bit).fp (BLOCK_SIZE * DATA_BITMAP_BLOCK)) 10
      = 0 :=
  ⟨img_missing_bit_done, by with_unfolding_all decide, by with_unfolding_all decide,
    by with_unfolding_all decide, by with_unfolding_all decide, by with_unfolding_all decide,
    by with_unfolding_all decide⟩

set_option maxRecDepth 100000 in
/-- Claim C3, evaluated at the failing input `img_missing_bit`: both runs complete
and the second run, on the image the first one left, prints the repair line
"Data Bitmap error: Inode 0 direct pointer references block 10 ..." again. -/
theorem second_run_repairs :
    main img_missing_bit = Outcome.done (run_done img_missing_bit) ∧
    main (run_done img_missing_bit).fp =
      Outcome.done (run_done (run_done img_missing_bit).fp) ∧
    Line.data_bitmap_unmarked 0 Level.direct 10 ∈
      (run_done (run_done img_missing_bit).fp).out ∧
    (Line.data_bitmap_unmarked 0 Level.direct 10).is_repair = true :=
  ⟨img_missing_bit_done,
    main_of_reads _ (by with_unfolding_all decide) (by with_unfolding_all decide)
      (by with_unfolding_all decide) (by with_unfolding_all decide),
    by with_unfolding_all decide, rfl⟩

set_option maxRecDepth 100000 in
/-- Claim C5, at a concrete image: inode 0 of `img_damaged` is live and unmarked;
after the run its bit is set in block 1 of the image. -/
theorem inode_bitmap_iff_live_witness :
    main img_damaged = Outcome.done (run_done img_damaged) ∧
    0 < sb_inode_count (fread_buf (run_done img_damaged).fp (BLOCK_SIZE * SUPERBLOCK_BLOCK)) ∧
    (is_bit_set (fread_buf (run_done img_damaged).fp (BLOCK_SIZE * INODE_BITMAP_BLOCK)) 0 = 1 ↔
      (0 < get32 (fread_buf (run_done img_damaged).fp (BLOCK_SIZE * INODE_TABLE_START))
          (off_n_links 0) ∧
        get32 (fread_buf (run_done img_damaged).fp (BLOCK_SIZE * INODE_TABLE_START))
          (off_dtime 0) = 0)) :=
  ⟨img_damaged_done, by with_unfolding_all decide,
    inode_bitmap_iff_live img_damaged _ img_damaged_done 0 (by with_unfolding_all decide)⟩

/-- Claim C6, at a concrete image: block 0 of `img_damaged` has magic 0; after the
run the stored magic is 0xD34D and the stored `inode_count` is at most 80. -/
theorem superblock_canonical_witness :
    main img_damaged = Outcome.done (run_done img_damaged) ∧
    sb_magic (fread_buf (run_done img_damaged).fp 0) = 0xD34D ∧
    sb_inode_count (fread_buf (run_done img_damaged).fp 0) ≤ 80 :=
  ⟨img_damaged_done,
    ((superblock_canonical (fread_buf img_damaged 0)).2 img_damaged _ img_damaged_done).1,
    ((superblock_canonical (fread_buf img_damaged 0)).2 img_damaged _
      img_damaged_done).2.2.2.2.2.2.2.2⟩

set_option maxRecDepth 100000 in
/-- Claim C8, at a concrete image: inode 0 of `img_damaged` is live with
`direct[0] = 200`; the run reports it, clears the slot and counts nothing. -/
theorem bad_direct_pointer_cleared_witness :
    main img_damaged = Outcome.done (run_done img_damaged) ∧
    0 < (run_done img_damaged).inode_count ∧
    valid_inode (fread_buf img_damaged (BLOCK_SIZE * INODE_TABLE_START)) 0 = true ∧
    get32 (fread_buf img_damaged (BLOCK_SIZE * INODE_TABLE_START)) (off_direct 0 0) = 200 ∧
    Line.bad_block 0 Level.direct 200 ∈ (run_done img_damaged).out ∧
    get32 (fread_buf (run_done img_damaged).fp (BLOCK_SIZE * INODE_TABLE_START))
      (off_direct 0 0) = 0 ∧
    (run_done img_damaged).block_refs 200 = 0 :=
  have h := bad_direct_pointer_cleared img_damaged _ img_damaged_done 0 0
    (by with_unfolding_all decide) (by with_unfolding_all decide) (by with_unfolding_all decide)
    200 (by with_unfolding_all decide) (by with_unfolding_all decide)
    (by with_unfolding_all decide)
  ⟨img_damaged_done, by with_unfolding_all decide, by with_unfolding_all decide,
    by with_unfolding_all decide, h.1, h.2.1, h.2.2.1⟩

set_option maxRecDepth 100000 in
/-- Claim C10, at a concrete image: bit 20 is set in the data bitmap of
`img_damaged` and nothing references block 20; the run reports it and bit 20 is
0 in block 2 of the image after the run. -/
theorem orphan_bit_cleared_witness :
    main img_damaged = Outcome.done (run_done img_damaged) ∧
    is_bit_set (fread_buf img_damaged (BLOCK_SIZE * DATA_BITMAP_BLOCK)) 20 = 1 ∧
    (run_done img_damaged).block_refs 20 = 0 ∧
    Line.data_bitmap_orphan 20 ∈ (run_done img_damaged).out ∧
    is_bit_set (fread_buf (run_done img_damaged).fp (BLOCK_SIZE * DATA_BITMAP_BLOCK)) 20 = 0 :=
  have h := orphan_bit_cleared img_damaged _ img_damaged_done 20 (by with_unfolding_all decide)
    (by with_unfolding_all decide) (by with_unfolding_all decide) (by with_unfolding_all decide)
  ⟨img_damaged_done, by with_unfolding_all decide, by with_unfolding_all decide, h.1, h.2⟩

/-! ## The data region during the walk -/

theorem get32_eq_zero (b : Buf) (off : Nat) (h : ∀ t, t < 4 → b (off + t) = 0) :
    get32 b off = 0 := by
  unfold get32
  have h0 := h 0 (by omega)
  rw [Nat.add_zero] at h0
  rw [h0, h 1 (by omega), h 2 (by omega), h 3 (by omega)]

theorem get32_congr2 (b c : Buf) (off off2 : Nat)
    (h : ∀ t, t < 4 → b (off + t) = c (off2 + t)) : get32 b off = get32 c off2 := by
  unfold get32
  have h0 := h 0 (by omega)
  rw [Nat.add_zero, Nat.add_zero] at h0
  rw [h0, h 1 (by omega), h 2 (by omega), h 3 (by omega)]

theorem clean_data_word (sb orig : Buf) (a t : Nat) (ha : a % 4 = 0) (ht : t < 4) :
    clean_data sb orig (a + t) =
      if bad_ptr sb (get32 orig a) = true then 0 else orig (a + t) := by
  unfold clean_data
  rw [show a + t - (a + t) % 4 = a by omega]

/-- Scanning a block that is as it was, or already cleaned, leaves its cleaned
version in the buffer. -/
theorem clean_buf_block (sb orig B : Buf) (blk : Nat)
    (hB : (∀ o, o < BLOCK_SIZE → B o = orig (blk * BLOCK_SIZE + o)) ∨
      (∀ o, o < BLOCK_SIZE → B o = clean_data sb orig (blk * BLOCK_SIZE + o)))
    (o : Nat) (ho : o < BLOCK_SIZE) :
    clean_buf sb B o = clean_data sb orig (blk * BLOCK_SIZE + o) := by
  rw [BLOCK_SIZE_eq] at hB ho ⊢
  unfold clean_buf clean_upto
  rw [BLOCK_SIZE_eq]
  have hal : (blk * 4096 + (o - o % 4)) % 4 = 0 := by omega
  have hsplit : blk * 4096 + o = blk * 4096 + (o - o % 4) + o % 4 := by omega
  have hcd := clean_data_word sb orig (blk * 4096 + (o - o % 4)) (o % 4) hal
    (Nat.mod_lt _ (by norm_num))
  rw [← hsplit] at hcd
  rw [hcd]
  rcases hB with hB | hB
  · have hw : get32 B (o - o % 4) = get32 orig (blk * 4096 + (o - o % 4)) := by
      apply get32_congr2
      intro t ht
      rw [hB _ (by omega), show blk * 4096 + (o - o % 4 + t) = blk * 4096 + (o - o % 4) + t
        by omega]
    rw [hw, hB o ho]
    by_cases hbad : bad_ptr sb (get32 orig (blk * 4096 + (o - o % 4))) = true
    · have hc : o < 4 * (4096 / 4) ∧
          bad_ptr sb (get32 orig (blk * 4096 + (o - o % 4))) = true := ⟨by omega, hbad⟩
      rw [if_pos hc, if_pos hbad]
    · have hc : ¬ (o < 4 * (4096 / 4) ∧
          bad_ptr sb (get32 orig (blk * 4096 + (o - o % 4))) = true) := fun h => hbad h.2
      rw [if_neg hc, if_neg hbad]
  · have hbyte : ∀ t, t < 4 → B (o - o % 4 + t) =
        if bad_ptr sb (get32 orig (blk * 4096 + (o - o % 4))) = true then 0
        else orig (blk * 4096 + (o - o % 4) + t) := by
      intro t ht
      rw [hB _ (by omega), show blk * 4096 + (o - o % 4 + t) = blk * 4096 + (o - o % 4) + t
        by omega]
      exact clean_data_word sb orig _ t hal ht
    have ho4 : B o = if bad_ptr sb (get32 orig (blk * 4096 + (o - o % 4))) = true then 0
        else orig (blk * 4096 + o) := by
      have := hbyte (o % 4) (Nat.mod_lt _ (by norm_num))
      rw [show o - o % 4 + o % 4 = o by omega, ← hsplit] at this
      exact this
    by_cases hbad : bad_ptr sb (get32 orig (blk * 4096 + (o - o % 4))) = true
    · have hz : get32 B (o - o % 4) = 0 := by
        apply get32_eq_zero
        intro t ht
        rw [hbyte t ht, if_pos hbad]
      have hc : ¬ (o < 4 * (4096 / 4) ∧ bad_ptr sb (get32 B (o - o % 4)) = true) := by
        rw [hz, bad_ptr_zero]; simp
      rw [if_neg hc, if_pos hbad, ho4, if_pos hbad]
    · have hw : get32 B (o - o % 4) = get32 orig (blk * 4096 + (o - o % 4)) := by
        apply get32_congr2
        intro t ht
        rw [hbyte t ht, if_neg hbad]
      have hc : ¬ (o < 4 * (4096 / 4) ∧ bad_ptr sb (get32 B (o - o % 4)) = true) := by
        rw [hw]; exact fun h => hbad h.2
      rw [if_neg hc, if_neg hbad, ho4, if_neg hbad]

theorem fwrite_block_same (f : File) (blk : Nat) (buf : Buf) (o : Nat) (ho : o < BLOCK_SIZE) :
    (fwrite f (blk * BLOCK_SIZE) (4 * (BLOCK_SIZE / 4)) buf).data (blk * BLOCK_SIZE + o)
      = buf o := by
  rw [BLOCK_SIZE_eq] at ho ⊢
  rw [fwrite_data_in _ _ _ _ _ (show blk * 4096 ≤ blk * 4096 + o by omega)
    (show blk * 4096 + o < blk * 4096 + 4 * (4096 / 4) by omega),
    show blk * 4096 + o - blk * 4096 = o by omega]

theorem fwrite_block_other (f : File) (blk blk2 : Nat) (buf : Buf) (o : Nat)
    (hne : blk2 ≠ blk) (ho : o < BLOCK_SIZE) (hs : blk2 * BLOCK_SIZE + o < f.size) :
    (fwrite f (blk * BLOCK_SIZE) (4 * (BLOCK_SIZE / 4)) buf).data (blk2 * BLOCK_SIZE + o)
      = f.data (blk2 * BLOCK_SIZE + o) := by
  rw [BLOCK_SIZE_eq] at ho hs ⊢
  rcases Nat.lt_or_gt_of_ne hne with h | h
  · exact fwrite_data_of_lt _ _ _ _ _ (by omega) hs
  · exact fwrite_data_of_ge _ _ _ _ _ (by omega)

theorem blockEq_fwrite_other (f : File) (blk blk2 : Nat) (buf c : Buf)
    (hne : blk2 ≠ blk) (hs : (blk + 1) * BLOCK_SIZE ≤ f.size)
    (h : BlockEq f.data c blk2) :
    BlockEq (fwrite f (blk * BLOCK_SIZE) (4 * (BLOCK_SIZE / 4)) buf).data c blk2 := by
  intro o ho
  rw [← h o ho]
  rw [BLOCK_SIZE_eq] at ho hs ⊢
  rcases Nat.lt_or_gt_of_ne hne with hlt | hgt
  · exact fwrite_data_of_lt _ _ _ _ _ (by omega) (by omega)
  · exact fwrite_data_of_ge _ _ _ _ _ (by omega)

/-- The data region invariant is kept by every action of the walker. -/
theorem dataInv_inv (sb : Buf) (h8 : sb_first_data_block sb = 8) (h64 : sb_total_blocks sb = 64)
    (i : Nat) (orig : Buf) (C : Nat → Prop) : WalkInv sb i (DataInv sb orig C) where
  note := by
    intro lvl b w hw _ _
    unfold DataInv
    rw [note_block_fp]
    exact hw
  clear := fun _ _ _ hw _ _ _ => hw
  bad := fun _ _ _ hw _ => hw
  rderr := fun _ _ _ hw _ _ => hw
  write := by
    intro blk w0 w hw0 hw _ hb
    have hr := in_range_of sb blk hb
    rw [h8, h64] at hr
    obtain ⟨hsz, hblk, hC⟩ := hw
    have hsz2 : 64 * 4096 ≤ w.fp.size := hsz
    have hcleaned : BlockEq (fwrite w.fp (blk * BLOCK_SIZE) (4 * (BLOCK_SIZE / 4))
        (clean_buf sb (fread_buf w0.fp (blk * BLOCK_SIZE)))).data (clean_data sb orig) blk := by
      intro o ho
      rw [fwrite_block_same _ _ _ _ ho]
      apply clean_buf_block sb orig _ blk _ o ho
      rcases hw0.2.1 blk hr.1 hr.2 with h | h
      · exact Or.inl (fun o ho => h o ho)
      · exact Or.inr (fun o ho => h o ho)
    have hother : ∀ blk2 c, blk2 ≠ blk → BlockEq w.fp.data c blk2 →
        BlockEq (fwrite w.fp (blk * BLOCK_SIZE) (4 * (BLOCK_SIZE / 4))
          (clean_buf sb (fread_buf w0.fp (blk * BLOCK_SIZE)))).data c blk2 := by
      intro blk2 c hne h
      exact blockEq_fwrite_other _ _ _ _ _ hne (by rw [BLOCK_SIZE_eq]; omega) h
    refine ⟨Nat.le_trans hsz (fwrite_size_ge _ _ _ _), ?_, ?_⟩
    · intro blk2 hlo hhi
      by_cases hne : blk2 = blk
      · rw [hne]; exact Or.inr hcleaned
      · rcases hblk blk2 hlo hhi with h | h
        · exact Or.inl (hother blk2 _ hne h)
        · exact Or.inr (hother blk2 _ hne h)
    · intro blk2 hc
      by_cases hne : blk2 = blk
      · rw [hne]; exact hcleaned
      · exact hother blk2 _ hne (hC blk2 hc)

/-! ## The pointer handlers as instances of one shape -/

theorem direct_step_eq (sb : Buf) (i j : Nat) (w : Walk) :
    direct_step sb i j w = ptr_step sb i Level.direct (off_direct i j) no_child w := by
  unfold direct_step ptr_step no_child
  rfl

theorem scan_tree_nil (sb : Buf) (i : Nat) : scan_tree sb i [] = no_child := rfl

theorem scan_tree_cons (sb : Buf) (i : Nat) (lvl : Level) (rest : List Level) :
    scan_tree sb i (lvl :: rest) = scan_block sb i lvl (scan_tree sb i rest) := rfl

theorem single_indirect_eq (sb : Buf) (i : Nat) (w : Walk) :
    single_indirect sb i w =
      ptr_step sb i Level.single_ptr (off_single i) (scan_tree sb i [Level.single_entry]) w := by
  rw [scan_tree_cons, scan_tree_nil]
  unfold single_indirect ptr_step
  by_cases h : get32 w.inodes (off_single i) = 0
  · simp only [h, ne_eq, not_true_eq_false, if_false, if_true]
  · simp only [h, ne_eq, not_false_eq_true, if_true, if_false]

theorem double_indirect_eq (sb : Buf) (i : Nat) (w : Walk) :
    double_indirect sb i w =
      ptr_step sb i Level.double_ptr (off_double i)
        (scan_tree sb i [Level.double_l1, Level.double_l2]) w := by
  rw [scan_tree_cons, scan_tree_cons, scan_tree_nil]
  unfold double_indirect ptr_step
  by_cases h : get32 w.inodes (off_double i) = 0
  · simp only [h, ne_eq, not_true_eq_false, if_false, if_true]
  · simp only [h, ne_eq, not_false_eq_true, if_true, if_false]

theorem triple_indirect_eq (sb : Buf) (i : Nat) (w : Walk) :
    triple_indirect sb i w =
      ptr_step sb i Level.triple_ptr (off_triple i)
        (scan_tree sb i [Level.triple_l1, Level.triple_l2, Level.triple_l3]) w := by
  rw [scan_tree_cons, scan_tree_cons, scan_tree_cons, scan_tree_nil]
  unfold triple_indirect ptr_step
  by_cases h : get32 w.inodes (off_triple i) = 0
  · simp only [h, ne_eq, not_true_eq_false, if_false, if_true]
  · simp only [h, ne_eq, not_false_eq_true, if_true, if_false]

/-- Every property kept by the actions of a scan is kept by the scan of a tree. -/
theorem scan_tree_inv (sb : Buf) (i : Nat) (P : Walk → Prop) (hP : ScanInv sb i P) :
    ∀ (lvls : List Level) (p : Nat) (w : Walk), P w → p ≠ 0 → out_of_range sb p = false →
      P (scan_tree sb i lvls p w) := by
  intro lvls
  induction lvls with
  | nil => intro p w hw _ _; exact hw
  | cons lvl rest ih =>
    intro p w hw hp0 hp
    rw [scan_tree_cons]
    exact scan_block_inv sb i P hP lvl _ (fun e w1 hw1 he0 he => ih e w1 hw1 he0 he) p w hw hp0 hp

/-- The scan of a tree leaves the inode table alone. -/
theorem scan_tree_inodes (sb : Buf) (i : Nat) (lvls : List Level) (p : Nat) (w : Walk)
    (hp0 : p ≠ 0) (hp : out_of_range sb p = false) :
    (scan_tree sb i lvls p w).inodes = w.inodes := by
  refine scan_tree_inv sb i (fun t => t.inodes = w.inodes) ?_ lvls p w rfl hp0 hp
  exact {
    note := fun lvl b t ht _ _ => by rw [note_block_inodes]; exact ht
    bad := fun _ _ _ ht _ => ht
    rderr := fun _ _ _ ht _ _ => ht
    write := fun _ _ _ _ ht _ _ => ht }

/-! ## Cleaning of the visited trees -/

theorem DataInv.weaken {sb orig : Buf} {C C2 : Nat → Prop} {w : Walk}
    (h : DataInv sb orig C w) (hC : ∀ b, C2 b → C b) : DataInv sb orig C2 w :=
  ⟨h.1, h.2.1, fun b hb => h.2.2 b (hC b hb)⟩

theorem DataInv.same_fp {sb orig : Buf} {C : Nat → Prop} {w w2 : Walk}
    (h : DataInv sb orig C w) (hfp : w2.fp = w.fp) : DataInv sb orig C w2 := by
  unfold DataInv
  rw [hfp]
  exact h

/-- Writing back the buffer of a scanned block keeps the data region invariant and
leaves that block cleaned. -/
theorem dataInv_write (sb : Buf) (h8 : sb_first_data_block sb = 8)
    (h64 : sb_total_blocks sb = 64) (orig : Buf) (C0 C : Nat → Prop) (blk : Nat)
    (w0 w : Walk) (hw0 : DataInv sb orig C0 w0) (hw : DataInv sb orig C w)
    (hb : out_of_range sb blk = false) :
    DataInv sb orig (fun b => C b ∨ b = blk)
      { w with
        fp := fwrite w.fp (blk * BLOCK_SIZE) (4 * (BLOCK_SIZE / 4))
                (clean_buf sb (fread_buf w0.fp (blk * BLOCK_SIZE))) } := by
  have hr := in_range_of sb blk hb
  rw [h8, h64] at hr
  obtain ⟨hsz, hblk, hC⟩ := hw
  have hsz2 : 64 * 4096 ≤ w.fp.size := hsz
  have hcleaned : BlockEq (fwrite w.fp (blk * BLOCK_SIZE) (4 * (BLOCK_SIZE / 4))
      (clean_buf sb (fread_buf w0.fp (blk * BLOCK_SIZE)))).data (clean_data sb orig) blk := by
    intro o ho
    rw [fwrite_block_same _ _ _ _ ho]
    apply clean_buf_block sb orig _ blk _ o ho
    rcases hw0.2.1 blk hr.1 hr.2 with h | h
    · exact Or.inl (fun o ho => h o ho)
    · exact Or.inr (fun o ho => h o ho)
  have hother : ∀ blk2 c, blk2 ≠ blk → BlockEq w.fp.data c blk2 →
      BlockEq (fwrite w.fp (blk * BLOCK_SIZE) (4 * (BLOCK_SIZE / 4))
        (clean_buf sb (fread_buf w0.fp (blk * BLOCK_SIZE)))).data c blk2 := by
    intro blk2 c hne h
    exact blockEq_fwrite_other _ _ _ _ _ hne (by rw [BLOCK_SIZE_eq]; omega) h
  refine ⟨Nat.le_trans hsz (fwrite_size_ge _ _ _ _), ?_, ?_⟩
  · intro blk2 hlo hhi
    by_cases hne : blk2 = blk
    · rw [hne]; exact Or.inr hcleaned
    · rcases hblk blk2 hlo hhi with h | h
      · exact Or.inl (hother blk2 _ hne h)
      · exact Or.inr (hother blk2 _ hne h)
  · intro blk2 hc
    by_cases hne : blk2 = blk
    · rw [hne]; exact hcleaned
    · rcases hc with hc | hc
      · exact hother blk2 _ hne (hC blk2 hc)
      · exact absurd hc hne

/-- Under the data region invariant, a read of a block of the data region is
complete. -/
theorem dataInv_read (sb orig : Buf) (C : Nat → Prop) (w : Walk) (blk : Nat)
    (hw : DataInv sb orig C w) (hlt : blk < 64) :
    fread_items w.fp (blk * BLOCK_SIZE) 4 (BLOCK_SIZE / 4) = BLOCK_SIZE / 4 := by
  have hsz : 64 * 4096 ≤ w.fp.size := hw.1
  unfold fread_items
  rw [BLOCK_SIZE_eq]
  have : 1024 ≤ (w.fp.size - blk * 4096) / 4 := by omega
  omega

/-- An entry of a block that is as it was or cleaned: the original entry, or zero
when the original entry is bad. -/
theorem entry_of_block (sb orig data : Buf) (blk k : Nat) (hk : k < BLOCK_SIZE / 4)
    (h : BlockEq data orig blk ∨ BlockEq data (clean_data sb orig) blk) :
    get32 data (blk * BLOCK_SIZE + 4 * k) = get32 orig (blk * BLOCK_SIZE + 4 * k) ∨
      (get32 data (blk * BLOCK_SIZE + 4 * k) = 0 ∧
        bad_ptr sb (get32 orig (blk * BLOCK_SIZE + 4 * k)) = true) := by
  rw [BLOCK_SIZE_eq] at hk
  rcases h with h | h
  · left
    apply get32_congr
    intro t ht
    have := h (4 * k + t) (by rw [BLOCK_SIZE_eq]; omega)
    rw [show blk * BLOCK_SIZE + 4 * k + t = blk * BLOCK_SIZE + (4 * k + t) by omega]
    exact this
  · have hbyte : ∀ t, t < 4 → data (blk * BLOCK_SIZE + 4 * k + t) =
        if bad_ptr sb (get32 orig (blk * BLOCK_SIZE + 4 * k)) = true then 0
        else orig (blk * BLOCK_SIZE + 4 * k + t) := by
      intro t ht
      have := h (4 * k + t) (by rw [BLOCK_SIZE_eq]; omega)
      rw [show blk * BLOCK_SIZE + 4 * k + t = blk * BLOCK_SIZE + (4 * k + t) by omega, this,
        show blk * BLOCK_SIZE + (4 * k + t) = blk * BLOCK_SIZE + 4 * k + t by omega]
      exact clean_data_word sb orig _ t (by rw [BLOCK_SIZE_eq]; omega) ht
    by_cases hbad : bad_ptr sb (get32 orig (blk * BLOCK_SIZE + 4 * k)) = true
    · right
      refine ⟨?_, hbad⟩
      apply get32_eq_zero
      intro t ht
      rw [hbyte t ht, if_pos hbad]
    · left
      apply get32_congr
      intro t ht
      rw [hbyte t ht, if_neg hbad]

/-- The scan of one indirection block, read completely: a property indexed by the
number of entries scanned goes through the loop, and the block is written back
with its bad entries zeroed. -/
theorem scan_block_loop (sb : Buf) (i : Nat) (lvl : Level) (child : Nat → Walk → Walk)
    (blk : Nat) (w : Walk) (I : Nat → Walk → Prop)
    (hread : fread_items w.fp (blk * BLOCK_SIZE) 4 (BLOCK_SIZE / 4) = BLOCK_SIZE / 4)
    (h0 : I 0 w)
    (hzero : ∀ k t, k < BLOCK_SIZE / 4 → I k t →
      get32 w.fp.data (blk * BLOCK_SIZE + 4 * k) = 0 → I (k + 1) t)
    (hbad : ∀ k t, k < BLOCK_SIZE / 4 → I k t →
      bad_ptr sb (get32 w.fp.data (blk * BLOCK_SIZE + 4 * k)) = true →
      I (k + 1) { t with
        out := t.out ++ [Line.bad_block i lvl (get32 w.fp.data (blk * BLOCK_SIZE + 4 * k))],
        bad_block_errors := true })
    (hgood : ∀ k t, k < BLOCK_SIZE / 4 → I k t →
      get32 w.fp.data (blk * BLOCK_SIZE + 4 * k) ≠ 0 →
      out_of_range sb (get32 w.fp.data (blk * BLOCK_SIZE + 4 * k)) = false →
      I (k + 1) (child (get32 w.fp.data (blk * BLOCK_SIZE + 4 * k))
        (note_block sb i lvl (get32 w.fp.data (blk * BLOCK_SIZE + 4 * k)) t))) :
    ∃ t, I (BLOCK_SIZE / 4) t ∧
      scan_block sb i lvl child blk w =
        { t with
          fp := fwrite t.fp (blk * BLOCK_SIZE) (4 * (BLOCK_SIZE / 4))
                  (clean_buf sb (fread_buf w.fp (blk * BLOCK_SIZE))) } := by
  have hloop := for_loop_inv
    (fun k s => I k s.w ∧ s = for_loop k (entry_step sb i lvl child)
      { buf := fread_buf w.fp (blk * BLOCK_SIZE), w := w })
    (BLOCK_SIZE / 4) (entry_step sb i lvl child)
    { buf := fread_buf w.fp (blk * BLOCK_SIZE), w := w } ⟨h0, (for_loop_zero _ _).symm⟩ ?_
  · refine ⟨_, hloop.1, ?_⟩
    unfold scan_block
    simp only []
    rw [if_neg (not_not.mpr hread), scan_buf]
    rfl
  · intro k hk s hs
    have he : get32 s.buf (4 * k) = get32 w.fp.data (blk * BLOCK_SIZE + 4 * k) := by
      rw [hs.2, scan_buf, get32_clean_upto]
      apply get32_congr2
      intro t _
      show w.fp.data (blk * BLOCK_SIZE + (4 * k + t)) = _
      rw [Nat.add_assoc]
    constructor
    · unfold entry_step
      simp only [he]
      by_cases hz : get32 w.fp.data (blk * BLOCK_SIZE + 4 * k) = 0
      · rw [if_pos hz]; exact hzero k s.w hk hs.1 hz
      · rw [if_neg hz]
        by_cases hr : out_of_range sb (get32 w.fp.data (blk * BLOCK_SIZE + 4 * k)) = true
        · rw [if_pos hr]
          exact hbad k s.w hk hs.1 (bad_ptr_of sb _ hz hr)
        · rw [if_neg hr]
          exact hgood k s.w hk hs.1 hz (by simpa using hr)
    · rw [hs.2, for_loop_succ]

theorem inTree_zero (sb orig : Buf) (depth b : Nat) : ¬ InTree sb orig depth 0 b := by
  cases depth with
  | zero => exact fun h => h
  | succ d => exact fun h => h.1 rfl

theorem inTree_bad (sb orig : Buf) (depth p b : Nat) (h : bad_ptr sb p = true) :
    ¬ InTree sb orig depth p b := by
  cases depth with
  | zero => exact fun hc => hc
  | succ d =>
    intro hc
    have := bad_ptr_false_of sb p hc.2.1
    rw [h] at this
    exact Bool.noConfusion this

/-- The scan of the tree under a good pointer keeps the data region invariant and
leaves every indirection block of the tree cleaned. -/
theorem scan_tree_clean (sb : Buf) (h8 : sb_first_data_block sb = 8)
    (h64 : sb_total_blocks sb = 64) (i : Nat) (orig : Buf) :
    ∀ (lvls : List Level) (C : Nat → Prop) (p : Nat) (w : Walk), p ≠ 0 →
      out_of_range sb p = false → DataInv sb orig C w →
      DataInv sb orig (fun b => C b ∨ InTree sb orig lvls.length p b)
        (scan_tree sb i lvls p w) := by
  intro lvls
  induction lvls with
  | nil =>
    intro C p w _ _ hw
    rw [scan_tree_nil]
    exact hw.weaken (fun b hb => hb.elim id (fun h => False.elim h))
  | cons lvl rest ih =>
    intro C p w hp0 hp hw
    have hr := in_range_of sb p hp
    rw [h8, h64] at hr
    have hpblk := hw.2.1 p hr.1 hr.2
    rw [scan_tree_cons]
    obtain ⟨t, hI, heq⟩ := scan_block_loop sb i lvl (scan_tree sb i rest) p w
      (fun k t => DataInv sb orig (fun b => C b ∨ ∃ k2, k2 < k ∧
        InTree sb orig rest.length (get32 orig (p * BLOCK_SIZE + 4 * k2)) b) t)
      (dataInv_read sb orig C w p hw hr.2)
      (hw.weaken (fun b hb => hb.elim id (fun ⟨k2, hk2, _⟩ => absurd hk2 (Nat.not_lt_zero _))))
      (by
        intro k t hk ht hz
        refine ht.weaken ?_
        rintro b (hb | ⟨k2, hk2, hb⟩)
        · exact Or.inl hb
        · by_cases hkk : k2 = k
          · subst hkk
            exfalso
            rcases entry_of_block sb orig w.fp.data p k2 hk hpblk with he | he
            · rw [← he, hz] at hb
              exact inTree_zero sb orig _ b hb
            · exact inTree_bad sb orig _ _ b he.2 hb
          · exact Or.inr ⟨k2, by omega, hb⟩)
      (by
        intro k t hk ht hbad
        have ht2 : DataInv sb orig (fun b => C b ∨ ∃ k2, k2 < k ∧
            InTree sb orig rest.length (get32 orig (p * BLOCK_SIZE + 4 * k2)) b)
            { t with
              out := t.out ++
                [Line.bad_block i lvl (get32 w.fp.data (p * BLOCK_SIZE + 4 * k))],
              bad_block_errors := true } := ht.same_fp rfl
        refine ht2.weaken ?_
        rintro b (hb | ⟨k2, hk2, hb⟩)
        · exact Or.inl hb
        · by_cases hkk : k2 = k
          · subst hkk
            exfalso
            rcases entry_of_block sb orig w.fp.data p k2 hk hpblk with he | he
            · rw [← he] at hb
              exact inTree_bad sb orig _ _ b hbad hb
            · rw [he.1, bad_ptr_zero] at hbad
              exact Bool.noConfusion hbad
          · exact Or.inr ⟨k2, by omega, hb⟩)
      (by
        intro k t hk ht hz hg
        have hnote := ht.same_fp (note_block_fp sb i lvl
          (get32 w.fp.data (p * BLOCK_SIZE + 4 * k)) t)
        have hih := ih _ _ _ hz hg hnote
        refine hih.weaken ?_
        rintro b (hb | ⟨k2, hk2, hb⟩)
        · exact Or.inl (Or.inl hb)
        · by_cases hkk : k2 = k
          · subst hkk
            right
            rcases entry_of_block sb orig w.fp.data p k2 hk hpblk with he | he
            · rw [he]; exact hb
            · exact absurd he.1 hz
          · exact Or.inl (Or.inr ⟨k2, by omega, hb⟩))
    rw [heq]
    refine (dataInv_write sb h8 h64 orig C _ p w t hw hI hp).weaken ?_
    rintro b (hb | hb)
    · exact Or.inl (Or.inl hb)
    · obtain ⟨_, _, hb | ⟨k, hk, hb⟩⟩ := hb
      · exact Or.inr hb
      · exact Or.inl (Or.inr ⟨k, hk, hb⟩)

/-! ## Pointer fields of the inodes during the walk -/

/-- Two pointer fields of the inode table coincide or do not overlap. -/
theorem ptrOff_disjoint (i i2 off off2 : Nat) (h : PtrOff i off) (h2 : PtrOff i2 off2) :
    off = off2 ∨ off + 4 ≤ off2 ∨ off2 + 4 ≤ off := by
  unfold PtrOff off_direct off_single off_double off_triple at h h2
  rw [sizeof_Inode_eq] at h h2
  rcases h with ⟨j, hj, rfl⟩ | rfl | rfl | rfl <;>
    rcases h2 with ⟨j2, hj2, rfl⟩ | rfl | rfl | rfl <;> omega

theorem get32_clear_pointer (i i2 : Nat) (lvl : Level) (off off2 p : Nat) (w : Walk)
    (h : PtrOff i off) (h2 : PtrOff i2 off2) :
    get32 (clear_pointer i2 lvl off2 p w).inodes off =
      if off = off2 then 0 else get32 w.inodes off := by
  show get32 (set32 w.inodes off2 0) off = _
  rcases ptrOff_disjoint i i2 off off2 h h2 with he | he | he
  · rw [if_pos he, he]
    exact get32_set32_same _ _ _ (by norm_num)
  · rw [if_neg (by omega)]
    exact get32_set32_disjoint _ _ _ _ (Or.inl he)
  · rw [if_neg (by omega)]
    exact get32_set32_disjoint _ _ _ _ (Or.inr he)

theorem fieldPre_inv (sb : Buf) (h8 : sb_first_data_block sb = 8)
    (h64 : sb_total_blocks sb = 64) (orig : Buf) (i i2 off v : Nat) (hoff : PtrOff i off) :
    WalkInv sb i2 (FieldPre sb orig off v) where
  note := by
    intro lvl b w hw hb0 hb
    refine ⟨(dataInv_inv sb h8 h64 i2 orig _).note lvl b w hw.1 hb0 hb, ?_⟩
    rw [note_block_inodes]; exact hw.2
  bad := fun lvl e w hw hb => ⟨(dataInv_inv sb h8 h64 i2 orig _).bad lvl e w hw.1 hb, hw.2⟩
  rderr := fun lvl blk w hw hb hr =>
    ⟨(dataInv_inv sb h8 h64 i2 orig _).rderr lvl blk w hw.1 hb hr, hw.2⟩
  write := fun blk w0 w hw0 hw hb0 hb =>
    ⟨(dataInv_inv sb h8 h64 i2 orig _).write blk w0 w hw0.1 hw.1 hb0 hb, hw.2⟩
  clear := by
    intro lvl off2 w hw ho2 hv hb
    refine ⟨hw.1, ?_⟩
    rw [get32_clear_pointer i i2 lvl off off2 _ w hoff ho2]
    split
    · exact Or.inr rfl
    · exact hw.2

theorem fieldClean_inv (sb : Buf) (h8 : sb_first_data_block sb = 8)
    (h64 : sb_total_blocks sb = 64) (orig : Buf) (i i2 off depth v : Nat)
    (hoff : PtrOff i off) : WalkInv sb i2 (FieldClean sb orig off depth v) where
  note := by
    intro lvl b w hw hb0 hb
    refine ⟨(dataInv_inv sb h8 h64 i2 orig _).note lvl b w hw.1 hb0 hb, ?_⟩
    rw [note_block_inodes, note_block_fp]; exact hw.2
  bad := fun lvl e w hw hb => ⟨(dataInv_inv sb h8 h64 i2 orig _).bad lvl e w hw.1 hb, hw.2⟩
  rderr := fun lvl blk w hw hb hr =>
    ⟨(dataInv_inv sb h8 h64 i2 orig _).rderr lvl blk w hw.1 hb hr, hw.2⟩
  write := by
    intro blk w0 w hw0 hw hb0 hb
    refine ⟨(dataInv_inv sb h8 h64 i2 orig _).write blk w0 w hw0.1 hw.1 hb0 hb, ?_⟩
    rcases hw.2 with hz | ⟨hv, hnb, hc⟩
    · exact Or.inl hz
    · refine Or.inr ⟨hv, hnb, ?_⟩
      have hD : DataInv sb orig (fun b => InTree sb orig depth v b) w :=
        ⟨hw.1.1, hw.1.2.1, hc⟩
      have := dataInv_write sb h8 h64 orig _ _ blk w0 w hw0.1 hD hb
      exact fun b hbt => this.2.2 b (Or.inl hbt)
  clear := by
    intro lvl off2 w hw ho2 hv hb
    refine ⟨hw.1, ?_⟩
    rw [get32_clear_pointer i i2 lvl off off2 _ w hoff ho2]
    split
    · exact Or.inl rfl
    · exact hw.2

/-- The handling of a pointer field leaves it zero, or unchanged and not bad with
its whole tree cleaned. -/
theorem ptr_step_clean (sb : Buf) (h8 : sb_first_data_block sb = 8)
    (h64 : sb_total_blocks sb = 64) (orig : Buf) (i : Nat) (lvl : Level) (off : Nat)
    (lvls : List Level) (v : Nat) (hoff : PtrOff i off) (w : Walk)
    (hw : FieldPre sb orig off v w) :
    FieldClean sb orig off lvls.length v (ptr_step sb i lvl off (scan_tree sb i lvls) w) := by
  unfold ptr_step
  by_cases hz : get32 w.inodes off = 0
  · rw [if_pos hz]
    exact ⟨hw.1, Or.inl hz⟩
  · rw [if_neg hz]
    have hv : get32 w.inodes off = v := hw.2.resolve_right hz
    by_cases hr : out_of_range sb (get32 w.inodes off) = true
    · rw [if_pos hr]
      refine ⟨hw.1, Or.inl ?_⟩
      rw [get32_clear_pointer i i lvl off off _ w hoff hoff, if_pos rfl]
    · rw [if_neg hr]
      have hr2 : out_of_range sb (get32 w.inodes off) = false := by simpa using hr
      have hnote : DataInv sb orig (fun _ => False) (note_block sb i lvl (get32 w.inodes off) w) :=
        hw.1.same_fp (note_block_fp _ _ _ _ _)
      have hc := scan_tree_clean sb h8 h64 i orig lvls _ _ _ hz hr2 hnote
      refine ⟨hc.weaken (fun b hb => Or.inl hb), Or.inr ⟨?_, ?_, ?_⟩⟩
      · rw [scan_tree_inodes sb i lvls _ _ hz hr2, note_block_inodes]; exact hv
      · rw [← hv]; exact bad_ptr_false_of sb _ hr2
      · intro b hb
        rw [← hv] at hb
        exact hc.2.2 b (Or.inr hb)

theorem FieldOf.ptrOff {i off depth : Nat} (h : FieldOf i off depth) : PtrOff i off := by
  rcases h with ⟨j, hj, h, _⟩ | ⟨h, _⟩ | ⟨h, _⟩ | ⟨h, _⟩
  · exact Or.inl ⟨j, hj, h⟩
  · exact Or.inr (Or.inl h)
  · exact Or.inr (Or.inr (Or.inl h))
  · exact Or.inr (Or.inr (Or.inr h))

/-- The iteration of the loop for a live inode leaves each of its pointer fields
zero, or unchanged and not bad with its whole tree cleaned. -/
theorem inode_step_field_clean (sb : Buf) (h8 : sb_first_data_block sb = 8)
    (h64 : sb_total_blocks sb = 64) (orig : Buf) (i off depth v : Nat)
    (hf : FieldOf i off depth) (w : Walk) (hv : valid_inode w.inodes i = true)
    (hw : FieldPre sb orig off v w) :
    FieldClean sb orig off depth v (inode_step sb i w) := by
  have hoff := hf.ptrOff
  have hPre := fieldPre_inv sb h8 h64 orig i i off v hoff
  have hClean := fieldClean_inv sb h8 h64 orig i i off depth v hoff
  have hVal := valid_kept_inv sb i w.inodes
  have hvalid : ∀ t : Walk, (∀ k, valid_inode t.inodes k = valid_inode w.inodes k) →
      valid_inode t.inodes i = true := fun t ht => by rw [ht i]; exact hv
  unfold inode_step
  rw [if_neg (by rw [hv]; exact Bool.noConfusion)]
  dsimp only
  -- validity at each stage
  have v1 : ∀ k, valid_inode (for_loop 12 (direct_step sb i) w).inodes k =
      valid_inode w.inodes k :=
    for_loop_inv (fun _ t => ∀ k, valid_inode t.inodes k = valid_inode w.inodes k) 12 _ w
      (fun _ => rfl) (fun k hk t ht k2 => by rw [direct_step_valid sb i k k2 hk]; exact ht k2)
  have v2 := single_indirect_inv sb i _ hVal _ (hvalid _ v1) v1
  have v3 := double_indirect_inv sb i _ hVal _ (hvalid _ v2) v2
  rcases hf with ⟨j, hj, hoj, hd⟩ | ⟨hoj, hd⟩ | ⟨hoj, hd⟩ | ⟨hoj, hd⟩
  · -- a direct slot
    have hloop := for_loop_inv
      (fun k t => valid_inode t.inodes i = true ∧ (k ≤ j → FieldPre sb orig off v t) ∧
        (j < k → FieldClean sb orig off depth v t))
      12 (direct_step sb i) w ⟨hv, fun _ => hw, fun hc => absurd hc (Nat.not_lt_zero _)⟩ ?_
    · have h1 := hloop.2.2 hj
      have h2 := single_indirect_inv sb i _ hClean _ (hvalid _ v1) h1
      have h3 := double_indirect_inv sb i _ hClean _ (hvalid _ v2) h2
      exact triple_indirect_inv sb i _ hClean _ (hvalid _ v3) h3
    · intro k hk t ht
      refine ⟨by rw [direct_step_valid sb i k i hk]; exact ht.1, ?_, ?_⟩
      · intro hkj
        exact direct_step_inv sb i _ hPre k hk t ht.1 (ht.2.1 (by omega))
      · intro hjk
        by_cases hkj : k = j
        · subst hkj
          rw [direct_step_eq, ← scan_tree_nil sb i, ← hoj, hd]
          exact ptr_step_clean sb h8 h64 orig i _ off [] v hoff t (ht.2.1 (Nat.le_refl k))
        · exact direct_step_inv sb i _ hClean k hk t ht.1 (ht.2.2 (by omega))
  · -- the single indirect pointer
    have h1 : FieldPre sb orig off v (for_loop 12 (direct_step sb i) w) ∧
        valid_inode (for_loop 12 (direct_step sb i) w).inodes i = true :=
      for_loop_inv (fun _ t => FieldPre sb orig off v t ∧ valid_inode t.inodes i = true) 12 _ w
        ⟨hw, hv⟩ (fun k hk t ht => direct_step_inv sb i _ (hPre.and_valid i) k hk t ht.2 ht)
    have h2 : FieldClean sb orig off depth v
        (single_indirect sb i (for_loop 12 (direct_step sb i) w)) := by
      rw [single_indirect_eq, ← hoj, hd]
      exact ptr_step_clean sb h8 h64 orig i _ off [Level.single_entry] v hoff _ h1.1
    have h3 := double_indirect_inv sb i _ hClean _ (hvalid _ v2) h2
    exact triple_indirect_inv sb i _ hClean _ (hvalid _ v3) h3
  · -- the double indirect pointer
    have h1 : FieldPre sb orig off v (for_loop 12 (direct_step sb i) w) ∧
        valid_inode (for_loop 12 (direct_step sb i) w).inodes i = true :=
      for_loop_inv (fun _ t => FieldPre sb orig off v t ∧ valid_inode t.inodes i = true) 12 _ w
        ⟨hw, hv⟩ (fun k hk t ht => direct_step_inv sb i _ (hPre.and_valid i) k hk t ht.2 ht)
    have h2 := single_indirect_inv sb i _ hPre _ (hvalid _ v1) h1.1
    have h3 : FieldClean sb orig off depth v (double_indirect sb i
        (single_indirect sb i (for_loop 12 (direct_step sb i) w))) := by
      rw [double_indirect_eq, ← hoj, hd]
      exact ptr_step_clean sb h8 h64 orig i _ off [Level.double_l1, Level.double_l2] v hoff _ h2
    exact triple_indirect_inv sb i _ hClean _ (hvalid _ v3) h3
  · -- the triple indirect pointer
    have h1 : FieldPre sb orig off v (for_loop 12 (direct_step sb i) w) ∧
        valid_inode (for_loop 12 (direct_step sb i) w).inodes i = true :=
      for_loop_inv (fun _ t => FieldPre sb orig off v t ∧ valid_inode t.inodes i = true) 12 _ w
        ⟨hw, hv⟩ (fun k hk t ht => direct_step_inv sb i _ (hPre.and_valid i) k hk t ht.2 ht)
    have h2 := single_indirect_inv sb i _ hPre _ (hvalid _ v1) h1.1
    have h3 := double_indirect_inv sb i _ hPre _ (hvalid _ v2) h2
    rw [triple_indirect_eq, ← hoj, hd]
    exact ptr_step_clean sb h8 h64 orig i _ off
      [Level.triple_l1, Level.triple_l2, Level.triple_l3] v hoff _ h3

/-- The walk leaves each pointer field of each live inode below `n` zero, or
unchanged and not bad with its whole tree cleaned. -/
theorem walk_field_clean (sb : Buf) (h8 : sb_first_data_block sb = 8)
    (h64 : sb_total_blocks sb = 64) (orig : Buf) (n i off depth v : Nat)
    (hf : FieldOf i off depth) (hi : i < n) (w : Walk) (hv : valid_inode w.inodes i = true)
    (hw : FieldPre sb orig off v w) :
    FieldClean sb orig off depth v (walk_inodes sb n w) := by
  have hoff := hf.ptrOff
  unfold walk_inodes
  have hloop := for_loop_inv
    (fun k t => (∀ k2, valid_inode t.inodes k2 = valid_inode w.inodes k2) ∧
      (k ≤ i → FieldPre sb orig off v t) ∧ (i < k → FieldClean sb orig off depth v t))
    n (inode_step sb) w ⟨fun _ => rfl, fun _ => hw, fun hc => absurd hc (Nat.not_lt_zero _)⟩ ?_
  · exact hloop.2.2 hi
  · intro k _ t ht
    refine ⟨inode_step_inv sb k _ (valid_kept_inv sb k w.inodes) t ht.1, ?_, ?_⟩
    · intro hki
      exact inode_step_inv sb k _ (fieldPre_inv sb h8 h64 orig i k off v hoff) t
        (ht.2.1 (by omega))
    · intro hik
      by_cases hki : k = i
      · subst hki
        exact inode_step_field_clean sb h8 h64 orig k off depth v hf t
          (by rw [ht.1 k]; exact hv) (ht.2.1 (Nat.le_refl k))
      · exact inode_step_inv sb k _ (fieldClean_inv sb h8 h64 orig i k off depth v hoff) t
          (ht.2.2 (by omega))

/-! ## Pointer safety of the image after the run -/

theorem out_of_range_false_of (sb : Buf) (p : Nat) (h0 : p ≠ 0) (h : bad_ptr sb p = false) :
    out_of_range sb p = false := by
  unfold bad_ptr at h
  simpa [h0] using h

theorem safePtr_of (sb : Buf) (h8 : sb_first_data_block sb = 8) (h64 : sb_total_blocks sb = 64)
    (p : Nat) (h : bad_ptr sb p = false) : SafePtr p := by
  by_cases h0 : p = 0
  · exact Or.inl h0
  · have := in_range_of sb p (out_of_range_false_of sb p h0 h)
    rw [h8, h64] at this
    exact Or.inr this

theorem get32_clean_data (sb orig : Buf) (a : Nat) (ha : a % 4 = 0) :
    get32 (clean_data sb orig) a = if bad_ptr sb (get32 orig a) = true then 0 else get32 orig a := by
  by_cases hb : bad_ptr sb (get32 orig a) = true
  · rw [if_pos hb]
    apply get32_eq_zero
    intro t ht
    rw [clean_data_word sb orig a t ha ht, if_pos hb]
  · rw [if_neg hb]
    apply get32_congr
    intro t ht
    rw [clean_data_word sb orig a t ha ht, if_neg hb]

theorem inTree_range (sb : Buf) (h8 : sb_first_data_block sb = 8)
    (h64 : sb_total_blocks sb = 64) (orig : Buf) :
    ∀ (depth p b : Nat), InTree sb orig depth p b → 8 ≤ b ∧ b < 64 := by
  intro depth
  induction depth with
  | zero => intro p b h; exact False.elim h
  | succ d ih =>
    intro p b h
    obtain ⟨_, hr, hb | ⟨k, _, hb⟩⟩ := h
    · have := in_range_of sb p hr
      rw [h8, h64] at this
      rw [hb]; exact this
    · exact ih _ b hb

/-- Contents in which every indirection block of the tree under a pointer that is
not bad is cleaned have a safe tree there. -/
theorem safeTree_of_clean (sb : Buf) (h8 : sb_first_data_block sb = 8)
    (h64 : sb_total_blocks sb = 64) (orig data : Buf) :
    ∀ (depth v : Nat), bad_ptr sb v = false →
      (∀ b, InTree sb orig depth v b → BlockEq data (clean_data sb orig) b) →
      SafeTree data depth v := by
  intro depth
  induction depth with
  | zero => intro v _ _; exact True.intro
  | succ d ih =>
    intro v hnb hclean hv0 k hk
    have hoor := out_of_range_false_of sb v hv0 hnb
    have hblk := hclean v ⟨hv0, hoor, Or.inl rfl⟩
    have hk2 : k < 1024 := hk
    have he : get32 data (v * BLOCK_SIZE + 4 * k) =
        if bad_ptr sb (get32 orig (v * BLOCK_SIZE + 4 * k)) = true then 0
        else get32 orig (v * BLOCK_SIZE + 4 * k) := by
      rw [← get32_clean_data sb orig _ (by rw [BLOCK_SIZE_eq]; omega)]
      apply get32_congr
      intro t ht
      rw [Nat.add_assoc]
      exact hblk (4 * k + t) (by rw [BLOCK_SIZE_eq]; omega)
    have hnb2 : bad_ptr sb (get32 data (v * BLOCK_SIZE + 4 * k)) = false := by
      rw [he]
      split
      · exact bad_ptr_zero sb
      · rename_i hb; simpa using hb
    refine ⟨safePtr_of sb h8 h64 _ hnb2, ih _ hnb2 ?_⟩
    intro b hb
    rw [he] at hb
    by_cases hbad : bad_ptr sb (get32 orig (v * BLOCK_SIZE + 4 * k)) = true
    · rw [if_pos hbad] at hb
      exact absurd hb (inTree_zero sb orig d b)
    · rw [if_neg hbad] at hb
      exact hclean b ⟨hv0, hoor, Or.inr ⟨k, hk, hb⟩⟩

/-- The superblock stored in the image after a completed run has the validated
inode count. -/
theorem done_inode_count (img : File) (d : Done) (h : main img = Outcome.done d) :
    sb_inode_count (fread_buf d.fp (BLOCK_SIZE * SUPERBLOCK_BLOCK)) =
      sb_inode_count (sb_of img) := by
  unfold sb_inode_count
  apply get32_congr
  intro t ht
  show d.fp.data (BLOCK_SIZE * SUPERBLOCK_BLOCK + (30 + t)) = _
  rw [show BLOCK_SIZE * SUPERBLOCK_BLOCK + (30 + t) = 30 + t from by
    rw [BLOCK_SIZE_eq]; show 4096 * 0 + (30 + t) = _; omega]
  exact done_fp_superblock img d h _ (by omega)

/-- The inode table stored in the image after a completed run is the table the
walk left, for the inodes below the inode count. -/
theorem done_inode_bytes (img : File) (d : Done) (h : main img = Outcome.done d) (i : Nat)
    (hi : i < sb_inode_count (sb_of img)) (o : Nat) (ho : o < (i + 1) * 256) :
    fread_buf d.fp (BLOCK_SIZE * INODE_TABLE_START) o = (walk_end img).inodes o := by
  show d.fp.data (BLOCK_SIZE * INODE_TABLE_START + o) = _
  have : (i + 1) * 256 ≤ sb_inode_count (sb_of img) * 256 := Nat.mul_le_mul_right 256 hi
  rw [show BLOCK_SIZE * INODE_TABLE_START + o = 12288 + o from by rw [BLOCK_SIZE_eq]; rfl,
    (main_done img d h).1]
  exact run_done_fp_inodes img o (by omega)

theorem done_field (img : File) (d : Done) (h : main img = Outcome.done d) (i off : Nat)
    (hi : i < sb_inode_count (sb_of img)) (hoff : PtrOff i off) :
    get32 (fread_buf d.fp (BLOCK_SIZE * INODE_TABLE_START)) off =
      get32 (walk_end img).inodes off := by
  apply get32_congr
  intro t ht
  apply done_inode_bytes img d h i hi
  unfold PtrOff off_direct off_single off_double off_triple at hoff
  rw [sizeof_Inode_eq] at hoff
  rcases hoff with ⟨j, hj, rfl⟩ | rfl | rfl | rfl <;> omega

theorem done_valid (img : File) (d : Done) (h : main img = Outcome.done d) (i : Nat)
    (hi : i < sb_inode_count (sb_of img)) :
    valid_inode (fread_buf d.fp (BLOCK_SIZE * INODE_TABLE_START)) i =
      valid_inode (walk_start img).inodes i := by
  rw [← walk_end_valid]
  apply valid_inode_congr
  intro o _ ho2
  exact done_inode_bytes img d h i hi o ho2

/-- The data region of the image after a completed run is as the walk left it. -/
theorem done_data_region (img : File) (d : Done) (h : main img = Outcome.done d) (o : Nat)
    (ho : 32768 ≤ o) : d.fp.data o = (walk_end img).fp.data o := by
  have hn := sb_of_count_le img
  rw [(main_done img d h).1, run_done_fp_eq, fwrite_data_of_ge _ _ _ _ _ (by omega)]
  split
  · exact fwrite_data_of_ge _ _ _ _ _ (by omega)
  · rfl

/-- When the walk starts on an image that holds the 64 blocks, the data region
invariant holds of the contents at that point. -/
theorem walk_start_dataInv (img : File) (hsz : TOTAL_BLOCKS * BLOCK_SIZE ≤ img.size) :
    DataInv (sb_of img) (walk_start img).fp.data (fun _ => False) (walk_start img) := by
  have h : 64 * 4096 ≤ img.size := hsz
  refine ⟨?_, fun blk _ _ => Or.inl (fun _ _ => rfl), fun _ hc => False.elim hc⟩
  rw [walk_start_fp_size img (by rw [fp_after_sb_size img (by omega)]; omega),
    fp_after_sb_size img (by omega)]
  exact hsz

/-- After a completed run on an image that holds the 64 blocks, each pointer field
of each live inode is safe in the inode table of the image, and the tree it heads
in the image is safe. -/
theorem done_field_safe (img : File) (d : Done) (h : main img = Outcome.done d)
    (hsz : TOTAL_BLOCKS * BLOCK_SIZE ≤ img.size) (i off depth : Nat)
    (hf : FieldOf i off depth) (hi : i < sb_inode_count (sb_of img))
    (hv : valid_inode (walk_start img).inodes i = true) :
    SafePtr (get32 (fread_buf d.fp (BLOCK_SIZE * INODE_TABLE_START)) off) ∧
      SafeTree d.fp.data depth (get32 (fread_buf d.fp (BLOCK_SIZE * INODE_TABLE_START)) off) := by
  have h8 := sb_of_first img
  have h64 := sb_of_total img
  have hpre : FieldPre (sb_of img) (walk_start img).fp.data off
      (get32 (walk_start img).inodes off) (walk_start img) :=
    ⟨walk_start_dataInv img hsz, Or.inl rfl⟩
  have hclean := walk_field_clean (sb_of img) h8 h64 (walk_start img).fp.data
    (sb_inode_count (sb_of img)) i off depth _ hf hi (walk_start img) hv hpre
  rw [← walk_end_eq] at hclean
  rw [done_field img d h i off hi hf.ptrOff]
  rcases hclean.2 with hz | ⟨hval, hnb, htree⟩
  · rw [hz]
    refine ⟨Or.inl rfl, ?_⟩
    cases depth with
    | zero => exact True.intro
    | succ n => exact fun hc => absurd rfl hc
  · rw [hval]
    refine ⟨safePtr_of _ h8 h64 _ hnb, ?_⟩
    apply safeTree_of_clean (sb_of img) h8 h64 (walk_start img).fp.data d.fp.data depth _ hnb
    intro b hb o ho
    have hr := inTree_range (sb_of img) h8 h64 _ depth _ b hb
    rw [done_data_region img d h _ (by rw [BLOCK_SIZE_eq]; omega)]
    exact htree b hb o ho

/-- Claim C4.  Pointer safety: after a completed run on an image that holds the 64
blocks, in the resulting image every pointer of every live inode (the 12 direct
slots and the single, double and triple indirect pointers) and every entry of
every indirection block reachable from a live inode within its tree depth is zero
or satisfies `8 ≤ p < 64`. -/
theorem pointer_safety (img : File) (d : Done) (h : main img = Outcome.done d)
    (hsz : TOTAL_BLOCKS * BLOCK_SIZE ≤ img.size) : PointerSafe d.fp := by
  intro i hi hv
  rw [done_inode_count img d h] at hi
  rw [done_valid img d h i hi] at hv
  have key := fun off depth (hf : FieldOf i off depth) =>
    done_field_safe img d h hsz i off depth hf hi hv
  refine ⟨fun j hj => (key _ 0 (Or.inl ⟨j, hj, rfl, rfl⟩)).1,
    (key _ 1 (Or.inr (Or.inl ⟨rfl, rfl⟩))).1,
    (key _ 2 (Or.inr (Or.inr (Or.inl ⟨rfl, rfl⟩)))).1,
    (key _ 3 (Or.inr (Or.inr (Or.inr ⟨rfl, rfl⟩)))).1,
    (key _ 1 (Or.inr (Or.inl ⟨rfl, rfl⟩))).2,
    (key _ 2 (Or.inr (Or.inr (Or.inl ⟨rfl, rfl⟩)))).2,
    (key _ 3 (Or.inr (Or.inr (Or.inr ⟨rfl, rfl⟩)))).2⟩

/-! ## The walk on a consistent image -/

theorem File.ext_of (f g : File) (hs : f.size = g.size) (hd : ∀ o, f.data o = g.data o) :
    f = g := by
  cases f; cases g
  simp only [File.mk.injEq]
  exact ⟨hs, funext hd⟩

theorem wrap_int_add (x : Int) (a b : Nat) (y z : Int)
    (h1 : wrap_int y = wrap_int (x + (a : Int))) (h2 : wrap_int z = wrap_int (y + (b : Int))) :
    wrap_int z = wrap_int (x + ((a + b : Nat) : Int)) := by
  unfold wrap_int at *
  omega

theorem wrap_int_range (x : Int) : -2147483648 ≤ wrap_int x ∧ wrap_int x ≤ 2147483647 := by
  unfold wrap_int
  omega

theorem Counted.trans {w t u : Walk} {S S2 : Nat → Prop} (h1 : Counted w t S)
    (h2 : Counted t u S2) : Counted w u (fun q => S q ∨ S2 q) := by
  obtain ⟨⟨a1, a2, a3, a4, a5⟩, c1, m1, k1⟩ := h1
  obtain ⟨⟨b1, b2, b3, b4, b5⟩, c2, m2, k2⟩ := h2
  refine ⟨⟨b1.trans a1, b2.trans a2, b3.trans a3, b4.trans a4, b5.trans a5⟩,
    fun b => c1 b + c2 b, fun b => wrap_int_add _ _ _ _ _ (m1 b) (m2 b), ?_⟩
  rintro q (hq | hq) hq0
  · exact Nat.le_trans (k1 q hq hq0) (Nat.le_add_right _ _)
  · exact Nat.le_trans (k2 q hq hq0) (Nat.le_add_left _ _)

theorem not_bad_of_safe (sb : Buf) (h8 : sb_first_data_block sb = 8)
    (h64 : sb_total_blocks sb = 64) (q : Nat) (h : SafePtr q) : bad_ptr sb q = false := by
  rcases h with h | h
  · rw [h]; exact bad_ptr_zero sb
  · apply bad_ptr_false_of
    unfold out_of_range
    rw [h8, h64]
    have h1 : DATA_BLOCK_START = 8 := rfl
    have h2 : TOTAL_BLOCKS = 64 := rfl
    rw [h1, h2] at h
    simp only [Bool.or_eq_false_iff, decide_eq_false_iff_not, not_lt, not_le]
    exact h

theorem walk_start_rest (img : File) :
    (walk_start img).block_refs = (fun _ => 0) ∧ (walk_start img).bad_block_errors = false ∧
    (walk_start img).out = (inode_bitmap_end img).out ++
      [if (inode_bitmap_end img).inode_bitmap_errors = true then Line.inode_bitmap_updated
        else Line.inode_bitmap_ok] := by
  refine ⟨?_, ?_, ?_⟩ <;> simp only [walk_start, inode_bitmap_end]

/-- On an image that holds the 64 blocks the run meets no fatal error. -/
theorem main_completes (img : File) (hsz : TOTAL_BLOCKS * BLOCK_SIZE ≤ img.size) :
    main img = Outcome.done (run_done img) := by
  have h : 64 * 4096 ≤ img.size := hsz
  have hfp := fp_after_sb_size img (by omega)
  have hn := sb_of_count_le img
  apply main_of_reads
  · unfold fread_items
    rw [sizeof_Superblock_eq]
    have : 1 ≤ (img.size - 0) / 4092 := by omega
    omega
  · unfold fread_items
    rw [hfp, BLOCK_SIZE_eq, Nat.div_one]
    omega
  · unfold fread_items
    rw [hfp, BLOCK_SIZE_eq, Nat.div_one]
    omega
  · unfold fread_items
    rw [hfp, BLOCK_SIZE_eq, sizeof_Inode_eq]
    have : 80 ≤ (img.size - 4096 * 3) / 256 := by omega
    omega

/-- Claim C4, at a concrete image: the run on `img_damaged`, whose inode 0 holds
the bad pointer 200, completes and leaves a pointer-safe image. -/
theorem pointer_safety_witness :
    main img_damaged = Outcome.done (run_done img_damaged) ∧
      TOTAL_BLOCKS * BLOCK_SIZE ≤ img_damaged.size ∧ PointerSafe (run_done img_damaged).fp :=
  ⟨img_damaged_done, by decide,
    pointer_safety img_damaged _ img_damaged_done (by decide)⟩

/-! ## The duplicate reference of `img_duplicate` -/

theorem img_duplicate_done : main img_duplicate = Outcome.done (run_done img_duplicate) :=
  main_completes img_duplicate (by decide)

set_option maxRecDepth 100000 in
/-- Claim C9, evaluated at the failing input `img_duplicate`: the run completes,
counts two references to block 15, prints the duplicate report, leaves
`direct[0] = 15` in both inodes and has bit 15 set in its data bitmap in memory,
but bit 15 of block 2 of the image after the run is 0. -/
theorem duplicate_bit_not_written :
    main img_duplicate = Outcome.done (run_done img_duplicate) ∧
    (run_done img_duplicate).block_refs 15 = 2 ∧
    Line.duplicate_block 15 2 ∈ (run_done img_duplicate).out ∧
    get32 (fread_buf (run_done img_duplicate).fp (BLOCK_SIZE * INODE_TABLE_START))
      (off_direct 0 0) = 15 ∧
    get32 (fread_buf (run_done img_duplicate).fp (BLOCK_SIZE * INODE_TABLE_START))
      (off_direct 1 0) = 15 ∧
    is_bit_set (run_done img_duplicate).data_bitmap 15 = 1 ∧
    is_bit_set (fread_buf (run_done img_duplicate).fp (BLOCK_SIZE * DATA_BITMAP_BLOCK)) 15
      = 0 :=
  ⟨img_duplicate_done, by with_unfolding_all decide, by with_unfolding_all decide,
    by with_unfolding_all decide, by with_unfolding_all decide, by with_unfolding_all decide,
    by with_unfolding_all decide⟩

/-! ## Duplicate references: the report, the pointers and the bitmap in memory -/

theorem mem_snoc_ne {l x : Line} {xs : List Line} (h : l ∈ xs ++ [x]) (hne : l ≠ x) :
    l ∈ xs := by
  rcases List.mem_append.mp h with h1 | h1
  · exact h1
  · exact absurd (List.mem_singleton.mp h1) hne

theorem check_field32_dup (f : SbField) (off e : Nat) (s : SbState) (b : Nat) (n : Int)
    (h : Line.duplicate_block b n ∈ (check_field32 f off e s).out) :
    Line.duplicate_block b n ∈ s.out := by
  unfold check_field32 at h
  split at h
  · exact mem_snoc_ne h (fun hc => Line.noConfusion hc)
  · exact h

theorem check_magic_dup (s : SbState) (b : Nat) (n : Int)
    (h : Line.duplicate_block b n ∈ (check_magic s).out) :
    Line.duplicate_block b n ∈ s.out := by
  unfold check_magic at h
  split at h
  · exact mem_snoc_ne h (fun hc => Line.noConfusion hc)
  · exact h

theorem check_inode_count_dup (s : SbState) (b : Nat) (n : Int)
    (h : Line.duplicate_block b n ∈ (check_inode_count s).out) :
    Line.duplicate_block b n ∈ s.out := by
  unfold check_inode_count at h
  split at h
  · exact mem_snoc_ne h (fun hc => Line.noConfusion hc)
  · exact h

/-- The superblock validation prints no "Duplicate block error" line. -/
theorem validate_superblock_dup (sb : Buf) (b : Nat) (n : Int) :
    Line.duplicate_block b n ∉ (validate_superblock sb).out := by
  intro h
  unfold validate_superblock at h
  dsimp only at h
  have h1 := check_inode_count_dup _ b n h
  have h2 := check_field32_dup _ _ _ _ b n h1
  have h3 := check_field32_dup _ _ _ _ b n h2
  have h4 := check_field32_dup _ _ _ _ b n h3
  have h5 := check_field32_dup _ _ _ _ b n h4
  have h6 := check_field32_dup _ _ _ _ b n h5
  have h7 := check_field32_dup _ _ _ _ b n h6
  have h8 := check_field32_dup _ _ _ _ b n h7
  have h9 := check_magic_dup _ b n h8
  exact List.not_mem_nil _ h9

theorem check_inode_bitmap_dup (inodes bm : Buf) (k : Nat) (out : List Line) (b : Nat) (n : Int)
    (h : Line.duplicate_block b n ∈ (check_inode_bitmap inodes bm k out).out) :
    Line.duplicate_block b n ∈ out := by
  unfold check_inode_bitmap at h
  refine for_loop_inv
    (fun _ t => Line.duplicate_block b n ∈ t.out → Line.duplicate_block b n ∈ out)
    k (inode_bitmap_step inodes)
    { inode_bitmap := bm, inode_bitmap_errors := false, out := out } (fun hc => hc) ?_ h
  intro j _ t ht hc
  unfold inode_bitmap_step at hc
  dsimp only at hc
  split at hc
  · exact ht (mem_snoc_ne hc (fun e => Line.noConfusion e))
  · split at hc
    · exact ht (mem_snoc_ne hc (fun e => Line.noConfusion e))
    · exact ht hc

/-- The walk prints no "Duplicate block error" line. -/
theorem dup_inv (sb : Buf) (i : Nat) (out0 : List Line) (b : Nat) (n : Int) :
    WalkInv sb i
      (fun w => Line.duplicate_block b n ∈ w.out → Line.duplicate_block b n ∈ out0) where
  note := by
    intro lvl blk w hw _ _ hc
    apply hw
    unfold note_block at hc
    simp only [] at hc
    split at hc
    · exact mem_snoc_ne hc (fun e => Line.noConfusion e)
    · exact hc
  bad := fun _ _ _ hw _ hc => hw (mem_snoc_ne hc (fun e => Line.noConfusion e))
  rderr := fun _ _ _ hw _ _ hc => hw (mem_snoc_ne hc (fun e => Line.noConfusion e))
  write := fun _ _ _ _ hw _ _ hc => hw hc
  clear := fun _ _ _ hw _ _ _ hc => hw (mem_snoc_ne hc (fun e => Line.noConfusion e))

theorem walk_end_dup (img : File) (b : Nat) (n : Int) :
    Line.duplicate_block b n ∉ (walk_end img).out := by
  intro h
  rw [walk_end_eq] at h
  have h1 := walk_inodes_inv (sb_of img) (sb_inode_count (sb_of img)) _
    (fun i _ => dup_inv (sb_of img) i (walk_start img).out b n) (walk_start img) (fun hc => hc) h
  rw [(walk_start_rest img).2.2] at h1
  have h2 := mem_snoc_ne h1 (by split <;> exact fun e => Line.noConfusion e)
  unfold inode_bitmap_end at h2
  have h3 := check_inode_bitmap_dup _ _ _ _ b n h2
  unfold out_after_sb at h3
  have h4 := mem_snoc_ne h3 (by split <;> exact fun e => Line.noConfusion e)
  exact validate_superblock_dup _ b n h4

/-- The lines of the duplicate pass: block `b` is reported with the count `n`
exactly when `lo ≤ b < hi`, `n = refs[b]` and `refs[b] > 1`. -/
theorem duplicate_pass_iff (refs : Nat → Int) (lo hi : Nat) (hle : lo ≤ hi) (s : DupState)
    (b : Nat) (n : Int) :
    Line.duplicate_block b n ∈ (for_range lo hi (duplicate_step refs) s).out ↔
      (Line.duplicate_block b n ∈ s.out ∨ (lo ≤ b ∧ b < hi ∧ n = refs b ∧ 1 < refs b)) := by
  refine for_range_inv
    (fun k t => Line.duplicate_block b n ∈ t.out ↔
      (Line.duplicate_block b n ∈ s.out ∨ (lo ≤ b ∧ b < k ∧ n = refs b ∧ 1 < refs b)))
    lo hi (duplicate_step refs) s hle ?_ ?_
  · dsimp only
    constructor
    · exact fun hc => Or.inl hc
    · rintro (hc | hc)
      · exact hc
      · omega
  · intro k hk1 hk2 t ht
    dsimp only at ht ⊢
    unfold duplicate_step
    split
    · rename_i hr
      rw [List.mem_append, List.mem_singleton, ht, Line.duplicate_block.injEq]
      constructor
      · rintro ((hc | hc) | ⟨hb, hn⟩)
        · exact Or.inl hc
        · exact Or.inr ⟨hc.1, by omega, hc.2.2.1, hc.2.2.2⟩
        · subst hb
          subst hn
          exact Or.inr ⟨hk1, by omega, rfl, hr⟩
      · rintro (hc | hc)
        · exact Or.inl (Or.inl hc)
        · by_cases hbk : b = k
          · subst hbk
            exact Or.inr ⟨rfl, hc.2.2.1⟩
          · exact Or.inl (Or.inr ⟨hc.1, by omega, hc.2.2.1, hc.2.2.2⟩)
    · rename_i hr
      rw [ht]
      constructor
      · rintro (hc | hc)
        · exact Or.inl hc
        · exact Or.inr ⟨hc.1, by omega, hc.2.2.1, hc.2.2.2⟩
      · rintro (hc | hc)
        · exact Or.inl hc
        · by_cases hbk : b = k
          · subst hbk
            exact absurd hc.2.2.2 hr
          · exact Or.inr ⟨hc.1, by omega, hc.2.2.1, hc.2.2.2⟩

theorem final_pass_dup (refs : Nat → Int) (lo hi : Nat) (s : DbState) (b : Nat) (n : Int)
    (h : Line.duplicate_block b n ∈ (for_range lo hi (data_bitmap_step refs) s).out) :
    Line.duplicate_block b n ∈ s.out := by
  unfold for_range at h
  refine for_loop_inv
    (fun _ t => Line.duplicate_block b n ∈ t.out → Line.duplicate_block b n ∈ s.out)
    (hi - lo) (fun t => data_bitmap_step refs (lo + t)) s (fun hc => hc) ?_ h
  intro k _ t ht hc
  unfold data_bitmap_step at hc
  dsimp only at hc
  split at hc
  · split at hc
    · exact ht (mem_snoc_ne hc (fun e => Line.noConfusion e))
    · exact ht hc
  · exact ht hc

/-- The report of a completed run holds the line "Duplicate block error: Block b
referenced n times" exactly when `b` is a block of the data region, `n` is
`refs[b]` and `refs[b] > 1`. -/
theorem duplicate_reported_iff (img : File) (d : Done) (h : main img = Outcome.done d)
    (b : Nat) (n : Int) :
    Line.duplicate_block b n ∈ d.out ↔
      (8 ≤ b ∧ b < 64 ∧ n = d.block_refs b ∧ 1 < d.block_refs b) := by
  have hd := (main_done img d h).1
  rw [hd, run_done_out, run_done_block_refs]
  have key : Line.duplicate_block b n ∈ (final_pass img).out ↔
      (8 ≤ b ∧ b < 64 ∧ n = (walk_end img).block_refs b ∧ 1 < (walk_end img).block_refs b) := by
    have hiff := duplicate_pass_iff (walk_end img).block_refs (sb_first_data_block (sb_of img))
      TOTAL_BLOCKS (by rw [sb_of_first]; decide)
      { duplicate_block_errors := false, out := (walk_end img).out } b n
    rw [sb_of_first] at hiff
    constructor
    · intro hc
      unfold final_pass at hc
      dsimp only at hc
      have h1 := final_pass_dup _ _ _ _ b n hc
      dsimp only at h1
      have h2 := mem_snoc_ne h1 (by split <;> exact fun e => Line.noConfusion e)
      have h3 := mem_snoc_ne h2 (by split <;> exact fun e => Line.noConfusion e)
      rw [sb_of_first] at h3
      rcases hiff.mp h3 with h4 | h4
      · exact absurd h4 (walk_end_dup img b n)
      · exact h4
    · intro hc
      unfold final_pass
      dsimp only
      apply final_pass_out
      dsimp only
      apply List.mem_append_left
      apply List.mem_append_left
      rw [sb_of_first]
      exact hiff.mpr (Or.inr hc)
  rw [← key]
  constructor
  · intro hc
    have h1 := mem_snoc_ne hc (fun e => Line.noConfusion e)
    exact mem_snoc_ne h1 (by split <;> exact fun e => Line.noConfusion e)
  · intro hc
    exact List.mem_append_left _ (List.mem_append_left _ hc)


theorem out_of_range_eq_false (sb : Buf) (h8 : sb_first_data_block sb = 8)
    (h64 : sb_total_blocks sb = 64) (p : Nat) (hp : 8 ≤ p) (hp2 : p < 64) :
    out_of_range sb p = false := by
  unfold out_of_range
  rw [h8, h64]
  simp only [Bool.or_eq_false_iff, decide_eq_false_iff_not]
  omega

/-- A pointer field that holds a pointer that is not bad keeps it through the
walk. -/
theorem field_kept_inv (sb : Buf) (i i2 off v : Nat) (hoff : PtrOff i off)
    (hv : bad_ptr sb v = false) : WalkInv sb i2 (fun w => get32 w.inodes off = v) where
  note := by
    intro lvl b w hw _ _
    rw [note_block_inodes]; exact hw
  bad := fun _ _ _ hw _ => hw
  rderr := fun _ _ _ hw _ _ => hw
  write := fun _ _ _ _ hw _ _ => hw
  clear := by
    intro lvl off2 w hw ho2 _ hb
    rw [get32_clear_pointer i i2 lvl off off2 _ w hoff ho2]
    split
    · rename_i he
      rw [← he, hw, hv] at hb
      exact absurd hb Bool.false_ne_true
    · exact hw

/-- Pointers are kept by a completed run: a pointer field of an inode below
`inode_count` that holds a block of the data region holds the same block in the
inode table of the image after the run. -/
theorem good_field_kept (img : File) (d : Done) (h : main img = Outcome.done d) (i off : Nat)
    (hi : i < sb_inode_count (sb_of img)) (hoff : PtrOff i off)
    (hp : 8 ≤ get32 (fread_buf img (BLOCK_SIZE * INODE_TABLE_START)) off)
    (hp2 : get32 (fread_buf img (BLOCK_SIZE * INODE_TABLE_START)) off < 64) :
    get32 (fread_buf d.fp (BLOCK_SIZE * INODE_TABLE_START)) off =
      get32 (fread_buf img (BLOCK_SIZE * INODE_TABLE_START)) off := by
  have e : get32 (walk_start img).inodes off =
      get32 (fread_buf img (BLOCK_SIZE * INODE_TABLE_START)) off :=
    get32_congr _ _ off (fun t _ => walk_start_inodes_img img (off + t))
  have hv : bad_ptr (sb_of img) (get32 (fread_buf img (BLOCK_SIZE * INODE_TABLE_START)) off)
      = false :=
    bad_ptr_false_of _ _ (out_of_range_eq_false _ (sb_of_first img) (sb_of_total img) _ hp hp2)
  rw [done_field img d h i off hi hoff, walk_end_eq]
  exact walk_inodes_inv (sb_of img) (sb_inode_count (sb_of img)) _
    (fun i2 _ => field_kept_inv (sb_of img) i i2 off _ hoff hv) (walk_start img) e

/-- Entries are kept by a completed run on an image that holds the 64 blocks: an
entry of a block of the data region that holds a block of the data region holds
the same block in the image after the run. -/
theorem good_entry_kept (img : File) (d : Done) (h : main img = Outcome.done d)
    (hsz : TOTAL_BLOCKS * BLOCK_SIZE ≤ img.size) (blk k : Nat) (hb8 : 8 ≤ blk) (hb64 : blk < 64)
    (hk : k < BLOCK_SIZE / 4)
    (hp : 8 ≤ get32 img.data (blk * BLOCK_SIZE + 4 * k))
    (hp2 : get32 img.data (blk * BLOCK_SIZE + 4 * k) < 64) :
    get32 d.fp.data (blk * BLOCK_SIZE + 4 * k) = get32 img.data (blk * BLOCK_SIZE + 4 * k) := by
  have hk2 : k < 1024 := hk
  have e0 : get32 (walk_start img).fp.data (blk * BLOCK_SIZE + 4 * k) =
      get32 img.data (blk * BLOCK_SIZE + 4 * k) := by
    apply get32_congr
    intro t ht
    rw [BLOCK_SIZE_eq]
    rw [walk_start_fp_other img _ (Or.inr (by omega)) (Or.inr (by omega))]
    exact fp_after_sb_data_high img _ (by omega)
  have e1 : get32 d.fp.data (blk * BLOCK_SIZE + 4 * k) =
      get32 (walk_end img).fp.data (blk * BLOCK_SIZE + 4 * k) := by
    apply get32_congr
    intro t ht
    rw [BLOCK_SIZE_eq]
    exact done_data_region img d h _ (by omega)
  have hinv : DataInv (sb_of img) (walk_start img).fp.data (fun _ => False) (walk_end img) := by
    rw [walk_end_eq]
    exact walk_inodes_inv (sb_of img) (sb_inode_count (sb_of img)) _
      (fun i _ => dataInv_inv (sb_of img) (sb_of_first img) (sb_of_total img) i _ _)
      (walk_start img) (walk_start_dataInv img hsz)
  rw [e1, ← e0]
  rcases entry_of_block (sb_of img) (walk_start img).fp.data (walk_end img).fp.data blk k hk
      (hinv.2.1 blk hb8 hb64) with hc | hc
  · exact hc
  · rw [e0, bad_ptr_false_of _ _
      (out_of_range_eq_false _ (sb_of_first img) (sb_of_total img) _ hp hp2)] at hc
    exact absurd hc.2 Bool.false_ne_true

/-- The bitmap in memory after a completed run has the bit of every counted block
set; in particular that of every block counted more than once. -/
theorem counted_bit_set (img : File) (d : Done) (h : main img = Outcome.done d) (b : Nat)
    (hr : 1 ≤ d.block_refs b) : is_bit_set d.data_bitmap b = 1 := by
  have hd := (main_done img d h).1
  rw [hd, run_done_block_refs] at hr
  rw [hd, run_done_data_bitmap]
  have hm := walk_end_refsMarked img b (by omega)
  unfold final_pass
  dsimp only
  rw [final_pass_bits _ _ _ (by rw [sb_of_first]; decide)]
  have hc : ¬ (sb_first_data_block (sb_of img) ≤ b ∧ b < TOTAL_BLOCKS ∧
      (walk_end img).block_refs b = 0) := by omega
  rw [if_neg hc]
  exact hm.1

/-! ## Fatal exits -/

/-- What a fatal exit leaves of the image: the file as the superblock phase left
it, or the image itself when the superblock could not be read. -/
theorem main_fatal (img : File) (err : Fatal) (fp : File) (out : List Line)
    (h : main img = Outcome.fatal err fp out) :
    (err = Fatal.read_superblock ∧ fp = img) ∨
      (err ≠ Fatal.read_superblock ∧ fp = fp_after_sb img ∧
        fread_items img 0 sizeof_Superblock 1 = 1) := by
  rw [main_eq] at h
  by_cases h1 : fread_items img (BLOCK_SIZE * SUPERBLOCK_BLOCK) sizeof_Superblock 1 ≠ 1
  · rw [if_pos h1] at h
    injection h with he hf ho
    exact Or.inl ⟨he.symm, hf.symm⟩
  rw [if_neg h1] at h
  have h1b : fread_items img 0 sizeof_Superblock 1 = 1 := not_not.mp h1
  right
  split at h
  · injection h with he hf ho
    exact ⟨by rw [← he]; exact fun e => Fatal.noConfusion e, hf.symm, h1b⟩
  · split at h
    · injection h with he hf ho
      exact ⟨by rw [← he]; exact fun e => Fatal.noConfusion e, hf.symm, h1b⟩
    · split at h
      · injection h with he hf ho
        exact ⟨by rw [← he]; exact fun e => Fatal.noConfusion e, hf.symm, h1b⟩
      · exact Outcome.noConfusion h

theorem fp_after_sb_of_canonical (img : File)
    (hc : Canonical (fread_buf img (BLOCK_SIZE * SUPERBLOCK_BLOCK))) : fp_after_sb img = img := by
  unfold fp_after_sb
  rw [validate_of_canonical _ hc]
  rfl

/-- Claim C11, as amended.  For every image on which the run ends with a fatal read
failure, the image after the run has the length it had and the bytes it had from
offset 4092 on; it is the image itself when the superblock could not be read or
was canonical; otherwise its first 4092 bytes are the validated superblock. -/
theorem fatal_image_frame (img : File) (err : Fatal) (fp : File) (out : List Line)
    (h : main img = Outcome.fatal err fp out) :
    fp.size = img.size ∧ (∀ o, 4092 ≤ o → fp.data o = img.data o) ∧
    (err = Fatal.read_superblock → fp = img) ∧
    (Canonical (fread_buf img (BLOCK_SIZE * SUPERBLOCK_BLOCK)) → fp = img) ∧
    (err ≠ Fatal.read_superblock → ∀ o, o < 4092 → fp.data o = sb_of img o) := by
  rcases main_fatal img err fp out h with ⟨he, hf⟩ | ⟨he, hf, hr⟩
  · clear h
    rw [hf]
    exact ⟨rfl, fun _ _ => rfl, fun _ => rfl, fun _ => rfl, fun hc => absurd he hc⟩
  · clear h
    rw [hf]
    have hsz : 4092 ≤ img.size := by
      have := fread_items_one img sizeof_Superblock (by decide) hr
      rwa [sizeof_Superblock_eq] at this
    refine ⟨fp_after_sb_size img hsz, fun o ho => fp_after_sb_data_high img o ho, ?_, ?_, ?_⟩
    · exact fun hc => absurd hc he
    · exact fun hc => fp_after_sb_of_canonical img hc
    · exact fun _ o ho => fp_after_sb_data_low img o ho

theorem img_block0_fatal :
    main img_block0 = Outcome.fatal Fatal.read_inode_bitmap (fp_after_sb img_block0)
      (out_after_sb img_block0) := by
  rw [main_eq, sb_of_inode_bitmap_block]
  have h1 : ¬ fread_items img_block0 (BLOCK_SIZE * SUPERBLOCK_BLOCK) sizeof_Superblock 1 ≠ 1 := by
    decide
  have h2 : fread_items (fp_after_sb img_block0) (BLOCK_SIZE * 1) 1 BLOCK_SIZE ≠ BLOCK_SIZE := by
    unfold fread_items
    rw [fp_after_sb_size img_block0 (by decide)]
    decide
  rw [if_neg h1, if_pos h2]

set_option maxRecDepth 100000 in
/-- Claim C11 fails as stated: on `img_block0`, a file of one block of zeros, the
run ends with the fatal error "Error reading inode bitmap", and byte 0 of the
image, which was 0, is 0x4d after the run (the repaired magic was written). -/
theorem fatal_after_superblock_write :
    main img_block0 = Outcome.fatal Fatal.read_inode_bitmap (fp_after_sb img_block0)
      (out_after_sb img_block0) ∧
    img_block0.data 0 = 0 ∧ (fp_after_sb img_block0).data 0 = 0x4d :=
  ⟨img_block0_fatal, by with_unfolding_all decide, by with_unfolding_all decide⟩

set_option maxRecDepth 100000 in
/-- Claim C11 as amended, at `img_block0`: the run ends with a fatal error, the
file keeps its 4096 bytes and byte 4095 is as it was. -/
theorem fatal_image_frame_witness :
    main img_block0 = Outcome.fatal Fatal.read_inode_bitmap (fp_after_sb img_block0)
      (out_after_sb img_block0) ∧
    (fp_after_sb img_block0).size = img_block0.size ∧
    (fp_after_sb img_block0).data 4095 = img_block0.data 4095 :=
  ⟨img_block0_fatal, (fatal_image_frame img_block0 _ _ _ img_block0_fatal).1,
    (fatal_image_frame img_block0 _ _ _ img_block0_fatal).2.1 4095 (by decide)⟩

/-! ## The reference tracker and the bitmap view -/

/-- Claim C13.  Bitmap view laws: for every buffer and all indices `i`, `j`,
`is_bit_set i` is bit `i mod 8`, counted from the least significant bit, of byte
`i / 8`; after `set_bit i` it is 1 and after `clear_bit i` it is 0; and `set_bit i`
and `clear_bit i` leave `is_bit_set j` unchanged for every `j ≠ i`. -/
theorem bitmap_view_laws (bitmap : Buf) (i j : Nat) :
    is_bit_set bitmap i = bitmap (i / 8) / 2 ^ (i % 8) % 2 ∧
    is_bit_set (set_bit bitmap i) i = 1 ∧
    is_bit_set (clear_bit bitmap i) i = 0 ∧
    (j ≠ i → is_bit_set (set_bit bitmap i) j = is_bit_set bitmap j ∧
      is_bit_set (clear_bit bitmap i) j = is_bit_set bitmap j) := by
  refine ⟨?_, ?_, ?_, ?_⟩
  · unfold is_bit_set
    rw [Nat.and_one_is_mod, Nat.shiftRight_eq_div_pow]
  · rw [is_bit_set_set_bit, if_pos rfl]
  · rw [is_bit_set_clear_bit, if_pos rfl]
  · intro h
    rw [is_bit_set_set_bit, is_bit_set_clear_bit, if_neg h, if_neg h]
    exact ⟨rfl, rfl⟩

/-! ## The superblock record and the clamp of `inode_count` -/

theorem img_4092_fatal :
    main img_4092 = Outcome.fatal Fatal.read_inode_bitmap img_4092 [Line.superblock_ok] := by
  have hc : Canonical (fread_buf img_4092 (BLOCK_SIZE * SUPERBLOCK_BLOCK)) := by
    unfold Canonical
    decide
  rw [main_eq, sb_of_inode_bitmap_block]
  have e1 : fp_after_sb img_4092 = img_4092 := fp_after_sb_of_canonical img_4092 hc
  have e2 : out_after_sb img_4092 = [Line.superblock_ok] := by
    unfold out_after_sb
    rw [validate_of_canonical _ hc]
    rfl
  rw [e1, e2]
  have h1 : ¬ fread_items img_4092 (BLOCK_SIZE * SUPERBLOCK_BLOCK) sizeof_Superblock 1 ≠ 1 := by
    decide
  have h2 : fread_items img_4092 (BLOCK_SIZE * 1) 1 BLOCK_SIZE ≠ BLOCK_SIZE := by decide
  rw [if_neg h1, if_pos h2]

/-- Claim C14, evaluated: the sizes of the fields of the packed `Superblock` sum to
4092, not 4096; a file of 4092 bytes holds a complete record, so that on
`img_4092` the superblock is read and validated and the run fails at the read of
the inode bitmap; and a record written at offset 0 leaves byte 4092 of block 0
as it was in the file. -/
theorem superblock_record_size :
    sizeof_Superblock = 4092 ∧
    fread_items img_4092 (BLOCK_SIZE * SUPERBLOCK_BLOCK) sizeof_Superblock 1 = 1 ∧
    main img_4092 = Outcome.fatal Fatal.read_inode_bitmap img_4092 [Line.superblock_ok] ∧
    (fwrite img_block0 (BLOCK_SIZE * SUPERBLOCK_BLOCK) sizeof_Superblock (fun _ => 255)).data 4091
      = 255 ∧
    (fwrite img_block0 (BLOCK_SIZE * SUPERBLOCK_BLOCK) sizeof_Superblock (fun _ => 255)).data 4092
      = 0 :=
  ⟨rfl, by decide, img_4092_fatal, by decide, by decide⟩

theorem check_inode_count_count (s : SbState) :
    sb_inode_count (check_inode_count s).sb =
      if max_inodes < sb_inode_count s.sb then max_inodes else sb_inode_count s.sb := by
  unfold check_inode_count
  by_cases h : sb_inode_count s.sb > max_inodes
  · rw [if_pos h, if_pos h]
    exact get32_set32_same _ _ _ (by decide)
  · rw [if_neg h, if_neg h]

/-- The checks before that of `inode_count` leave the field as read. -/
theorem validate_inode_count (sb : Buf) :
    sb_inode_count (validate_superblock sb).sb =
      if max_inodes < sb_inode_count sb then max_inodes else sb_inode_count sb := by
  unfold validate_superblock
  dsimp only
  rw [check_inode_count_count]
  simp only [sb_inode_count, check_field32_other, check_magic_other, Nat.reduceLeDiff,
    Nat.reduceAdd, Nat.le_refl, or_true, true_or]

/-- Claim C15.  The clamp of `inode_count`: the bound the validator uses is
`INODE_TABLE_BLOCKS * (block_size / inode_size)` for the superblock's `block_size`
and `inode_size` after their correction, which is 80; and for every superblock
read, the validated `inode_count` is 80 when the observed value exceeds 80 and is
the observed value otherwise. -/
theorem inode_count_clamp (sb : Buf) :
    max_inodes = INODE_TABLE_BLOCKS *
      (sb_block_size (validate_superblock sb).sb / sb_inode_size (validate_superblock sb).sb) ∧
    max_inodes = 5 * (4096 / 256) ∧ max_inodes = 80 ∧
    sb_inode_count (validate_superblock sb).sb =
      if 80 < sb_inode_count sb then 80 else sb_inode_count sb := by
  have hc := validate_canonical sb
  refine ⟨?_, rfl, rfl, validate_inode_count sb⟩
  rw [hc.2.1, hc.2.2.2.2.2.2.2.1]
  rfl

/-! ## The walk as a sequence of pointer steps -/

/-- A pointer step changes the inode table in the four bytes of its field at
most. -/
theorem ptr_step_inodes (sb : Buf) (i : Nat) (lvl : Level) (off : Nat) (lvls : List Level)
    (w : Walk) (o : Nat) (ho : o < off ∨ off + 4 ≤ o) :
    (ptr_step sb i lvl off (scan_tree sb i lvls) w).inodes o = w.inodes o := by
  unfold ptr_step
  split
  · rfl
  · rename_i h0
    split
    · show set32 w.inodes off 0 o = w.inodes o
      rcases ho with ho | ho
      · exact set32_apply_of_lt _ _ _ _ ho
      · exact set32_apply_of_ge _ _ _ _ ho
    · rename_i hr
      rw [scan_tree_inodes sb i lvls _ _ h0 (by simpa using hr), note_block_inodes]

/-- The iteration of the loop for a live inode is the sequence of its fifteen
pointer steps, each of which finds its field, and every byte after it, as in the
table `inodes0` the iteration started from: a property indexed by the number of
fields handled goes through. -/
theorem inode_step_seq (sb : Buf) (i : Nat) (inodes0 : Buf) (J : Nat → Walk → Prop)
    (hd : ∀ j w, j < 12 → J j w → (∀ o, off_direct i j ≤ o → w.inodes o = inodes0 o) →
      J (j + 1) (ptr_step sb i Level.direct (off_direct i j) (scan_tree sb i []) w))
    (hs : ∀ w, J 12 w → (∀ o, off_single i ≤ o → w.inodes o = inodes0 o) →
      J 13 (ptr_step sb i Level.single_ptr (off_single i)
        (scan_tree sb i [Level.single_entry]) w))
    (hdb : ∀ w, J 13 w → (∀ o, off_double i ≤ o → w.inodes o = inodes0 o) →
      J 14 (ptr_step sb i Level.double_ptr (off_double i)
        (scan_tree sb i [Level.double_l1, Level.double_l2]) w))
    (ht : ∀ w, J 14 w → (∀ o, off_triple i ≤ o → w.inodes o = inodes0 o) →
      J 15 (ptr_step sb i Level.triple_ptr (off_triple i)
        (scan_tree sb i [Level.triple_l1, Level.triple_l2, Level.triple_l3]) w))
    (w : Walk) (hv : valid_inode w.inodes i = true)
    (hin : ∀ o, i * 256 + 40 ≤ o → w.inodes o = inodes0 o) (h0 : J 0 w) :
    J 15 (inode_step sb i w) ∧
      ∀ o, i * 256 + 100 ≤ o → (inode_step sb i w).inodes o = inodes0 o := by
  have eo : ∀ j, off_direct i j = i * 256 + 40 + 4 * j := fun j => by
    unfold off_direct; rw [sizeof_Inode_eq]
  have es : off_single i = i * 256 + 88 := by unfold off_single; rw [sizeof_Inode_eq]
  have ed : off_double i = i * 256 + 92 := by unfold off_double; rw [sizeof_Inode_eq]
  have et : off_triple i = i * 256 + 96 := by unfold off_triple; rw [sizeof_Inode_eq]
  unfold inode_step
  rw [if_neg (by rw [hv]; exact Bool.noConfusion)]
  dsimp only
  have h1 := for_loop_inv
    (fun k t => J k t ∧ ∀ o, i * 256 + 40 + 4 * k ≤ o → t.inodes o = inodes0 o)
    12 (direct_step sb i) w ⟨h0, hin⟩ ?_
  · rw [triple_indirect_eq, double_indirect_eq, single_indirect_eq]
    have h2 := hs _ h1.1 (fun o ho => h1.2 o (by omega))
    have e2 : ∀ o, i * 256 + 92 ≤ o →
        (ptr_step sb i Level.single_ptr (off_single i) (scan_tree sb i [Level.single_entry])
          (for_loop 12 (direct_step sb i) w)).inodes o = inodes0 o := by
      intro o ho
      rw [ptr_step_inodes _ _ _ _ _ _ _ (Or.inr (by omega))]
      exact h1.2 o (by omega)
    have h3 := hdb _ h2 (fun o ho => e2 o (by omega))
    have e3 : ∀ o, i * 256 + 96 ≤ o →
        (ptr_step sb i Level.double_ptr (off_double i)
          (scan_tree sb i [Level.double_l1, Level.double_l2])
          (ptr_step sb i Level.single_ptr (off_single i) (scan_tree sb i [Level.single_entry])
            (for_loop 12 (direct_step sb i) w))).inodes o = inodes0 o := by
      intro o ho
      rw [ptr_step_inodes _ _ _ _ _ _ _ (Or.inr (by omega))]
      exact e2 o (by omega)
    refine ⟨ht _ h3 (fun o ho => e3 o (by omega)), ?_⟩
    intro o ho
    rw [ptr_step_inodes _ _ _ _ _ _ _ (Or.inr (by omega))]
    exact e3 o (by omega)
  · intro k hk t ht2
    rw [direct_step_eq, ← scan_tree_nil sb i]
    refine ⟨hd k t hk ht2.1 (fun o ho => ht2.2 o (by rw [eo] at ho; omega)), ?_⟩
    intro o ho
    rw [ptr_step_inodes _ _ _ _ _ _ _ (Or.inr (by rw [eo]; omega))]
    exact ht2.2 o (by omega)

/-- The walk as a sequence of iterations: a free inode is skipped, and the
iteration for a live inode finds every byte of the table from that inode on as
it was when the walk started; a property indexed by the number of inodes handled
goes through. -/
theorem walk_seq (sb : Buf) (n : Nat) (w0 : Walk) (K : Nat → Walk → Prop)
    (hlive : ∀ i w, i < n → valid_inode w0.inodes i = true → valid_inode w.inodes i = true →
      (∀ o, i * 256 ≤ o → w.inodes o = w0.inodes o) → K i w → K (i + 1) (inode_step sb i w))
    (hfree : ∀ i w, i < n → valid_inode w0.inodes i = false → K i w → K (i + 1) w)
    (h0 : K 0 w0) : K n (walk_inodes sb n w0) := by
  unfold walk_inodes
  have h := for_loop_inv
    (fun k t => K k t ∧ (∀ o, k * 256 ≤ o → t.inodes o = w0.inodes o) ∧
      ∀ j, valid_inode t.inodes j = valid_inode w0.inodes j)
    n (inode_step sb) w0 ⟨h0, fun _ _ => rfl, fun _ => rfl⟩ ?_
  · exact h.1
  · intro k hk t ht
    by_cases hv : valid_inode w0.inodes k = true
    · have hvt : valid_inode t.inodes k = true := by rw [ht.2.2 k]; exact hv
      refine ⟨hlive k t hk hv hvt ht.2.1 ht.1, ?_, ?_⟩
      · intro o ho
        have := inode_step_inv sb k _ (other_inode_inv sb k t.inodes o (Or.inr ho)) t rfl
        rw [this]
        exact ht.2.1 o (by omega)
      · intro j
        rw [inode_step_inv sb k _ (valid_kept_inv sb k t.inodes) t (fun _ => rfl) j]
        exact ht.2.2 j
    · have hf : valid_inode w0.inodes k = false := by simpa using hv
      have hft : valid_inode t.inodes k = false := by rw [ht.2.2 k]; exact hf
      have he : inode_step sb k t = t := by
        unfold inode_step
        rw [if_pos hft]
      rw [he]
      exact ⟨hfree k t hk hf ht.1, fun o ho => ht.2.1 o (by omega), ht.2.2⟩

/-! ## The inode table after the walk -/

/-- A pointer step on a field of a live inode that is as at the start of the
walk leaves the four bytes of the field as `clean_inodes` has them. -/
theorem ptr_step_field (sb : Buf) (i : Nat) (lvl : Level) (m : Nat) (hm : m < 15)
    (lvls : List Level) (inodes0 : Buf) (w : Walk) (hv : valid_inode inodes0 i = true)
    (hin : ∀ o, i * 256 + 40 + 4 * m ≤ o → w.inodes o = inodes0 o) (o : Nat)
    (ho : i * 256 + 40 + 4 * m ≤ o) (ho2 : o < i * 256 + 40 + 4 * m + 4) :
    (ptr_step sb i lvl (i * 256 + 40 + 4 * m) (scan_tree sb i lvls) w).inodes o =
      clean_inodes sb inodes0 o := by
  have hfield : get32 w.inodes (i * 256 + 40 + 4 * m) = get32 inodes0 (o - o % 4) := by
    rw [show o - o % 4 = i * 256 + 40 + 4 * m by omega]
    exact get32_congr _ _ _ (fun t _ => hin _ (by omega))
  have hi : o / sizeof_Inode = i := by rw [sizeof_Inode_eq]; omega
  have hr1 : 40 ≤ o % sizeof_Inode := by rw [sizeof_Inode_eq]; omega
  have hr2 : o % sizeof_Inode < 100 := by rw [sizeof_Inode_eq]; omega
  unfold clean_inodes
  rw [hi, ← hfield]
  unfold ptr_step
  by_cases h0 : get32 w.inodes (i * 256 + 40 + 4 * m) = 0
  · rw [if_pos h0, h0, bad_ptr_zero]
    rw [if_neg (by simp)]
    exact hin o ho
  · rw [if_neg h0]
    by_cases hr : out_of_range sb (get32 w.inodes (i * 256 + 40 + 4 * m)) = true
    · rw [if_pos hr, bad_ptr_of sb _ h0 hr, if_pos ⟨hv, hr1, hr2, rfl⟩]
      show set32 w.inodes (i * 256 + 40 + 4 * m) 0 o = 0
      rw [set32_zero_apply, if_pos ⟨ho, ho2⟩]
    · rw [if_neg hr]
      have hr3 : out_of_range sb (get32 w.inodes (i * 256 + 40 + 4 * m)) = false := by
        simpa using hr
      rw [bad_ptr_false_of sb _ hr3, if_neg (by simp),
        scan_tree_inodes sb i lvls _ _ h0 hr3, note_block_inodes]
      exact hin o ho

/-- Outside the pointer fields of the live inodes `clean_inodes` changes
nothing. -/
theorem clean_inodes_other (sb inodes : Buf) (o : Nat)
    (h : valid_inode inodes (o / 256) = false ∨ o % 256 < 40 ∨ 100 ≤ o % 256) :
    clean_inodes sb inodes o = inodes o := by
  unfold clean_inodes
  rw [sizeof_Inode_eq]
  rw [if_neg]
  rintro ⟨h1, h2, h3, _⟩
  rcases h with h | h | h
  · rw [h] at h1; exact Bool.noConfusion h1
  · omega
  · omega

/-- The iteration of the loop for a live inode leaves it as `clean_inodes` has
it. -/
theorem inode_step_table (sb : Buf) (i : Nat) (inodes0 : Buf) (w : Walk)
    (hv0 : valid_inode inodes0 i = true) (hv : valid_inode w.inodes i = true)
    (hin : ∀ o, i * 256 ≤ o → w.inodes o = inodes0 o) (o : Nat) (ho : i * 256 ≤ o)
    (ho2 : o < (i + 1) * 256) :
    (inode_step sb i w).inodes o = clean_inodes sb inodes0 o := by
  have eo : ∀ j, off_direct i j = i * 256 + 40 + 4 * j := fun j => by
    unfold off_direct; rw [sizeof_Inode_eq]
  have es : off_single i = i * 256 + 40 + 4 * 12 := by unfold off_single; rw [sizeof_Inode_eq]
  have ed : off_double i = i * 256 + 40 + 4 * 13 := by unfold off_double; rw [sizeof_Inode_eq]
  have et : off_triple i = i * 256 + 40 + 4 * 14 := by unfold off_triple; rw [sizeof_Inode_eq]
  have key : ∀ (lvl : Level) (lvls : List Level) (m : Nat) (t : Walk), m < 15 →
      (∀ o, i * 256 ≤ o → o < i * 256 + 40 + 4 * m → t.inodes o = clean_inodes sb inodes0 o) →
      (∀ o, i * 256 + 40 + 4 * m ≤ o → t.inodes o = inodes0 o) →
      ∀ o, i * 256 ≤ o → o < i * 256 + 40 + 4 * (m + 1) →
        (ptr_step sb i lvl (i * 256 + 40 + 4 * m) (scan_tree sb i lvls) t).inodes o =
          clean_inodes sb inodes0 o := by
    intro lvl lvls m t hm hJ hrest o ho ho2
    by_cases hlt : o < i * 256 + 40 + 4 * m
    · rw [ptr_step_inodes _ _ _ _ _ _ _ (Or.inl hlt)]
      exact hJ o ho hlt
    · exact ptr_step_field sb i lvl m hm lvls inodes0 t hv0 hrest o (by omega) (by omega)
  have hseq := inode_step_seq sb i inodes0
    (fun m t => ∀ o, i * 256 ≤ o → o < i * 256 + 40 + 4 * m →
      t.inodes o = clean_inodes sb inodes0 o)
    (fun j t hj hJ hrest => by
      rw [eo] at hrest ⊢
      exact key _ _ j t (by omega) hJ hrest)
    (fun t hJ hrest => by
      rw [es] at hrest ⊢
      exact key _ _ 12 t (by omega) hJ hrest)
    (fun t hJ hrest => by
      rw [ed] at hrest ⊢
      exact key _ _ 13 t (by omega) hJ hrest)
    (fun t hJ hrest => by
      rw [et] at hrest ⊢
      exact key _ _ 14 t (by omega) hJ hrest)
    w hv (fun o ho => hin o (by omega))
    (fun o ho ho2 => by
      rw [clean_inodes_other sb inodes0 o (Or.inr (Or.inl (by omega)))]
      exact hin o ho)
  by_cases hlt : o < i * 256 + 100
  · exact hseq.1 o ho (by omega)
  · rw [hseq.2 o (by omega), clean_inodes_other sb inodes0 o (Or.inr (Or.inr (by omega)))]

/-- The inode table the walk leaves in memory: `clean_inodes` of the table it
started from, in the first `n` inodes; the table it started from, elsewhere. -/
theorem walk_table (sb : Buf) (n : Nat) (w0 : Walk) (o : Nat) :
    (walk_inodes sb n w0).inodes o =
      if o < n * 256 then clean_inodes sb w0.inodes o else w0.inodes o := by
  have h := walk_seq sb n w0
    (fun k t => ∀ o, t.inodes o =
      if o < k * 256 then clean_inodes sb w0.inodes o else w0.inodes o)
    (fun i w hi hv0 hv hin hK o => by
      by_cases h1 : o < i * 256
      · rw [if_pos (by omega)]
        have := inode_step_inv sb i _ (other_inode_inv sb i w.inodes o (Or.inl h1)) w rfl
        rw [this, hK o, if_pos h1]
      · by_cases h2 : o < (i + 1) * 256
        · rw [if_pos h2]
          exact inode_step_table sb i w0.inodes w hv0 hv hin o (by omega) h2
        · rw [if_neg h2]
          have := inode_step_inv sb i _ (other_inode_inv sb i w.inodes o (Or.inr (by omega))) w rfl
          rw [this, hK o, if_neg h1])
    (fun i w hi hf hK o => by
      rw [hK o]
      by_cases h1 : o < i * 256
      · rw [if_pos h1, if_pos (by omega)]
      · rw [if_neg h1]
        by_cases h2 : o < (i + 1) * 256
        · rw [if_pos h2, clean_inodes_other sb w0.inodes o (Or.inl (by
            rw [show o / 256 = i by omega]; exact hf))]
        · rw [if_neg h2])
    (fun o => by rw [if_neg (by omega)])
  exact h o

theorem clean_inodes_congr (sb a b : Buf) (h : ∀ o, a o = b o) (o : Nat) :
    clean_inodes sb a o = clean_inodes sb b o := by
  have : a = b := funext h
  rw [this]

/-- The value of a pointer field in `clean_inodes`: zero when the inode is live and
the pointer is bad, the value it had otherwise. -/
theorem get32_clean_inodes (sb inodes : Buf) (i off : Nat) (hoff : PtrOff i off) :
    get32 (clean_inodes sb inodes) off =
      if valid_inode inodes i = true ∧ bad_ptr sb (get32 inodes off) = true then 0
      else get32 inodes off := by
  unfold PtrOff off_direct off_single off_double off_triple at hoff
  rw [sizeof_Inode_eq] at hoff
  have hb : ∀ t, t < 4 → clean_inodes sb inodes (off + t) =
      if valid_inode inodes i = true ∧ bad_ptr sb (get32 inodes off) = true then 0
      else inodes (off + t) := by
    intro t ht
    unfold clean_inodes
    rw [sizeof_Inode_eq]
    have e1 : (off + t) / 256 = i := by
      rcases hoff with ⟨j, hj, rfl⟩ | rfl | rfl | rfl <;> omega
    have e2 : off + t - (off + t) % 4 = off := by
      rcases hoff with ⟨j, hj, rfl⟩ | rfl | rfl | rfl <;> omega
    have e3 : 40 ≤ (off + t) % 256 ∧ (off + t) % 256 < 100 := by
      rcases hoff with ⟨j, hj, rfl⟩ | rfl | rfl | rfl <;> omega
    rw [e1, e2]
    by_cases hc : valid_inode inodes i = true ∧ bad_ptr sb (get32 inodes off) = true
    · rw [if_pos hc, if_pos ⟨hc.1, e3.1, e3.2, hc.2⟩]
    · rw [if_neg hc, if_neg (fun hx => hc ⟨hx.1, hx.2.2.2⟩)]
  by_cases hc : valid_inode inodes i = true ∧ bad_ptr sb (get32 inodes off) = true
  · rw [if_pos hc]
    exact get32_eq_zero _ _ (fun t ht => by rw [hb t ht, if_pos hc])
  · rw [if_neg hc]
    exact get32_congr _ _ _ (fun t ht => by rw [hb t ht, if_neg hc])

/-- The inode table region of the image after a completed run (blocks 3 to 7, as
far as the file held them): `clean_inodes` of the table of the image in the first
`inode_count` inodes, the bytes of the image beyond. -/
theorem done_table (img : File) (d : Done) (h : main img = Outcome.done d) (o : Nat)
    (ho : o < 5 * 4096) (hsz : 12288 + o < img.size) :
    fread_buf d.fp (BLOCK_SIZE * INODE_TABLE_START) o =
      if o < d.inode_count * 256 then
        clean_inodes (sb_of img) (fread_buf img (BLOCK_SIZE * INODE_TABLE_START)) o
      else fread_buf img (BLOCK_SIZE * INODE_TABLE_START) o := by
  obtain ⟨s1, s2, s3, s4⟩ := done_sizes img d h
  have hd := (main_done img d h).1
  have e3 : BLOCK_SIZE * INODE_TABLE_START = 12288 := rfl
  rw [e3]
  show d.fp.data (12288 + o) = _
  rw [hd, run_done_inode_count]
  by_cases hlt : o < sb_inode_count (sb_of img) * 256
  · rw [if_pos hlt, run_done_fp_inodes img o hlt, walk_end_eq, walk_table, if_pos hlt]
    exact clean_inodes_congr _ _ _ (fun x => walk_start_inodes_img img x) o
  · rw [if_neg hlt, run_done_fp_eq, fwrite_data_of_ge _ _ _ _ _ (by omega)]
    have hlow : (walk_end img).fp.data (12288 + o) = img.data (12288 + o) := by
      rw [walk_end_fp_low img (by omega) _ (by omega) (by omega),
        walk_start_fp_other img _ (Or.inr (by omega)) (Or.inr (by omega))]
      exact fp_after_sb_data_high img _ (by omega)
    split
    · rw [fwrite_data_of_ge _ _ _ _ _ (by omega)]
      exact hlow
    · exact hlow

theorem bad_ptr_iff_not_safe (sb : Buf) (h8 : sb_first_data_block sb = 8)
    (h64 : sb_total_blocks sb = 64) (p : Nat) : bad_ptr sb p = true ↔ ¬ SafePtr p := by
  constructor
  · intro hb hs
    rw [not_bad_of_safe sb h8 h64 p hs] at hb
    exact Bool.noConfusion hb
  · intro hs
    by_cases hb : bad_ptr sb p = true
    · exact hb
    · exact absurd (safePtr_of sb h8 h64 p (by simpa using hb)) hs

/-- A free inode is skipped by the walk: the state after its iteration is the
state before it. -/
theorem walk_skips_free (sb : Buf) (i : Nat) (w0 : Walk)
    (hf : valid_inode w0.inodes i = false) :
    walk_inodes sb (i + 1) w0 = walk_inodes sb i w0 := by
  have hv : valid_inode (walk_inodes sb i w0).inodes i = false := by
    rw [walk_inodes_inv sb i _ (fun k _ => valid_kept_inv sb k w0.inodes) w0 (fun _ => rfl) i]
    exact hf
  have he : ∀ t : Walk, valid_inode t.inodes i = false → inode_step sb i t = t := by
    intro t ht
    unfold inode_step
    rw [if_pos ht]
  unfold walk_inodes at hv ⊢
  rw [for_loop_succ]
  exact he _ hv

theorem img_free_inode_done :
    main img_free_inode = Outcome.done (run_done img_free_inode) :=
  main_completes img_free_inode (by decide)

/-- Claim C19.  Inode table frame.  After a completed run, a byte of the inode
table region differs from the image's only if it lies in a pointer field of a
live inode whose pointer was out of range, and it is then 0.  Every byte of every
free inode is unchanged and the walk skips the inode (the state after its
iteration, reference counters included, is the state before it); in every live
inode the bytes before and after the pointer fields are unchanged, every zero
or in-range pointer is unchanged and every other pointer is 0. -/
theorem inode_table_frame (img : File) (d : Done) (h : main img = Outcome.done d) :
    (∀ o, o < 5 * 4096 → 12288 + o < img.size →
      fread_buf d.fp (BLOCK_SIZE * INODE_TABLE_START) o =
          fread_buf img (BLOCK_SIZE * INODE_TABLE_START) o ∨
        (fread_buf d.fp (BLOCK_SIZE * INODE_TABLE_START) o = 0 ∧
          ∃ i off, i < d.inode_count ∧
            valid_inode (fread_buf img (BLOCK_SIZE * INODE_TABLE_START)) i = true ∧
            PtrOff i off ∧ off ≤ o ∧ o < off + 4 ∧
            ¬ SafePtr (get32 (fread_buf img (BLOCK_SIZE * INODE_TABLE_START)) off))) ∧
    (∀ i, i < d.inode_count →
      valid_inode (fread_buf img (BLOCK_SIZE * INODE_TABLE_START)) i = false →
      (∀ o, i * 256 ≤ o → o < (i + 1) * 256 →
        fread_buf d.fp (BLOCK_SIZE * INODE_TABLE_START) o =
          fread_buf img (BLOCK_SIZE * INODE_TABLE_START) o) ∧
      walk_inodes (sb_of img) (i + 1) (walk_start img) =
        walk_inodes (sb_of img) i (walk_start img)) ∧
    (∀ i, i < d.inode_count →
      valid_inode (fread_buf img (BLOCK_SIZE * INODE_TABLE_START)) i = true →
      (∀ o, i * 256 ≤ o → o < (i + 1) * 256 → (o < i * 256 + 40 ∨ i * 256 + 100 ≤ o) →
        fread_buf d.fp (BLOCK_SIZE * INODE_TABLE_START) o =
          fread_buf img (BLOCK_SIZE * INODE_TABLE_START) o) ∧
      ∀ off, PtrOff i off →
        (SafePtr (get32 (fread_buf img (BLOCK_SIZE * INODE_TABLE_START)) off) →
          get32 (fread_buf d.fp (BLOCK_SIZE * INODE_TABLE_START)) off =
            get32 (fread_buf img (BLOCK_SIZE * INODE_TABLE_START)) off) ∧
        (¬ SafePtr (get32 (fread_buf img (BLOCK_SIZE * INODE_TABLE_START)) off) →
          get32 (fread_buf d.fp (BLOCK_SIZE * INODE_TABLE_START)) off = 0)) := by
  obtain ⟨s1, s2, s3, s4⟩ := done_sizes img d h
  have hcount : d.inode_count = sb_inode_count (sb_of img) := by
    rw [(main_done img d h).1, run_done_inode_count]
  have hle := sb_of_count_le img
  have hbad := bad_ptr_iff_not_safe (sb_of img) (sb_of_first img) (sb_of_total img)
  -- bytes of the inodes below `inode_count`
  have hin : ∀ i o, i < d.inode_count → o < (i + 1) * 256 →
      fread_buf d.fp (BLOCK_SIZE * INODE_TABLE_START) o =
        clean_inodes (sb_of img) (fread_buf img (BLOCK_SIZE * INODE_TABLE_START)) o := by
    intro i o hi ho
    have h1 : (i + 1) * 256 ≤ d.inode_count * 256 := Nat.mul_le_mul_right 256 hi
    rw [done_table img d h o (by rw [hcount] at h1; omega) (by rw [hcount] at h1; omega),
      if_pos (by omega)]
  refine ⟨?_, ?_, ?_⟩
  · intro o ho hsz
    rw [done_table img d h o ho hsz]
    by_cases hlt : o < d.inode_count * 256
    · rw [if_pos hlt]
      unfold clean_inodes
      rw [sizeof_Inode_eq]
      split
      · rename_i hc
        right
        refine ⟨rfl, o / 256, o - o % 4, by omega, hc.1, ?_, by omega, by omega,
          (hbad _).mp hc.2.2.2⟩
        unfold PtrOff off_direct off_single off_double off_triple
        rw [sizeof_Inode_eq]
        by_cases h88 : o % 256 < 88
        · exact Or.inl ⟨(o % 256 - 40) / 4, by omega, by omega⟩
        · by_cases h92 : o % 256 < 92
          · exact Or.inr (Or.inl (by omega))
          · by_cases h96 : o % 256 < 96
            · exact Or.inr (Or.inr (Or.inl (by omega)))
            · exact Or.inr (Or.inr (Or.inr (by omega)))
      · exact Or.inl rfl
    · rw [if_neg hlt]
      exact Or.inl rfl
  · intro i hi hf
    constructor
    · intro o ho1 ho2
      rw [hin i o hi ho2]
      exact clean_inodes_other _ _ o (Or.inl (by
        rw [show o / 256 = i by omega]; exact hf))
    · apply walk_skips_free
      rw [← hf]
      exact valid_inode_congr _ _ i (fun o _ _ => walk_start_inodes_img img o)
  · intro i hi hv
    constructor
    · intro o ho1 ho2 ho3
      rw [hin i o hi ho2]
      exact clean_inodes_other _ _ o (Or.inr (by omega))
    · intro off hoff
      have hoff2 := hoff
      unfold PtrOff off_direct off_single off_double off_triple at hoff2
      rw [sizeof_Inode_eq] at hoff2
      have hg : get32 (fread_buf d.fp (BLOCK_SIZE * INODE_TABLE_START)) off =
          get32 (clean_inodes (sb_of img) (fread_buf img (BLOCK_SIZE * INODE_TABLE_START)))
            off :=
        get32_congr _ _ _ (fun t ht => hin i _ hi (by
          rcases hoff2 with ⟨j, hj, rfl⟩ | rfl | rfl | rfl <;> omega))
      rw [hg, get32_clean_inodes _ _ i off hoff]
      constructor
      · intro hs
        rw [if_neg (fun hc => (hbad _).mp hc.2 hs)]
      · intro hs
        rw [if_pos ⟨hv, (hbad _).mpr hs⟩]

set_option maxRecDepth 100000 in
/-- Claim C19, at `img_free_inode`: the run completes; inode 1 is free and holds
the pointer 200, and each of its bytes is unchanged; inode 0 is live and its
`direct[0]`, which was 200, is 0. -/
theorem inode_table_frame_witness :
    main img_free_inode = Outcome.done (run_done img_free_inode) ∧
    valid_inode (fread_buf img_free_inode (BLOCK_SIZE * INODE_TABLE_START)) 1 = false ∧
    get32 (fread_buf img_free_inode (BLOCK_SIZE * INODE_TABLE_START)) (off_direct 1 0) = 200 ∧
    (∀ o, 1 * 256 ≤ o → o < (1 + 1) * 256 →
      fread_buf (run_done img_free_inode).fp (BLOCK_SIZE * INODE_TABLE_START) o =
        fread_buf img_free_inode (BLOCK_SIZE * INODE_TABLE_START) o) ∧
    get32 (fread_buf (run_done img_free_inode).fp (BLOCK_SIZE * INODE_TABLE_START))
      (off_direct 0 0) = 0 :=
  have h := inode_table_frame img_free_inode _ img_free_inode_done
  ⟨img_free_inode_done, by with_unfolding_all decide, by with_unfolding_all decide,
    (h.2.1 1 (by with_unfolding_all decide) (by with_unfolding_all decide)).1,
    ((h.2.2 0 (by with_unfolding_all decide) (by with_unfolding_all decide)).2 (off_direct 0 0)
      (Or.inl ⟨0, by decide, rfl⟩)).2 (by unfold SafePtr; with_unfolding_all decide)⟩

/-! ## Blocks the walk does not visit -/

/-- The scan of the tree under a good pointer leaves a block that is not an
indirection block of the tree as it was. -/
theorem scan_tree_untouched (sb : Buf) (h8 : sb_first_data_block sb = 8)
    (h64 : sb_total_blocks sb = 64) (i : Nat) (orig : Buf) (blk : Nat) :
    ∀ (lvls : List Level) (p : Nat) (w : Walk), p ≠ 0 → out_of_range sb p = false →
      DataInv sb orig (fun _ => False) w → BlockEq w.fp.data orig blk →
      ¬ InTree sb orig lvls.length p blk →
      BlockEq (scan_tree sb i lvls p w).fp.data orig blk := by
  intro lvls
  induction lvls with
  | nil =>
    intro p w _ _ _ hu _
    rw [scan_tree_nil]
    exact hu
  | cons lvl rest ih =>
    intro p w hp0 hp hw hu hnot
    have hr := in_range_of sb p hp
    rw [h8, h64] at hr
    have hpblk := hw.2.1 p hr.1 hr.2
    have hne : blk ≠ p := fun hc => hnot ⟨hp0, hp, Or.inl hc⟩
    have hsub : ∀ k, k < BLOCK_SIZE / 4 →
        ¬ InTree sb orig rest.length (get32 orig (p * BLOCK_SIZE + 4 * k)) blk :=
      fun k hk hc => hnot ⟨hp0, hp, Or.inr ⟨k, hk, hc⟩⟩
    rw [scan_tree_cons]
    obtain ⟨t, hI, heq⟩ := scan_block_loop sb i lvl (scan_tree sb i rest) p w
      (fun _ t => DataInv sb orig (fun _ => False) t ∧ BlockEq t.fp.data orig blk)
      (dataInv_read sb orig _ w p hw hr.2) ⟨hw, hu⟩
      (fun k t hk ht hz => ht)
      (fun k t hk ht hbad => ⟨ht.1.same_fp rfl, ht.2⟩)
      (by
        intro k t hk ht hz hg
        have hnote : DataInv sb orig (fun _ => False)
            (note_block sb i lvl (get32 w.fp.data (p * BLOCK_SIZE + 4 * k)) t) :=
          ht.1.same_fp (note_block_fp _ _ _ _ _)
        have hu2 : BlockEq
            (note_block sb i lvl (get32 w.fp.data (p * BLOCK_SIZE + 4 * k)) t).fp.data
            orig blk := by
          rw [note_block_fp]; exact ht.2
        have he : get32 w.fp.data (p * BLOCK_SIZE + 4 * k) =
            get32 orig (p * BLOCK_SIZE + 4 * k) := by
          rcases entry_of_block sb orig w.fp.data p k hk hpblk with he | he
          · exact he
          · exact absurd he.1 hz
        refine ⟨(scan_tree_clean sb h8 h64 i orig rest _ _ _ hz hg hnote).weaken
          (fun b hb => False.elim hb), ?_⟩
        exact ih _ _ hz hg hnote hu2 (by rw [he]; exact hsub k hk))
    rw [heq]
    have hsz : 64 * 4096 ≤ t.fp.size := hI.1.1
    exact blockEq_fwrite_other _ _ _ _ _ hne (by rw [BLOCK_SIZE_eq]; omega) hI.2

/-- A pointer step leaves a block that is not an indirection block of the tree
under its pointer as it was, and keeps the data region invariant. -/
theorem ptr_step_untouched (sb : Buf) (h8 : sb_first_data_block sb = 8)
    (h64 : sb_total_blocks sb = 64) (i : Nat) (orig : Buf) (blk : Nat) (lvl : Level)
    (off : Nat) (lvls : List Level) (w : Walk)
    (hw : DataInv sb orig (fun _ => False) w ∧ BlockEq w.fp.data orig blk)
    (hnot : ¬ InTree sb orig lvls.length (get32 w.inodes off) blk) :
    DataInv sb orig (fun _ => False) (ptr_step sb i lvl off (scan_tree sb i lvls) w) ∧
      BlockEq (ptr_step sb i lvl off (scan_tree sb i lvls) w).fp.data orig blk := by
  unfold ptr_step
  split
  · exact hw
  · rename_i h0
    split
    · exact ⟨hw.1.same_fp rfl, hw.2⟩
    · rename_i hr
      have hr2 : out_of_range sb (get32 w.inodes off) = false := by simpa using hr
      have hnote : DataInv sb orig (fun _ => False)
          (note_block sb i lvl (get32 w.inodes off) w) :=
        hw.1.same_fp (note_block_fp _ _ _ _ _)
      have hu2 : BlockEq (note_block sb i lvl (get32 w.inodes off) w).fp.data orig blk := by
        rw [note_block_fp]; exact hw.2
      exact ⟨(scan_tree_clean sb h8 h64 i orig lvls _ _ _ h0 hr2 hnote).weaken
          (fun b hb => False.elim hb),
        scan_tree_untouched sb h8 h64 i orig blk lvls _ _ h0 hr2 hnote hu2 hnot⟩

/-- The walk leaves as it was every block that is not an indirection block of a
tree of a live inode. -/
theorem walk_untouched (sb : Buf) (h8 : sb_first_data_block sb = 8)
    (h64 : sb_total_blocks sb = 64) (orig : Buf) (n : Nat) (w0 : Walk) (blk : Nat)
    (hw : DataInv sb orig (fun _ => False) w0) (hu : BlockEq w0.fp.data orig blk)
    (hnot : ∀ i off depth, i < n → valid_inode w0.inodes i = true → FieldOf i off depth →
      ¬ InTree sb orig depth (get32 w0.inodes off) blk) :
    BlockEq (walk_inodes sb n w0).fp.data orig blk := by
  have h := walk_seq sb n w0
    (fun _ t => DataInv sb orig (fun _ => False) t ∧ BlockEq t.fp.data orig blk)
    (fun i w hi hv0 hv hin hK => by
      have key : ∀ (lvl : Level) (off depth : Nat) (lvls : List Level) (t : Walk),
          FieldOf i off depth → lvls.length = depth →
          DataInv sb orig (fun _ => False) t ∧ BlockEq t.fp.data orig blk →
          (∀ o, off ≤ o → t.inodes o = w0.inodes o) →
          DataInv sb orig (fun _ => False) (ptr_step sb i lvl off (scan_tree sb i lvls) t) ∧
            BlockEq (ptr_step sb i lvl off (scan_tree sb i lvls) t).fp.data orig blk := by
        intro lvl off depth lvls t hf hlen ht hrest
        apply ptr_step_untouched sb h8 h64 i orig blk lvl off lvls t ht
        rw [hlen, get32_congr _ _ off (fun x _ => hrest _ (by omega))]
        exact hnot i off depth hi hv0 hf
      exact (inode_step_seq sb i w0.inodes
        (fun _ t => DataInv sb orig (fun _ => False) t ∧ BlockEq t.fp.data orig blk)
        (fun j t hj hJ hrest => key _ _ 0 [] t (Or.inl ⟨j, hj, rfl, rfl⟩) rfl hJ hrest)
        (fun t hJ hrest => key _ _ 1 _ t (Or.inr (Or.inl ⟨rfl, rfl⟩)) rfl hJ hrest)
        (fun t hJ hrest => key _ _ 2 _ t (Or.inr (Or.inr (Or.inl ⟨rfl, rfl⟩))) rfl hJ hrest)
        (fun t hJ hrest => key _ _ 3 _ t (Or.inr (Or.inr (Or.inr ⟨rfl, rfl⟩))) rfl hJ hrest)
        w hv (fun o ho => hin o (by omega)) hK).1)
    (fun i w hi hf hK => hK)
    ⟨hw, hu⟩
  exact h.2

/-! ## The data region after the run -/

/-- When the walk starts on an image that holds the 64 blocks, the data region is
that of the image. -/
theorem walk_start_dataInv_img (img : File) (hsz : TOTAL_BLOCKS * BLOCK_SIZE ≤ img.size) :
    DataInv (sb_of img) img.data (fun _ => False) (walk_start img) := by
  have h : 64 * 4096 ≤ img.size := hsz
  refine ⟨(walk_start_dataInv img hsz).1, ?_, fun _ hc => False.elim hc⟩
  intro blk hlo hhi
  left
  intro o ho
  have hlo2 : 8 ≤ blk := hlo
  rw [BLOCK_SIZE_eq] at ho ⊢
  rw [walk_start_fp_other img _ (Or.inr (by omega)) (Or.inr (by omega))]
  exact fp_after_sb_data_high img _ (by omega)

theorem walk_end_dataInv_img (img : File) (hsz : TOTAL_BLOCKS * BLOCK_SIZE ≤ img.size) :
    DataInv (sb_of img) img.data (fun _ => False) (walk_end img) := by
  rw [walk_end_eq]
  exact walk_inodes_inv (sb_of img) (sb_inode_count (sb_of img)) _
    (fun i _ => dataInv_inv (sb_of img) (sb_of_first img) (sb_of_total img) i _ _)
    (walk_start img) (walk_start_dataInv_img img hsz)

/-- Claim C20.  Data region frame, on an image that holds the 64 blocks: the walk
changes no byte below block 8; a block `b` in 8..63 that is not visited as an
indirection block is byte-identical after the run; and in every block `b` in
8..63 a byte is as it was or is 0 and lies in a 32-bit entry that was out of
range, and every zero or in-range entry keeps its value. -/
theorem data_region_frame (img : File) (d : Done) (h : main img = Outcome.done d)
    (hsz : TOTAL_BLOCKS * BLOCK_SIZE ≤ img.size) :
    (∀ o, o < DATA_BLOCK_START * BLOCK_SIZE →
      (walk_end img).fp.data o = (walk_start img).fp.data o) ∧
    ∀ b, 8 ≤ b → b < 64 →
      (¬ Visited img d.inode_count b → BlockEq d.fp.data img.data b) ∧
      (∀ o, o < BLOCK_SIZE →
        d.fp.data (b * BLOCK_SIZE + o) = img.data (b * BLOCK_SIZE + o) ∨
        (d.fp.data (b * BLOCK_SIZE + o) = 0 ∧
          ¬ SafePtr (get32 img.data (b * BLOCK_SIZE + (o - o % 4))))) ∧
      (∀ k, k < BLOCK_SIZE / 4 → SafePtr (get32 img.data (b * BLOCK_SIZE + 4 * k)) →
        get32 d.fp.data (b * BLOCK_SIZE + 4 * k) = get32 img.data (b * BLOCK_SIZE + 4 * k)) := by
  have h8 := sb_of_first img
  have h64 := sb_of_total img
  have hs : 64 * 4096 ≤ img.size := hsz
  have hcount : d.inode_count = sb_inode_count (sb_of img) := by
    rw [(main_done img d h).1, run_done_inode_count]
  have hinv := walk_end_dataInv_img img hsz
  have hbad := bad_ptr_iff_not_safe (sb_of img) h8 h64
  constructor
  · intro o ho
    have ho2 : o < 32768 := ho
    have hfs := fp_after_sb_size img (by omega)
    exact walk_end_fp_low img (by omega) o ho2 (by omega)
  intro b hb8 hb64
  have hblock : ∀ c : Buf, BlockEq (walk_end img).fp.data c b → BlockEq d.fp.data c b := by
    intro c hc o ho
    rw [← hc o ho]
    rw [BLOCK_SIZE_eq] at ho ⊢
    exact done_data_region img d h _ (by omega)
  refine ⟨?_, ?_, ?_⟩
  · intro hnv
    apply hblock
    rw [walk_end_eq]
    apply walk_untouched (sb_of img) h8 h64 img.data _ _ b (walk_start_dataInv_img img hsz)
    · intro o ho
      rw [BLOCK_SIZE_eq] at ho ⊢
      rw [walk_start_fp_other img _ (Or.inr (by omega)) (Or.inr (by omega))]
      exact fp_after_sb_data_high img _ (by omega)
    · intro i off depth hi hv hf hc
      apply hnv
      refine ⟨i, off, depth, by rw [hcount]; exact hi, ?_, hf, ?_⟩
      · rw [← hv]
        exact (valid_inode_congr _ _ i (fun o _ _ => walk_start_inodes_img img o)).symm
      · rw [← get32_congr _ _ off (fun t _ => walk_start_inodes_img img (off + t))]
        exact hc
  · intro o ho
    rcases hinv.2.1 b hb8 hb64 with hc | hc
    · exact Or.inl (hblock _ hc o ho)
    · rw [hblock _ hc o ho]
      unfold clean_data
      rw [BLOCK_SIZE_eq] at ho ⊢
      rw [show b * 4096 + o - (b * 4096 + o) % 4 = b * 4096 + (o - o % 4) by omega]
      split
      · rename_i hb
        exact Or.inr ⟨rfl, (hbad _).mp hb⟩
      · exact Or.inl rfl
  · intro k hk hsafe
    have e1 : get32 d.fp.data (b * BLOCK_SIZE + 4 * k) =
        get32 (walk_end img).fp.data (b * BLOCK_SIZE + 4 * k) := by
      apply get32_congr
      intro t ht
      have hk2 : k < 1024 := hk
      rw [BLOCK_SIZE_eq]
      exact done_data_region img d h _ (by omega)
    rw [e1]
    rcases entry_of_block (sb_of img) img.data (walk_end img).fp.data b k hk
        (hinv.2.1 b hb8 hb64) with hc | hc
    · exact hc
    · exact absurd hsafe ((hbad _).mp hc.2)

set_option maxRecDepth 100000 in
/-- Claim C20, at `img_damaged`: the run completes on the 64-block image; block 10
is referenced by `direct[1]` of inode 0 and is not visited as an indirection
block, and it is byte-identical after the run. -/
theorem data_region_frame_witness :
    main img_damaged = Outcome.done (run_done img_damaged) ∧
    TOTAL_BLOCKS * BLOCK_SIZE ≤ img_damaged.size ∧
    get32 (fread_buf img_damaged (BLOCK_SIZE * INODE_TABLE_START)) (off_direct 0 1) = 10 ∧
    BlockEq (run_done img_damaged).fp.data img_damaged.data 10 := by
  refine ⟨img_damaged_done, by decide, by with_unfolding_all decide, ?_⟩
  refine ((data_region_frame img_damaged _ img_damaged_done (by decide)).2 10 (by decide)
    (by decide)).1 ?_
  rintro ⟨i, off, depth, hi, _, hf, ht⟩
  have hi0 : i = 0 := by
    have : (run_done img_damaged).inode_count = 1 := by with_unfolding_all decide
    omega
  subst hi0
  rcases hf with ⟨j, _, _, hd⟩ | ⟨ho, _⟩ | ⟨ho, _⟩ | ⟨ho, _⟩
  · subst hd
    exact ht
  · subst ho
    rw [show get32 (fread_buf img_damaged (BLOCK_SIZE * INODE_TABLE_START)) (off_single 0) = 0
      from by with_unfolding_all decide] at ht
    exact inTree_zero _ _ _ _ ht
  · subst ho
    rw [show get32 (fread_buf img_damaged (BLOCK_SIZE * INODE_TABLE_START)) (off_double 0) = 0
      from by with_unfolding_all decide] at ht
    exact inTree_zero _ _ _ _ ht
  · subst ho
    rw [show get32 (fread_buf img_damaged (BLOCK_SIZE * INODE_TABLE_START)) (off_triple 0) = 0
      from by with_unfolding_all decide] at ht
    exact inTree_zero _ _ _ _ ht

/-! ## Exact reference counts -/

theorem loop_log_zero {σ : Type} (body : Nat → σ → σ) (body_log : Nat → σ → List Access)
    (s : σ) : loop_log 0 body body_log s = [] := rfl

theorem loop_log_succ {σ : Type} (n : Nat) (body : Nat → σ → σ)
    (body_log : Nat → σ → List Access) (s : σ) :
    loop_log (n + 1) body body_log s =
      loop_log n body body_log s ++ body_log n (for_loop n body s) := rfl

/-- An access of the log of a loop is an access of one of its iterations. -/
theorem loop_log_mem {σ : Type} (n : Nat) (body : Nat → σ → σ)
    (body_log : Nat → σ → List Access) (s : σ) (a : Access)
    (h : a ∈ loop_log n body body_log s) :
    ∃ k, k < n ∧ a ∈ body_log k (for_loop k body s) := by
  induction n with
  | zero => exact absurd h (List.not_mem_nil a)
  | succ m ih =>
    rw [loop_log_succ] at h
    rcases List.mem_append.mp h with h1 | h1
    · obtain ⟨k, hk, hm⟩ := ih h1
      exact ⟨k, Nat.lt_succ_of_lt hk, hm⟩
    · exact ⟨m, Nat.lt_succ_self m, h1⟩

theorem visits_nil : visits [] = 0 := rfl

theorem visits_append (l1 l2 : List Access) : visits (l1 ++ l2) = visits l1 + visits l2 := by
  unfold visits
  exact List.countP_append _ l1 l2

/-- The visits of a loop: at most the bound of one iteration for each iteration. -/
theorem loop_log_visits {σ : Type} (n : Nat) (body : Nat → σ → σ)
    (body_log : Nat → σ → List Access) (s : σ) (B : Nat)
    (h : ∀ k, k < n → visits (body_log k (for_loop k body s)) ≤ B) :
    visits (loop_log n body body_log s) ≤ n * B := by
  induction n with
  | zero => rw [loop_log_zero, visits_nil]; exact Nat.zero_le _
  | succ m ih =>
    rw [loop_log_succ, visits_append, Nat.succ_mul]
    exact Nat.add_le_add (ih (fun k hk => h k (Nat.lt_succ_of_lt hk))) (h m (Nat.lt_succ_self m))

/-! ### Every index is in range -/

theorem note_block_log_in_range (sb : Buf) (h8 : sb_first_data_block sb = 8)
    (h64 : sb_total_blocks sb = 64) (block : Nat) (w : Walk)
    (hb : out_of_range sb block = false) (a : Access) (h : a ∈ note_block_log sb block w) :
    a.in_range := by
  have hr := in_range_of sb block hb
  rw [h8, h64] at hr
  have hc : (Access.counter block).in_range := hr
  have hd : (Access.data_bit block).in_range := hr
  unfold note_block_log add_block_reference_log at h
  rcases List.mem_append.mp h with h1 | h1
  · rcases List.mem_append.mp h1 with h2 | h2
    · split at h2
      · rw [List.mem_singleton.mp h2]; exact hc
      · exact absurd h2 (List.not_mem_nil a)
    · rw [List.mem_singleton.mp h2]; exact hd
  · split at h1
    · rw [List.mem_singleton.mp h1]; exact hd
    · exact absurd h1 (List.not_mem_nil a)

theorem entry_log_in_range (sb : Buf) (h8 : sb_first_data_block sb = 8)
    (h64 : sb_total_blocks sb = 64) (i : Nat) (lvl : Level)
    (child_log : Nat → Walk → List Access)
    (hchild : ∀ e w a, e ≠ 0 → out_of_range sb e = false → a ∈ child_log e w → a.in_range)
    (k : Nat) (s : Scan) (a : Access) (h : a ∈ entry_log sb i lvl child_log k s) :
    a.in_range := by
  unfold entry_log at h
  dsimp only at h
  split at h
  · exact absurd h (List.not_mem_nil a)
  · rename_i h0
    split at h
    · exact absurd h (List.not_mem_nil a)
    · rename_i hr
      have hr2 : out_of_range sb (get32 s.buf (4 * k)) = false := by simpa using hr
      rcases List.mem_append.mp h with h1 | h1
      · exact note_block_log_in_range sb h8 h64 _ _ hr2 a h1
      · exact hchild _ _ a h0 hr2 h1

theorem scan_block_log_in_range (sb : Buf) (h8 : sb_first_data_block sb = 8)
    (h64 : sb_total_blocks sb = 64) (i : Nat) (lvl : Level) (child : Nat → Walk → Walk)
    (child_log : Nat → Walk → List Access)
    (hchild : ∀ e w a, e ≠ 0 → out_of_range sb e = false → a ∈ child_log e w → a.in_range)
    (blk : Nat) (w : Walk) (a : Access) (_hb0 : blk ≠ 0) (hb : out_of_range sb blk = false)
    (h : a ∈ scan_block_log sb i lvl child child_log blk w) : a.in_range := by
  have hr := in_range_of sb blk hb
  rw [h8, h64] at hr
  unfold scan_block_log at h
  dsimp only at h
  rcases List.mem_append.mp h with h1 | h1
  · rw [List.mem_singleton.mp h1]; exact hr
  · obtain ⟨k, _, hk⟩ := loop_log_mem _ _ _ _ a h1
    exact entry_log_in_range sb h8 h64 i lvl child_log hchild k _ a hk

theorem no_child_log_in_range (sb : Buf) :
    ∀ e w a, e ≠ 0 → out_of_range sb e = false → a ∈ no_child_log e w → a.in_range :=
  fun _ _ a _ _ h => absurd h (List.not_mem_nil a)

theorem direct_log_in_range (sb : Buf) (h8 : sb_first_data_block sb = 8)
    (h64 : sb_total_blocks sb = 64) (i j : Nat) (w : Walk) (a : Access)
    (h : a ∈ direct_log sb i j w) : a.in_range := by
  unfold direct_log at h
  dsimp only at h
  split at h
  · exact absurd h (List.not_mem_nil a)
  · split at h
    · exact absurd h (List.not_mem_nil a)
    · rename_i hr
      exact note_block_log_in_range sb h8 h64 _ _ (by simpa using hr) a h

theorem single_indirect_log_in_range (sb : Buf) (h8 : sb_first_data_block sb = 8)
    (h64 : sb_total_blocks sb = 64) (i : Nat) (w : Walk) (a : Access)
    (h : a ∈ single_indirect_log sb i w) : a.in_range := by
  unfold single_indirect_log at h
  dsimp only at h
  split at h
  · rename_i h0
    split at h
    · exact absurd h (List.not_mem_nil a)
    · rename_i hr
      have hr2 : out_of_range sb (get32 w.inodes (off_single i)) = false := by simpa using hr
      rcases List.mem_append.mp h with h1 | h1
      · exact note_block_log_in_range sb h8 h64 _ _ hr2 a h1
      · exact scan_block_log_in_range sb h8 h64 i _ _ _ (no_child_log_in_range sb) _ _ a h0 hr2 h1
  · exact absurd h (List.not_mem_nil a)

theorem double_indirect_log_in_range (sb : Buf) (h8 : sb_first_data_block sb = 8)
    (h64 : sb_total_blocks sb = 64) (i : Nat) (w : Walk) (a : Access)
    (h : a ∈ double_indirect_log sb i w) : a.in_range := by
  unfold double_indirect_log at h
  dsimp only at h
  split at h
  · rename_i h0
    split at h
    · exact absurd h (List.not_mem_nil a)
    · rename_i hr
      have hr2 : out_of_range sb (get32 w.inodes (off_double i)) = false := by simpa using hr
      rcases List.mem_append.mp h with h1 | h1
      · exact note_block_log_in_range sb h8 h64 _ _ hr2 a h1
      · exact scan_block_log_in_range sb h8 h64 i _ _ _
          (fun e t x he0 he hx => scan_block_log_in_range sb h8 h64 i _ _ _
            (no_child_log_in_range sb) e t x he0 he hx) _ _ a h0 hr2 h1
  · exact absurd h (List.not_mem_nil a)

theorem triple_indirect_log_in_range (sb : Buf) (h8 : sb_first_data_block sb = 8)
    (h64 : sb_total_blocks sb = 64) (i : Nat) (w : Walk) (a : Access)
    (h : a ∈ triple_indirect_log sb i w) : a.in_range := by
  unfold triple_indirect_log at h
  dsimp only at h
  split at h
  · rename_i h0
    split at h
    · exact absurd h (List.not_mem_nil a)
    · rename_i hr
      have hr2 : out_of_range sb (get32 w.inodes (off_triple i)) = false := by simpa using hr
      rcases List.mem_append.mp h with h1 | h1
      · exact note_block_log_in_range sb h8 h64 _ _ hr2 a h1
      · exact scan_block_log_in_range sb h8 h64 i _ _ _
          (fun e t x he0 he hx => scan_block_log_in_range sb h8 h64 i _ _ _
            (fun e2 t2 x2 he20 he2 hx2 => scan_block_log_in_range sb h8 h64 i _ _ _
              (no_child_log_in_range sb) e2 t2 x2 he20 he2 hx2) e t x he0 he hx)
          _ _ a h0 hr2 h1
  · exact absurd h (List.not_mem_nil a)

/-- Every access of the walk is in range. -/
theorem walk_log_in_range (sb : Buf) (h8 : sb_first_data_block sb = 8)
    (h64 : sb_total_blocks sb = 64) (n : Nat) (w : Walk) (a : Access)
    (h : a ∈ walk_log sb n w) : a.in_range := by
  unfold walk_log at h
  obtain ⟨i, _, hi⟩ := loop_log_mem _ _ _ _ a h
  unfold inode_log at hi
  split at hi
  · exact absurd hi (List.not_mem_nil a)
  · dsimp only at hi
    rcases List.mem_append.mp hi with h1 | h1
    · rcases List.mem_append.mp h1 with h2 | h2
      · rcases List.mem_append.mp h2 with h3 | h3
        · obtain ⟨j, _, hj⟩ := loop_log_mem _ _ _ _ a h3
          exact direct_log_in_range sb h8 h64 i j _ a hj
        · exact single_indirect_log_in_range sb h8 h64 i _ a h3
      · exact double_indirect_log_in_range sb h8 h64 i _ a h2
    · exact triple_indirect_log_in_range sb h8 h64 i _ a h1

theorem range_log_mem {σ : Type} (lo hi : Nat) (body : Nat → σ → σ)
    (body_log : Nat → σ → List Access) (s : σ) (a : Access)
    (h : a ∈ range_log lo hi body body_log s) :
    ∃ k t, lo ≤ k ∧ k < hi ∧ a ∈ body_log k t := by
  unfold range_log at h
  obtain ⟨k, hk, hm⟩ := loop_log_mem _ _ _ _ a h
  exact ⟨lo + k, _, Nat.le_add_right lo k, by omega, hm⟩

/-- Claim C17.  In-range indexing: for every image, every access of the run lies in
the range the code relies on: the inode bitmap is indexed below 80, the data
bitmap and the reference counters at blocks 8..63, and only blocks 8..63 are
visited; so every bitmap index lies in 0..32767 and every counter index in
0..63. -/
theorem indices_in_range (img : File) (a : Access) (h : a ∈ run_log img) :
    a.in_range ∧
      match a with
      | Access.inode_bit i => i < 32768
      | Access.data_bit b => b < 32768
      | Access.counter b => b < 64
      | Access.visit _ => True := by
  have h8 := sb_of_first img
  have h64 := sb_of_total img
  have hr : a.in_range := by
    unfold run_log at h
    dsimp only at h
    rcases List.mem_append.mp h with h1 | h1
    · rcases List.mem_append.mp h1 with h2 | h2
      · rcases List.mem_append.mp h2 with h3 | h3
        · -- the inode bitmap loop
          obtain ⟨k, hk, hm⟩ := loop_log_mem _ _ _ _ a h3
          have hk80 : k < 80 := Nat.lt_of_lt_of_le hk (sb_of_count_le img)
          have hi : (Access.inode_bit k).in_range := hk80
          unfold inode_bitmap_log at hm
          rcases List.mem_append.mp hm with h4 | h4
          · rw [List.mem_singleton.mp h4]; exact hi
          · split at h4
            · rw [List.mem_singleton.mp h4]; exact hi
            · split at h4
              · rw [List.mem_singleton.mp h4]; exact hi
              · exact absurd h4 (List.not_mem_nil a)
        · exact walk_log_in_range (sb_of img) h8 h64 _ _ a h3
      · -- the duplicate loop
        obtain ⟨k, t, hlo, hhi, hm⟩ := range_log_mem _ _ _ _ _ a h2
        rw [h8] at hlo
        have hc : (Access.counter k).in_range := ⟨hlo, hhi⟩
        unfold duplicate_log at hm
        rcases List.mem_append.mp hm with h4 | h4
        · rw [List.mem_singleton.mp h4]; exact hc
        · split at h4
          · rw [List.mem_singleton.mp h4]; exact hc
          · exact absurd h4 (List.not_mem_nil a)
    · -- the final pass
      obtain ⟨k, t, hlo, hhi, hm⟩ := range_log_mem _ _ _ _ _ a h1
      rw [h8] at hlo
      have hc : (Access.counter k).in_range := ⟨hlo, hhi⟩
      have hd : (Access.data_bit k).in_range := ⟨hlo, hhi⟩
      unfold data_bitmap_log at hm
      rcases List.mem_append.mp hm with h4 | h4
      · rw [List.mem_singleton.mp h4]; exact hd
      · split at h4
        · rcases List.mem_append.mp h4 with h5 | h5
          · rw [List.mem_singleton.mp h5]; exact hc
          · split at h5
            · rw [List.mem_singleton.mp h5]; exact hd
            · exact absurd h5 (List.not_mem_nil a)
        · exact absurd h4 (List.not_mem_nil a)
  refine ⟨hr, ?_⟩
  cases a with
  | inode_bit i =>
    have : i < 80 := hr
    show i < 32768
    omega
  | data_bit b =>
    have : 8 ≤ b ∧ b < 64 := hr
    show b < 32768
    omega
  | counter b =>
    have : 8 ≤ b ∧ b < 64 := hr
    exact this.2
  | visit b => exact True.intro

set_option maxRecDepth 100000 in
/-- Claim C17, at `img_damaged`: the run tests bit 10 of the data bitmap and
increments counter 10 for `direct[1] = 10` of inode 0, and both are in range. -/
theorem indices_in_range_witness :
    Access.data_bit 10 ∈ run_log img_damaged ∧ (Access.data_bit 10).in_range ∧
    Access.counter 10 ∈ walk_log (sb_of img_damaged) (sb_inode_count (sb_of img_damaged))
      (walk_start img_damaged) :=
  have h : Access.data_bit 10 ∈ run_log img_damaged := by with_unfolding_all decide
  ⟨h, (indices_in_range img_damaged _ h).1, by with_unfolding_all decide⟩

/-! ### The number of block visits -/

theorem visits_note_block_log (sb : Buf) (block : Nat) (w : Walk) :
    visits (note_block_log sb block w) = 0 := by
  unfold note_block_log add_block_reference_log
  rw [visits_append, visits_append]
  have h1 : visits (if sb_first_data_block sb ≤ block ∧ block < sb_total_blocks sb then
      [Access.counter block] else []) = 0 := by split <;> rfl
  have h2 : visits (if is_bit_set w.data_bitmap block = 0 then [Access.data_bit block]
      else []) = 0 := by split <;> rfl
  rw [h1, h2]
  rfl

theorem entry_log_visits (sb : Buf) (i : Nat) (lvl : Level)
    (child_log : Nat → Walk → List Access) (B : Nat)
    (hchild : ∀ e w, visits (child_log e w) ≤ B) (k : Nat) (s : Scan) :
    visits (entry_log sb i lvl child_log k s) ≤ B := by
  unfold entry_log
  dsimp only
  split
  · exact Nat.zero_le _
  · split
    · exact Nat.zero_le _
    · rw [visits_append, visits_note_block_log, Nat.zero_add]
      exact hchild _ _

/-- The scan of a block makes one visit and at most 1024 times the visits of the
treatment of an entry. -/
theorem scan_block_log_visits (sb : Buf) (i : Nat) (lvl : Level) (child : Nat → Walk → Walk)
    (child_log : Nat → Walk → List Access) (B : Nat)
    (hchild : ∀ e w, visits (child_log e w) ≤ B) (blk : Nat) (w : Walk) :
    visits (scan_block_log sb i lvl child child_log blk w) ≤ 1 + 1024 * B := by
  unfold scan_block_log
  dsimp only
  rw [visits_append]
  have h1 : visits [Access.visit blk] = 1 := rfl
  rw [h1]
  exact Nat.add_le_add_left (loop_log_visits (BLOCK_SIZE / 4) _ _ _ B
    (fun k _ => entry_log_visits sb i lvl child_log B hchild k _)) 1

theorem direct_log_visits (sb : Buf) (i j : Nat) (w : Walk) :
    visits (direct_log sb i j w) ≤ 0 := by
  unfold direct_log
  dsimp only
  split
  · exact Nat.le_refl _
  · split
    · exact Nat.le_refl _
    · rw [visits_note_block_log]

theorem no_child_log_visits : ∀ (e : Nat) (w : Walk), visits (no_child_log e w) ≤ 0 :=
  fun _ _ => Nat.le_refl 0

theorem single_indirect_log_visits (sb : Buf) (i : Nat) (w : Walk) :
    visits (single_indirect_log sb i w) ≤ 1 := by
  unfold single_indirect_log
  dsimp only
  split
  · split
    · exact Nat.zero_le _
    · rw [visits_append, visits_note_block_log, Nat.zero_add]
      have := scan_block_log_visits sb i Level.single_entry no_child no_child_log 0
        no_child_log_visits (get32 w.inodes (off_single i))
        (note_block sb i Level.single_ptr (get32 w.inodes (off_single i)) w)
      omega
  · exact Nat.zero_le _

theorem double_indirect_log_visits (sb : Buf) (i : Nat) (w : Walk) :
    visits (double_indirect_log sb i w) ≤ 1 + 1024 := by
  unfold double_indirect_log
  dsimp only
  split
  · split
    · exact Nat.zero_le _
    · rw [visits_append, visits_note_block_log, Nat.zero_add]
      have := scan_block_log_visits sb i Level.double_l1
        (scan_block sb i Level.double_l2 no_child)
        (scan_block_log sb i Level.double_l2 no_child no_child_log) 1
        (fun e t => by
          have := scan_block_log_visits sb i Level.double_l2 no_child no_child_log 0
            no_child_log_visits e t
          omega)
        (get32 w.inodes (off_double i))
        (note_block sb i Level.double_ptr (get32 w.inodes (off_double i)) w)
      omega
  · exact Nat.zero_le _

theorem triple_indirect_log_visits (sb : Buf) (i : Nat) (w : Walk) :
    visits (triple_indirect_log sb i w) ≤ 1 + 1024 + 1024 * 1024 := by
  unfold triple_indirect_log
  dsimp only
  split
  · split
    · exact Nat.zero_le _
    · rw [visits_append, visits_note_block_log, Nat.zero_add]
      have := scan_block_log_visits sb i Level.triple_l1
        (scan_block sb i Level.triple_l2 (scan_block sb i Level.triple_l3 no_child))
        (scan_block_log sb i Level.triple_l2 (scan_block sb i Level.triple_l3 no_child)
          (scan_block_log sb i Level.triple_l3 no_child no_child_log)) (1 + 1024)
        (fun e t => by
          have := scan_block_log_visits sb i Level.triple_l2
            (scan_block sb i Level.triple_l3 no_child)
            (scan_block_log sb i Level.triple_l3 no_child no_child_log) 1
            (fun e2 t2 => by
              have := scan_block_log_visits sb i Level.triple_l3 no_child no_child_log 0
                no_child_log_visits e2 t2
              omega) e t
          omega)
        (get32 w.inodes (off_triple i))
        (note_block sb i Level.triple_ptr (get32 w.inodes (off_triple i)) w)
      omega
  · exact Nat.zero_le _

/-- The walk over `n` inodes visits at most `3 + 2 * 1024 + 1024 * 1024` blocks for
each inode, whatever the image holds. -/
theorem walk_log_visits (sb : Buf) (n : Nat) (w : Walk) :
    visits (walk_log sb n w) ≤ n * (3 + 2 * 1024 + 1024 * 1024) := by
  unfold walk_log
  apply loop_log_visits
  intro i _
  unfold inode_log
  split
  · exact Nat.zero_le _
  · dsimp only
    rw [visits_append, visits_append, visits_append]
    have h0 := loop_log_visits 12 (direct_step sb i) (direct_log sb i)
      (for_loop i (inode_step sb) w) 0 (fun j _ => direct_log_visits sb i j _)
    have h1 := single_indirect_log_visits sb i
      (for_loop 12 (direct_step sb i) (for_loop i (inode_step sb) w))
    have h2 := double_indirect_log_visits sb i
      (single_indirect sb i (for_loop 12 (direct_step sb i) (for_loop i (inode_step sb) w)))
    have h3 := triple_indirect_log_visits sb i
      (double_indirect sb i (single_indirect sb i
        (for_loop 12 (direct_step sb i) (for_loop i (inode_step sb) w))))
    omega

theorem img_cycle_done : main img_cycle = Outcome.done (run_done img_cycle) :=
  main_completes img_cycle (by decide)

/-- Claim C16.  The walk terminates on every 64-block image: the run returns its
final state, and the walk has visited at most `3 + 2 * 1024 + 1024 * 1024`
indirection blocks for each of the at most 80 inodes (one under the single, at
most `1 + 1024` under the double and `1 + 1024 + 1024 * 1024` under the triple
indirect pointer), whatever the blocks hold and so also when a block points
back to itself or to one of its ancestors. -/
theorem walk_terminates (img : File) (hsz : TOTAL_BLOCKS * BLOCK_SIZE ≤ img.size) :
    main img = Outcome.done (run_done img) ∧
    visits (walk_log (sb_of img) (sb_inode_count (sb_of img)) (walk_start img)) ≤
      sb_inode_count (sb_of img) * (3 + 2 * 1024 + 1024 * 1024) ∧
    visits (walk_log (sb_of img) (sb_inode_count (sb_of img)) (walk_start img)) ≤
      80 * (3 + 2 * 1024 + 1024 * 1024) := by
  have hv := walk_log_visits (sb_of img) (sb_inode_count (sb_of img)) (walk_start img)
  exact ⟨main_completes img hsz, hv,
    Nat.le_trans hv (Nat.mul_le_mul_right _ (sb_of_count_le img))⟩

set_option maxRecDepth 100000 in
/-- Claim C16, at `img_cycle`: the triple indirect pointer of inode 0 is block 10
and entry 0 of block 10 is 10 itself; the run returns and the walk has made at
most `3 + 2 * 1024 + 1024 * 1024` visits for its one inode. -/
theorem walk_terminates_witness :
    TOTAL_BLOCKS * BLOCK_SIZE ≤ img_cycle.size ∧
    get32 (fread_buf img_cycle (BLOCK_SIZE * INODE_TABLE_START)) (off_triple 0) = 10 ∧
    get32 img_cycle.data (10 * BLOCK_SIZE) = 10 ∧
    main img_cycle = Outcome.done (run_done img_cycle) ∧
    visits (walk_log (sb_of img_cycle) (sb_inode_count (sb_of img_cycle))
      (walk_start img_cycle)) ≤ sb_inode_count (sb_of img_cycle) * (3 + 2 * 1024 + 1024 * 1024) ∧
    sb_inode_count (sb_of img_cycle) = 1 :=
  have h := walk_terminates img_cycle (by decide)
  ⟨by decide, by with_unfolding_all decide, by with_unfolding_all decide, h.1, h.2.1,
    by with_unfolding_all decide⟩

/-! ## The helper laws at concrete inputs -/

/-- Claim C13, at concrete inputs: in a buffer whose byte 1 is `0b100`, bit 10 is
set; setting bit 9 sets it and leaves bit 10 set, clearing bit 10 clears it. -/
theorem bitmap_view_laws_witness :
    is_bit_set (bytes_of [(1, 4)]) 10 = 4 / 2 ^ 2 % 2 ∧
    is_bit_set (set_bit (bytes_of [(1, 4)]) 9) 9 = 1 ∧
    is_bit_set (set_bit (bytes_of [(1, 4)]) 9) 10 = is_bit_set (bytes_of [(1, 4)]) 10 ∧
    is_bit_set (clear_bit (bytes_of [(1, 4)]) 10) 10 = 0 :=
  ⟨(bitmap_view_laws (bytes_of [(1, 4)]) 10 10).1,
    (bitmap_view_laws (bytes_of [(1, 4)]) 9 10).2.1,
    ((bitmap_view_laws (bytes_of [(1, 4)]) 9 10).2.2.2 (by decide)).1,
    (bitmap_view_laws (bytes_of [(1, 4)]) 10 10).2.2.1⟩

/-- Claim C15, at concrete inputs: an observed `inode_count` of 200 is clamped to
80, an observed `inode_count` of 7 is kept. -/
theorem inode_count_clamp_witness :
    sb_inode_count (bytes_of [(30, 200)]) = 200 ∧
    sb_inode_count (validate_superblock (bytes_of [(30, 200)])).sb = 80 ∧
    sb_inode_count (bytes_of [(30, 7)]) = 7 ∧
    sb_inode_count (validate_superblock (bytes_of [(30, 7)])).sb = 7 :=
  ⟨by decide,
    (inode_count_clamp (bytes_of [(30, 200)])).2.2.2.trans (by decide),
    by decide,
    (inode_count_clamp (bytes_of [(30, 7)])).2.2.2.trans (by decide)⟩

/-! ## The dirty flag of the superblock -/

theorem check_field32_byte (f : SbField) (off expected : Nat) (s : SbState) (o : Nat)
    (h : o < off ∨ off + 4 ≤ o) : (check_field32 f off expected s).sb o = s.sb o := by
  unfold check_field32
  split
  · rcases h with h | h
    · exact set32_apply_of_lt _ _ _ _ h
    · exact set32_apply_of_ge _ _ _ _ h
  · rfl

theorem check_magic_byte (s : SbState) (o : Nat) (h : 2 ≤ o) : (check_magic s).sb o = s.sb o := by
  unfold check_magic
  split
  · exact set16_apply_of_ge _ _ _ _ h
  · rfl

theorem check_inode_count_byte (s : SbState) (o : Nat) (h : o < 30 ∨ 34 ≤ o) :
    (check_inode_count s).sb o = s.sb o := by
  unfold check_inode_count
  split
  · rcases h with h | h
    · exact set32_apply_of_lt _ _ _ _ h
    · exact set32_apply_of_ge _ _ _ _ h
  · rfl

/-- The validation changes no byte of the record from offset 34 on (`reserved`). -/
theorem validate_reserved (sb : Buf) (o : Nat) (h : 34 ≤ o) :
    (validate_superblock sb).sb o = sb o := by
  unfold validate_superblock
  dsimp only
  rw [check_inode_count_byte _ _ (Or.inr h),
    check_field32_byte _ _ _ _ _ (Or.inr (by omega)),
    check_field32_byte _ _ _ _ _ (Or.inr (by omega)),
    check_field32_byte _ _ _ _ _ (Or.inr (by omega)),
    check_field32_byte _ _ _ _ _ (Or.inr (by omega)),
    check_field32_byte _ _ _ _ _ (Or.inr (by omega)),
    check_field32_byte _ _ _ _ _ (Or.inr (by omega)),
    check_field32_byte _ _ _ _ _ (Or.inr (by omega)),
    check_magic_byte _ _ (by omega)]

/-- Claim C23.  For every superblock record read, the flag `super_errors` is set
by the validation if and only if the validated record differs from the record
read in at least one of the nine fields; validating a validated record patches
nothing, sets no flag and prints no error line; no byte of `reserved` (offsets 34
and beyond) is changed; and for every image the superblock is written back and
"Superblock errors fixed." is printed when the flag is set, while the file is
left as it is and "Superblock validated successfully." is the only line printed
when it is clear, as it is on every image that holds a validated record. -/
theorem superblock_dirty_flag (sb : Buf) :
    ((validate_superblock sb).super_errors = true ↔
      (sb_magic (validate_superblock sb).sb ≠ sb_magic sb ∨
        sb_block_size (validate_superblock sb).sb ≠ sb_block_size sb ∨
        sb_total_blocks (validate_superblock sb).sb ≠ sb_total_blocks sb ∨
        sb_inode_bitmap_block (validate_superblock sb).sb ≠ sb_inode_bitmap_block sb ∨
        sb_data_bitmap_block (validate_superblock sb).sb ≠ sb_data_bitmap_block sb ∨
        sb_inode_table_start (validate_superblock sb).sb ≠ sb_inode_table_start sb ∨
        sb_first_data_block (validate_superblock sb).sb ≠ sb_first_data_block sb ∨
        sb_inode_size (validate_superblock sb).sb ≠ sb_inode_size sb ∨
        sb_inode_count (validate_superblock sb).sb ≠ sb_inode_count sb)) ∧
    validate_superblock (validate_superblock sb).sb =
      { sb := (validate_superblock sb).sb, super_errors := false, out := [] } ∧
    (∀ o, 34 ≤ o → (validate_superblock sb).sb o = sb o) ∧
    (∀ img : File, fread_buf img (BLOCK_SIZE * SUPERBLOCK_BLOCK) = sb →
      ((validate_superblock sb).super_errors = true →
        fp_after_sb img =
            fwrite img (BLOCK_SIZE * SUPERBLOCK_BLOCK) sizeof_Superblock
              (validate_superblock sb).sb ∧
          out_after_sb img = (validate_superblock sb).out ++ [Line.superblock_fixed]) ∧
      ((validate_superblock sb).super_errors = false →
        fp_after_sb img = img ∧ out_after_sb img = [Line.superblock_ok])) ∧
    (∀ img : File, fread_buf img (BLOCK_SIZE * SUPERBLOCK_BLOCK) = (validate_superblock sb).sb →
      fp_after_sb img = img ∧ out_after_sb img = [Line.superblock_ok]) := by
  refine ⟨⟨?_, ?_⟩, validate_of_canonical _ (validate_canonical sb), validate_reserved sb, ?_,
    ?_⟩
  · intro hflag
    by_contra hsame
    simp only [not_or, not_not] at hsame
    obtain ⟨e1, e2, e3, e4, e5, e6, e7, e8, e9⟩ := hsame
    obtain ⟨c1, c2, c3, c4, c5, c6, c7, c8, c9⟩ := validate_canonical sb
    have hc : Canonical sb :=
      ⟨e1 ▸ c1, e2 ▸ c2, e3 ▸ c3, e4 ▸ c4, e5 ▸ c5, e6 ▸ c6, e7 ▸ c7, e8 ▸ c8, e9 ▸ c9⟩
    rw [validate_of_canonical sb hc] at hflag
    exact Bool.noConfusion hflag
  · intro hdiff
    by_contra hflag
    have hf : (validate_superblock sb).super_errors = false := by simpa using hflag
    have hsb := (validate_clean sb hf).1
    rw [hsb] at hdiff
    simp at hdiff
  · intro img himg
    constructor
    · intro hflag
      unfold fp_after_sb out_after_sb sb_of
      rw [himg, if_pos hflag, if_pos hflag]
      exact ⟨rfl, rfl⟩
    · intro hflag
      unfold fp_after_sb out_after_sb sb_of
      rw [himg, hflag, (validate_clean sb hflag).2]
      exact ⟨rfl, rfl⟩
  · intro img himg
    unfold fp_after_sb out_after_sb sb_of
    rw [himg, validate_of_canonical _ (validate_canonical sb)]
    exact ⟨rfl, rfl⟩

/-- Claim C23, at concrete records: the record of `img_damaged` (magic 0) gets the
flag, and its magic differs after validation; the record of `img_clean` does
not. -/
theorem superblock_dirty_flag_witness :
    (validate_superblock (fread_buf img_damaged 0)).super_errors = true ∧
    sb_magic (validate_superblock (fread_buf img_damaged 0)).sb ≠
      sb_magic (fread_buf img_damaged 0) ∧
    (validate_superblock (fread_buf img_clean 0)).super_errors = false ∧
    fp_after_sb img_clean = img_clean ∧ out_after_sb img_clean = [Line.superblock_ok] :=
  ⟨by with_unfolding_all decide, by with_unfolding_all decide, by with_unfolding_all decide,
    (((superblock_dirty_flag (fread_buf img_clean 0)).2.2.2.1 img_clean rfl).2
      (by with_unfolding_all decide)).1,
    (((superblock_dirty_flag (fread_buf img_clean 0)).2.2.2.1 img_clean rfl).2
      (by with_unfolding_all decide)).2⟩

/-! ## The frame of the inode bitmap -/

/-- The inode bitmap loop sets its flag exactly when one of the bits it tests
disagrees with the liveness of its inode. -/
theorem check_inode_bitmap_errors (inodes bm : Buf) (n : Nat) (out : List Line) :
    (check_inode_bitmap inodes bm n out).inode_bitmap_errors = true ↔
      ∃ i, i < n ∧ is_bit_set bm i ≠ (if valid_inode inodes i = true then 1 else 0) := by
  unfold check_inode_bitmap
  have h := for_loop_inv
    (fun k t => (∀ b, k ≤ b → is_bit_set t.inode_bitmap b = is_bit_set bm b) ∧
      (t.inode_bitmap_errors = true ↔
        ∃ i, i < k ∧ is_bit_set bm i ≠ (if valid_inode inodes i = true then 1 else 0)))
    n (inode_bitmap_step inodes)
    { inode_bitmap := bm, inode_bitmap_errors := false, out := out }
    ⟨fun _ _ => rfl, by simp⟩ ?_
  · exact h.2
  · intro k _ t ht
    have hk := ht.1 k (Nat.le_refl k)
    have hext : ∀ (P : Nat → Prop), (∃ i, i < k + 1 ∧ P i) ↔ ((∃ i, i < k ∧ P i) ∨ P k) := by
      intro P
      constructor
      · rintro ⟨i, hi, hp⟩
        by_cases e : i = k
        · exact Or.inr (e ▸ hp)
        · exact Or.inl ⟨i, by omega, hp⟩
      · rintro (⟨i, hi, hp⟩ | hp)
        · exact ⟨i, by omega, hp⟩
        · exact ⟨k, by omega, hp⟩
    rw [hext]
    unfold inode_bitmap_step
    dsimp only
    by_cases hc1 : valid_inode inodes k = true ∧ is_bit_set t.inode_bitmap k = 0
    · rw [if_pos hc1]
      dsimp only
      refine ⟨?_, ?_⟩
      · intro b hb
        rw [is_bit_set_set_bit, if_neg (by omega)]
        exact ht.1 b (by omega)
      · refine ⟨fun _ => Or.inr ?_, fun _ => rfl⟩
        rw [← hk, hc1.2, if_pos hc1.1]
        decide
    · rw [if_neg hc1]
      by_cases hc2 : valid_inode inodes k = false ∧ is_bit_set t.inode_bitmap k ≠ 0
      · rw [if_pos hc2]
        dsimp only
        refine ⟨?_, ?_⟩
        · intro b hb
          rw [is_bit_set_clear_bit, if_neg (by omega)]
          exact ht.1 b (by omega)
        · refine ⟨fun _ => Or.inr ?_, fun _ => rfl⟩
          rw [← hk, hc2.1]
          simpa using hc2.2
      · rw [if_neg hc2]
        refine ⟨fun b hb => ht.1 b (by omega), ?_⟩
        rw [ht.2]
        constructor
        · exact Or.inl
        · rintro (h1 | h1)
          · exact h1
          · exfalso
            rw [← hk] at h1
            rcases is_bit_set_cases t.inode_bitmap k with h0 | h0
            · by_cases hv : valid_inode inodes k = true
              · exact hc1 ⟨hv, h0⟩
              · rw [if_neg hv] at h1; exact h1 h0
            · by_cases hv : valid_inode inodes k = true
              · rw [if_pos hv] at h1; exact h1 h0
              · exact hc2 ⟨by simpa using hv, by rw [h0]; decide⟩

/-- The inode bitmap block of the image after a completed run holds the bitmap the
inode bitmap loop left. -/
theorem done_inode_bitmap_block (img : File) (d : Done) (h : main img = Outcome.done d)
    (o : Nat) (ho : o < 4096) :
    fread_buf d.fp (BLOCK_SIZE * INODE_BITMAP_BLOCK) o = (inode_bitmap_end img).inode_bitmap o := by
  obtain ⟨s1, s2, s3, s4⟩ := done_sizes img d h
  show d.fp.data (BLOCK_SIZE * INODE_BITMAP_BLOCK + o) = _
  rw [show BLOCK_SIZE * INODE_BITMAP_BLOCK + o = 4096 + o from by
      rw [BLOCK_SIZE_eq]; rfl,
    (main_done img d h).1, run_done_fp_low img (by omega) _ (by omega),
    walk_start_fp_block1 img _ ho]

/-- A buffer read behind the superblock record is not affected by its write-back. -/
theorem fread_buf_after_sb (img : File) (off : Nat) (h : 4092 ≤ off) :
    fread_buf (fp_after_sb img) off = fread_buf img off := by
  funext o
  unfold fread_buf
  exact fp_after_sb_data_high img _ (by omega)

/-- The buffers the inode bitmap loop works on are the blocks of the image. -/
theorem inode_bitmap_end_eq (img : File) :
    inode_bitmap_end img =
      check_inode_bitmap (fread_buf img (BLOCK_SIZE * INODE_TABLE_START))
        (fread_buf img (BLOCK_SIZE * INODE_BITMAP_BLOCK)) (sb_inode_count (sb_of img))
        (out_after_sb img) := by
  unfold inode_bitmap_end
  rw [sb_of_inode_table_start, sb_of_inode_bitmap_block,
    fread_buf_after_sb img (BLOCK_SIZE * 3) (by decide),
    fread_buf_after_sb img (BLOCK_SIZE * 1) (by decide)]
  rfl

/-- Claim C24.  After a completed run, with `n` the clamped `inode_count`: every
bit of the inode bitmap block at an index from `n` on is as in the image given;
a bit `i < n` that differs from the bit given disagreed with the liveness of
inode `i` and now agrees with it; the flag `inode_bitmap_errors` is set if and
only if some bit below `n` changed, and the file the walk starts from is the file
with the block written back when the flag is set, the file as it was otherwise. -/
theorem inode_bitmap_frame (img : File) (d : Done) (h : main img = Outcome.done d) :
    (∀ b, d.inode_count ≤ b → b < 8 * BLOCK_SIZE →
      is_bit_set (fread_buf d.fp (BLOCK_SIZE * INODE_BITMAP_BLOCK)) b =
        is_bit_set (fread_buf img (BLOCK_SIZE * INODE_BITMAP_BLOCK)) b) ∧
    (∀ i, i < d.inode_count →
      is_bit_set (fread_buf d.fp (BLOCK_SIZE * INODE_BITMAP_BLOCK)) i ≠
        is_bit_set (fread_buf img (BLOCK_SIZE * INODE_BITMAP_BLOCK)) i →
      is_bit_set (fread_buf img (BLOCK_SIZE * INODE_BITMAP_BLOCK)) i ≠
          (if valid_inode (fread_buf img (BLOCK_SIZE * INODE_TABLE_START)) i = true
            then 1 else 0) ∧
        is_bit_set (fread_buf d.fp (BLOCK_SIZE * INODE_BITMAP_BLOCK)) i =
          (if valid_inode (fread_buf img (BLOCK_SIZE * INODE_TABLE_START)) i = true
            then 1 else 0)) ∧
    ((inode_bitmap_end img).inode_bitmap_errors = true ↔
      ∃ i, i < d.inode_count ∧
        is_bit_set (fread_buf d.fp (BLOCK_SIZE * INODE_BITMAP_BLOCK)) i ≠
          is_bit_set (fread_buf img (BLOCK_SIZE * INODE_BITMAP_BLOCK)) i) ∧
    (walk_start img).fp =
      (if (inode_bitmap_end img).inode_bitmap_errors = true then
        fwrite (fp_after_sb img) (BLOCK_SIZE * INODE_BITMAP_BLOCK) BLOCK_SIZE
          (inode_bitmap_end img).inode_bitmap
      else fp_after_sb img) := by
  have hd := (main_done img d h).1
  have hn : d.inode_count = sb_inode_count (sb_of img) := by rw [hd, run_done_inode_count]
  have hbit : ∀ b, b < 8 * BLOCK_SIZE →
      is_bit_set (fread_buf d.fp (BLOCK_SIZE * INODE_BITMAP_BLOCK)) b =
        if b < d.inode_count then
          (if valid_inode (fread_buf img (BLOCK_SIZE * INODE_TABLE_START)) b = true then 1 else 0)
        else is_bit_set (fread_buf img (BLOCK_SIZE * INODE_BITMAP_BLOCK)) b := by
    intro b hb
    rw [BLOCK_SIZE_eq] at hb
    rw [is_bit_set_congr _ _ b (done_inode_bitmap_block img d h (b / 8) (by omega)),
      inode_bitmap_end_eq, check_inode_bitmap_bits, hn]
  have h80 := sb_of_count_le img
  refine ⟨?_, ?_, ?_, ?_⟩
  · intro b hb1 hb2
    rw [hbit b hb2, if_neg (by omega)]
  · intro i hi hne
    have hb := hbit i (by rw [BLOCK_SIZE_eq]; omega)
    rw [if_pos hi] at hb
    exact ⟨fun e => hne (by rw [hb, e]), hb⟩
  · rw [inode_bitmap_end_eq, check_inode_bitmap_errors, hn]
    constructor
    · rintro ⟨i, hi, hne⟩
      refine ⟨i, hi, ?_⟩
      rw [hbit i (by rw [BLOCK_SIZE_eq]; omega), if_pos (by omega)]
      exact fun e => hne e.symm
    · rintro ⟨i, hi, hne⟩
      refine ⟨i, hi, ?_⟩
      rw [hbit i (by rw [BLOCK_SIZE_eq]; omega), if_pos (by omega)] at hne
      exact fun e => hne e.symm
  · exact walk_start_fp img

/-! ## A bad indirection pointer loses its subtree -/

/-- What `clear_pointer` changes: the report, the field and the flag. -/
theorem clear_pointer_frame (i : Nat) (lvl : Level) (off p : Nat) (w : Walk) :
    (clear_pointer i lvl off p w).fp = w.fp ∧
    (clear_pointer i lvl off p w).block_refs = w.block_refs ∧
    (clear_pointer i lvl off p w).data_bitmap = w.data_bitmap ∧
    get32 (clear_pointer i lvl off p w).inodes off = 0 ∧
    (clear_pointer i lvl off p w).out = w.out ++ [Line.bad_block i lvl p] :=
  ⟨rfl, rfl, rfl, get32_set32_same _ _ _ (by norm_num), rfl⟩

/-- After the scan of block `blk`, each entry that was bad in the buffer read is
zero in the block as written back. -/
theorem scan_block_entry_zero (sb : Buf) (i : Nat) (lvl : Level) (child : Nat → Walk → Walk)
    (blk : Nat) (w : Walk) (k : Nat) (hk : k < BLOCK_SIZE / 4)
    (hbad : bad_ptr sb (get32 (fread_buf w.fp (blk * BLOCK_SIZE)) (4 * k)) = true) :
    get32 (fread_buf (scan_block sb i lvl child blk w).fp (blk * BLOCK_SIZE)) (4 * k) = 0 := by
  have hk2 : k < 1024 := by rw [BLOCK_SIZE_eq] at hk; omega
  have hfp : (if fread_items w.fp (blk * BLOCK_SIZE) 4 (BLOCK_SIZE / 4) ≠ BLOCK_SIZE / 4 then
      { w with out := w.out ++ [Line.read_error i lvl] } else w).fp = w.fp := by
    split <;> rfl
  have hz : ∀ t, t < 4 →
      fread_buf (scan_block sb i lvl child blk w).fp (blk * BLOCK_SIZE) (4 * k + t) = 0 := by
    intro t ht
    unfold scan_block
    simp only []
    rw [scan_buf]
    simp only [hfp]
    unfold fread_buf
    rw [fwrite_block_same _ _ _ _ (by rw [BLOCK_SIZE_eq]; omega)]
    unfold clean_upto
    rw [if_pos]
    refine ⟨by rw [BLOCK_SIZE_eq]; omega, ?_⟩
    rw [show 4 * k + t - (4 * k + t) % 4 = 4 * k by omega]
    exact hbad
  unfold get32
  have hz0 := hz 0 (by omega)
  rw [Nat.add_zero] at hz0
  rw [hz0, hz 1 (by omega), hz 2 (by omega), hz 3 (by omega)]
/-- Claim C21.  For every inode `i` and walk state: when the single, double or
triple indirect pointer of the inode is non-zero and out of range, its handler
does what `clear_pointer` does and nothing else (it reports, zeroes the field
and sets `bad_block_errors`; the image file, the counters and the data bitmap
are unchanged) and it accesses nothing, visiting no block; an entry of an
indirection block that is non-zero and out of range is zeroed in the buffer, the
rest of the state changes in the report and the flag only, nothing is accessed
and the code for the designated block is not run, and the entry is zero in the
block as written back.  In a completed run, such a pointer of a live inode is
zero in the inode table of the resulting image, the block it designates is never
visited by the walk, and no reference is counted for it. -/
theorem bad_indirect_pointer_loses_subtree (sb : Buf) (i : Nat) :
    (∀ w : Walk, get32 w.inodes (off_single i) ≠ 0 →
      out_of_range sb (get32 w.inodes (off_single i)) = true →
      single_indirect sb i w =
          clear_pointer i Level.single_ptr (off_single i) (get32 w.inodes (off_single i)) w ∧
        single_indirect_log sb i w = []) ∧
    (∀ w : Walk, get32 w.inodes (off_double i) ≠ 0 →
      out_of_range sb (get32 w.inodes (off_double i)) = true →
      double_indirect sb i w =
          clear_pointer i Level.double_ptr (off_double i) (get32 w.inodes (off_double i)) w ∧
        double_indirect_log sb i w = []) ∧
    (∀ w : Walk, get32 w.inodes (off_triple i) ≠ 0 →
      out_of_range sb (get32 w.inodes (off_triple i)) = true →
      triple_indirect sb i w =
          clear_pointer i Level.triple_ptr (off_triple i) (get32 w.inodes (off_triple i)) w ∧
        triple_indirect_log sb i w = []) ∧
    (∀ (lvl : Level) (off p : Nat) (w : Walk),
      (clear_pointer i lvl off p w).fp = w.fp ∧
      (clear_pointer i lvl off p w).block_refs = w.block_refs ∧
      (clear_pointer i lvl off p w).data_bitmap = w.data_bitmap ∧
      get32 (clear_pointer i lvl off p w).inodes off = 0 ∧
      (clear_pointer i lvl off p w).out = w.out ++ [Line.bad_block i lvl p]) ∧
    (∀ (lvl : Level) (child : Nat → Walk → Walk) (child_log : Nat → Walk → List Access)
        (k : Nat) (s : Scan),
      get32 s.buf (4 * k) ≠ 0 → out_of_range sb (get32 s.buf (4 * k)) = true →
      entry_step sb i lvl child k s =
          { buf := set32 s.buf (4 * k) 0,
            w := { s.w with
              out := s.w.out ++ [Line.bad_block i lvl (get32 s.buf (4 * k))],
              bad_block_errors := true } } ∧
        get32 (entry_step sb i lvl child k s).buf (4 * k) = 0 ∧
        entry_log sb i lvl child_log k s = []) ∧
    (∀ (lvl : Level) (child : Nat → Walk → Walk) (blk : Nat) (w : Walk) (k : Nat),
      k < BLOCK_SIZE / 4 →
      get32 (fread_buf w.fp (blk * BLOCK_SIZE)) (4 * k) ≠ 0 →
      out_of_range sb (get32 (fread_buf w.fp (blk * BLOCK_SIZE)) (4 * k)) = true →
      get32 (fread_buf (scan_block sb i lvl child blk w).fp (blk * BLOCK_SIZE)) (4 * k) = 0) ∧
    (∀ (img : File) (d : Done), main img = Outcome.done d → i < d.inode_count →
      valid_inode (fread_buf img (BLOCK_SIZE * INODE_TABLE_START)) i = true →
      ∀ off, off = off_single i ∨ off = off_double i ∨ off = off_triple i →
      get32 (fread_buf img (BLOCK_SIZE * INODE_TABLE_START)) off ≠ 0 →
      (get32 (fread_buf img (BLOCK_SIZE * INODE_TABLE_START)) off < 8 ∨
        64 ≤ get32 (fread_buf img (BLOCK_SIZE * INODE_TABLE_START)) off) →
      get32 (fread_buf d.fp (BLOCK_SIZE * INODE_TABLE_START)) off = 0 ∧
      Access.visit (get32 (fread_buf img (BLOCK_SIZE * INODE_TABLE_START)) off) ∉
        walk_log (sb_of img) d.inode_count (walk_start img) ∧
      d.block_refs (get32 (fread_buf img (BLOCK_SIZE * INODE_TABLE_START)) off) = 0) := by
  refine ⟨?_, ?_, ?_, fun lvl off p w => clear_pointer_frame i lvl off p w, ?_, ?_, ?_⟩
  · intro w h0 hr
    unfold single_indirect single_indirect_log
    dsimp only
    rw [if_pos h0, if_pos hr, if_pos h0, if_pos hr]
    exact ⟨rfl, rfl⟩
  · intro w h0 hr
    unfold double_indirect double_indirect_log
    dsimp only
    rw [if_pos h0, if_pos hr, if_pos h0, if_pos hr]
    exact ⟨rfl, rfl⟩
  · intro w h0 hr
    unfold triple_indirect triple_indirect_log
    dsimp only
    rw [if_pos h0, if_pos hr, if_pos h0, if_pos hr]
    exact ⟨rfl, rfl⟩
  · intro lvl child child_log k s h0 hr
    have he : entry_step sb i lvl child k s =
        { buf := set32 s.buf (4 * k) 0,
          w := { s.w with
            out := s.w.out ++ [Line.bad_block i lvl (get32 s.buf (4 * k))],
            bad_block_errors := true } } := by
      unfold entry_step
      dsimp only
      rw [if_neg h0, if_pos hr]
    refine ⟨he, ?_, ?_⟩
    · rw [he]
      exact get32_set32_same _ _ _ (by norm_num)
    · unfold entry_log
      dsimp only
      rw [if_neg h0, if_pos hr]
  · intro lvl child blk w k hk h0 hr
    exact scan_block_entry_zero sb i lvl child blk w k hk (bad_ptr_of sb _ h0 hr)
  · intro img d h hi hlive off hoff h0 hr
    have hd := (main_done img d h).1
    obtain ⟨s1, s2, s3, s4⟩ := done_sizes img d h
    have hn : d.inode_count = sb_inode_count (sb_of img) := by rw [hd, run_done_inode_count]
    have h80 := sb_of_count_le img
    have hoor : out_of_range (sb_of img)
        (get32 (fread_buf img (BLOCK_SIZE * INODE_TABLE_START)) off) = true := by
      unfold out_of_range
      rw [sb_of_first, sb_of_total]
      simp only [Bool.or_eq_true, decide_eq_true_eq]
      exact hr
    have hbad := bad_ptr_of _ _ h0 hoor
    have hptr : PtrOff i off := Or.inr hoff
    have hrange : off + 4 ≤ (i + 1) * 256 := by
      unfold off_single off_double off_triple at hoff
      rw [sizeof_Inode_eq] at hoff
      rcases hoff with rfl | rfl | rfl <;> omega
    have hcnt : (i + 1) * 256 ≤ d.inode_count * 256 := Nat.mul_le_mul_right 256 hi
    refine ⟨?_, ?_, ?_⟩
    · rw [get32_congr _ (clean_inodes (sb_of img) (fread_buf img (BLOCK_SIZE * INODE_TABLE_START)))
        off (fun t ht => by
          rw [done_table img d h (off + t) (by omega) (by omega), if_pos (by omega)]),
        get32_clean_inodes _ _ i off hptr, if_pos ⟨hlive, hbad⟩]
    · intro hmem
      rw [hn] at hmem
      have hin := walk_log_in_range (sb_of img) (sb_of_first img) (sb_of_total img) _ _ _ hmem
      have hin2 : 8 ≤ get32 (fread_buf img (BLOCK_SIZE * INODE_TABLE_START)) off ∧
          get32 (fread_buf img (BLOCK_SIZE * INODE_TABLE_START)) off < 64 := hin
      omega
    · rw [hd, run_done_block_refs]
      by_contra hne
      have h1 := (walk_end_refsMarked img _ hne).2
      rw [sb_of_first, sb_of_total] at h1
      omega
theorem img_bad_indirect_done :
    main img_bad_indirect = Outcome.done (run_done img_bad_indirect) :=
  main_of_reads img_bad_indirect (by with_unfolding_all decide) (by with_unfolding_all decide)
    (by with_unfolding_all decide) (by with_unfolding_all decide)

set_option maxRecDepth 100000 in
/-- Claim C21, at `img_bad_indirect`: the double indirect pointer of the live inode
0 is 3 (the first block of the inode table); after the run the field is 0 in the
image, block 3 was not visited and nothing is counted for it. -/
theorem bad_indirect_pointer_loses_subtree_witness :
    main img_bad_indirect = Outcome.done (run_done img_bad_indirect) ∧
    valid_inode (fread_buf img_bad_indirect (BLOCK_SIZE * INODE_TABLE_START)) 0 = true ∧
    get32 (fread_buf img_bad_indirect (BLOCK_SIZE * INODE_TABLE_START)) (off_double 0) = 3 ∧
    get32 (fread_buf (run_done img_bad_indirect).fp (BLOCK_SIZE * INODE_TABLE_START))
      (off_double 0) = 0 ∧
    Access.visit 3 ∉ walk_log (sb_of img_bad_indirect) (run_done img_bad_indirect).inode_count
      (walk_start img_bad_indirect) ∧
    (run_done img_bad_indirect).block_refs 3 = 0 :=
  have e : get32 (fread_buf img_bad_indirect (BLOCK_SIZE * INODE_TABLE_START)) (off_double 0) = 3 :=
    by with_unfolding_all decide
  have h := (bad_indirect_pointer_loses_subtree (sb_of img_bad_indirect) 0).2.2.2.2.2.2
    img_bad_indirect _ img_bad_indirect_done (by with_unfolding_all decide)
    (by with_unfolding_all decide) (off_double 0) (Or.inr (Or.inl rfl))
    (by with_unfolding_all decide) (by with_unfolding_all decide)
  ⟨img_bad_indirect_done, by with_unfolding_all decide, e, h.1, e ▸ h.2.1, e ▸ h.2.2⟩
set_option maxRecDepth 100000 in
/-- Claim C24, at `img_damaged`: inode 0 is live and its bit is clear in the image;
the flag is set and a bit below `inode_count` differs after the run. -/
theorem inode_bitmap_frame_witness :
    main img_damaged = Outcome.done (run_done img_damaged) ∧
    (inode_bitmap_end img_damaged).inode_bitmap_errors = true ∧
    ∃ i, i < (run_done img_damaged).inode_count ∧
      is_bit_set (fread_buf (run_done img_damaged).fp (BLOCK_SIZE * INODE_BITMAP_BLOCK)) i ≠
        is_bit_set (fread_buf img_damaged (BLOCK_SIZE * INODE_BITMAP_BLOCK)) i :=
  ⟨img_damaged_done, by with_unfolding_all decide,
    (inode_bitmap_frame img_damaged _ img_damaged_done).2.2.1.mp (by with_unfolding_all decide)⟩

/-! ## Independence from the report and from the layout fields observed -/

/-- Two runs of a loop whose bodies keep a relation between the two states end in
related states. -/
theorem for_loop_rel {σ τ : Type} (R : σ → τ → Prop) (n : Nat) (f : Nat → σ → σ)
    (g : Nat → τ → τ) (s : σ) (t : τ) (h0 : R s t)
    (hstep : ∀ k, k < n → ∀ s t, R s t → R (f k s) (g k t)) :
    R (for_loop n f s) (for_loop n g t) := by
  induction n with
  | zero => rw [for_loop_zero, for_loop_zero]; exact h0
  | succ m ih =>
    rw [for_loop_succ, for_loop_succ]
    exact hstep m (Nat.lt_succ_self m) _ _ (ih (fun k hk => hstep k (Nat.lt_succ_of_lt hk)))

theorem SameButOut.of_eq (w t : Walk) (h : SameButOut w t) :
    t = { w with out := t.out } := by
  obtain ⟨h1, h2, h3, h4, h5⟩ := h
  cases w; cases t
  simp only [Walk.mk.injEq] at *
  exact ⟨h1, h2, h3, h4, h5, trivial⟩

theorem sameButOut_refl_out (w : Walk) (o : List Line) : SameButOut w { w with out := o } :=
  ⟨rfl, rfl, rfl, rfl, rfl⟩

theorem note_block_same (sb : Buf) (i : Nat) (lvl : Level) (b : Nat) (w t : Walk)
    (h : SameButOut w t) : SameButOut (note_block sb i lvl b w) (note_block sb i lvl b t) := by
  rw [SameButOut.of_eq w t h]
  unfold note_block
  dsimp only
  split <;> exact ⟨rfl, rfl, rfl, rfl, rfl⟩

theorem clear_pointer_same (i : Nat) (lvl : Level) (off p : Nat) (w t : Walk)
    (h : SameButOut w t) :
    SameButOut (clear_pointer i lvl off p w) (clear_pointer i lvl off p t) := by
  rw [SameButOut.of_eq w t h]
  exact ⟨rfl, rfl, rfl, rfl, rfl⟩

theorem direct_step_same (sb : Buf) (i j : Nat) (w t : Walk) (h : SameButOut w t) :
    SameButOut (direct_step sb i j w) (direct_step sb i j t) := by
  unfold direct_step
  dsimp only
  rw [h.2.1]
  split
  · exact h
  · split
    · exact clear_pointer_same _ _ _ _ _ _ h
    · exact note_block_same _ _ _ _ _ _ h

theorem entry_step_same (sb : Buf) (i : Nat) (lvl : Level) (child : Nat → Walk → Walk)
    (hchild : ∀ e w t, SameButOut w t → SameButOut (child e w) (child e t))
    (k : Nat) (s u : Scan) (h : u.buf = s.buf ∧ SameButOut s.w u.w) :
    (entry_step sb i lvl child k u).buf = (entry_step sb i lvl child k s).buf ∧
      SameButOut (entry_step sb i lvl child k s).w (entry_step sb i lvl child k u).w := by
  unfold entry_step
  dsimp only
  rw [h.1]
  split
  · exact h
  · split
    · exact ⟨rfl, h.2.1, h.2.2.1, h.2.2.2.1, h.2.2.2.2.1, rfl⟩
    · exact ⟨rfl, hchild _ _ _ (note_block_same _ _ _ _ _ _ h.2)⟩

theorem scan_write_same (s u : Scan) (off n : Nat)
    (h : u.buf = s.buf ∧ SameButOut s.w u.w) :
    SameButOut { s.w with fp := fwrite s.w.fp off n s.buf }
      { u.w with fp := fwrite u.w.fp off n u.buf } := by
  obtain ⟨hb, h1, h2, h3, h4, h5⟩ := h
  exact ⟨by dsimp only; rw [hb, h1], h2, h3, h4, h5⟩

theorem scan_block_same (sb : Buf) (i : Nat) (lvl : Level) (child : Nat → Walk → Walk)
    (hchild : ∀ e w t, SameButOut w t → SameButOut (child e w) (child e t))
    (blk : Nat) (w t : Walk) (h : SameButOut w t) :
    SameButOut (scan_block sb i lvl child blk w) (scan_block sb i lvl child blk t) := by
  unfold scan_block
  simp only []
  have hstart : SameButOut
      (if fread_items w.fp (blk * BLOCK_SIZE) 4 (BLOCK_SIZE / 4) ≠ BLOCK_SIZE / 4 then
        { w with out := w.out ++ [Line.read_error i lvl] } else w)
      (if fread_items t.fp (blk * BLOCK_SIZE) 4 (BLOCK_SIZE / 4) ≠ BLOCK_SIZE / 4 then
        { t with out := t.out ++ [Line.read_error i lvl] } else t) := by
    rw [h.1]
    split
    · exact ⟨rfl, h.2.1, h.2.2.1, h.2.2.2.1, h.2.2.2.2⟩
    · exact h
  have hloop := for_loop_rel
    (fun (s u : Scan) => u.buf = s.buf ∧ SameButOut s.w u.w) (BLOCK_SIZE / 4)
    (entry_step sb i lvl child) (entry_step sb i lvl child)
    { buf := fread_buf (if fread_items w.fp (blk * BLOCK_SIZE) 4 (BLOCK_SIZE / 4) ≠ BLOCK_SIZE / 4
        then { w with out := w.out ++ [Line.read_error i lvl] } else w).fp (blk * BLOCK_SIZE),
      w := (if fread_items w.fp (blk * BLOCK_SIZE) 4 (BLOCK_SIZE / 4) ≠ BLOCK_SIZE / 4 then
        { w with out := w.out ++ [Line.read_error i lvl] } else w) }
    { buf := fread_buf (if fread_items t.fp (blk * BLOCK_SIZE) 4 (BLOCK_SIZE / 4) ≠ BLOCK_SIZE / 4
        then { t with out := t.out ++ [Line.read_error i lvl] } else t).fp (blk * BLOCK_SIZE),
      w := (if fread_items t.fp (blk * BLOCK_SIZE) 4 (BLOCK_SIZE / 4) ≠ BLOCK_SIZE / 4 then
        { t with out := t.out ++ [Line.read_error i lvl] } else t) }
    ⟨by dsimp only; rw [hstart.1], hstart⟩
    (fun k _ s u hsu => entry_step_same sb i lvl child hchild k s u hsu)
  exact scan_write_same _ _ _ _ hloop

theorem no_child_same : ∀ e w t, SameButOut w t → SameButOut (no_child e w) (no_child e t) :=
  fun _ _ _ h => h

theorem single_indirect_same (sb : Buf) (i : Nat) (w t : Walk) (h : SameButOut w t) :
    SameButOut (single_indirect sb i w) (single_indirect sb i t) := by
  unfold single_indirect
  dsimp only
  rw [h.2.1]
  split
  · split
    · exact clear_pointer_same _ _ _ _ _ _ h
    · exact scan_block_same sb i _ _ no_child_same _ _ _ (note_block_same _ _ _ _ _ _ h)
  · exact h

theorem double_indirect_same (sb : Buf) (i : Nat) (w t : Walk) (h : SameButOut w t) :
    SameButOut (double_indirect sb i w) (double_indirect sb i t) := by
  unfold double_indirect
  dsimp only
  rw [h.2.1]
  split
  · split
    · exact clear_pointer_same _ _ _ _ _ _ h
    · exact scan_block_same sb i _ _
        (fun e w t hwt => scan_block_same sb i _ _ no_child_same e w t hwt) _ _ _
        (note_block_same _ _ _ _ _ _ h)
  · exact h

theorem triple_indirect_same (sb : Buf) (i : Nat) (w t : Walk) (h : SameButOut w t) :
    SameButOut (triple_indirect sb i w) (triple_indirect sb i t) := by
  unfold triple_indirect
  dsimp only
  rw [h.2.1]
  split
  · split
    · exact clear_pointer_same _ _ _ _ _ _ h
    · exact scan_block_same sb i _ _
        (fun e w t hwt => scan_block_same sb i _ _
          (fun e w t hwt => scan_block_same sb i _ _ no_child_same e w t hwt) e w t hwt) _ _ _
        (note_block_same _ _ _ _ _ _ h)
  · exact h

theorem inode_step_same (sb : Buf) (i : Nat) (w t : Walk) (h : SameButOut w t) :
    SameButOut (inode_step sb i w) (inode_step sb i t) := by
  unfold inode_step
  rw [h.2.1]
  split
  · exact h
  · dsimp only
    exact triple_indirect_same sb i _ _ (double_indirect_same sb i _ _
      (single_indirect_same sb i _ _
        (for_loop_rel SameButOut 12 (direct_step sb i) (direct_step sb i) w t h
          (fun j _ w t hwt => direct_step_same sb i j w t hwt))))

/-- The walk reads the report nowhere: from states that differ in the report only
it ends in states that differ in the report only. -/
theorem walk_inodes_same (sb : Buf) (n : Nat) (w t : Walk) (h : SameButOut w t) :
    SameButOut (walk_inodes sb n w) (walk_inodes sb n t) := by
  unfold walk_inodes
  exact for_loop_rel SameButOut n (inode_step sb) (inode_step sb) w t h
    (fun i _ w t hwt => inode_step_same sb i w t hwt)

/-- The inode bitmap loop reads the report nowhere. -/
theorem check_inode_bitmap_same (inodes bm : Buf) (n : Nat) (o1 o2 : List Line) :
    (check_inode_bitmap inodes bm n o2).inode_bitmap =
        (check_inode_bitmap inodes bm n o1).inode_bitmap ∧
      (check_inode_bitmap inodes bm n o2).inode_bitmap_errors =
        (check_inode_bitmap inodes bm n o1).inode_bitmap_errors := by
  unfold check_inode_bitmap
  refine for_loop_rel
    (fun (s u : IbState) => u.inode_bitmap = s.inode_bitmap ∧
      u.inode_bitmap_errors = s.inode_bitmap_errors) n _ _ _ _ ⟨rfl, rfl⟩ ?_
  intro k _ s u hsu
  unfold inode_bitmap_step
  dsimp only
  rw [hsu.1]
  split
  · exact ⟨rfl, rfl⟩
  · split
    · exact ⟨rfl, rfl⟩
    · exact hsu

/-- The final pass reads the report nowhere. -/
theorem data_bitmap_pass_same (refs : Nat → Int) (lo hi : Nat) (bm : Buf) (o1 o2 : List Line) :
    (for_range lo hi (data_bitmap_step refs)
        { data_bitmap := bm, data_bitmap_errors := false, out := o2 }).data_bitmap =
      (for_range lo hi (data_bitmap_step refs)
        { data_bitmap := bm, data_bitmap_errors := false, out := o1 }).data_bitmap ∧
    (for_range lo hi (data_bitmap_step refs)
        { data_bitmap := bm, data_bitmap_errors := false, out := o2 }).data_bitmap_errors =
      (for_range lo hi (data_bitmap_step refs)
        { data_bitmap := bm, data_bitmap_errors := false, out := o1 }).data_bitmap_errors := by
  unfold for_range
  refine for_loop_rel
    (fun (s u : DbState) => u.data_bitmap = s.data_bitmap ∧
      u.data_bitmap_errors = s.data_bitmap_errors) (hi - lo) _ _ _ _ ⟨rfl, rfl⟩ ?_
  intro k _ s u hsu
  unfold data_bitmap_step
  rw [hsu.1]
  split
  · split
    · exact ⟨rfl, rfl⟩
    · exact hsu
  · exact hsu
theorem check_field32_bound (f : SbField) (off expected : Nat) (s : SbState) (N : Nat)
    (h : ∀ o, o < N → s.sb o < 256) : ∀ o, o < N → (check_field32 f off expected s).sb o < 256 := by
  intro o ho
  unfold check_field32
  split
  · show set32 s.sb off expected o < 256
    unfold set32
    split_ifs
    · omega
    · omega
    · omega
    · omega
    · exact h o ho
  · exact h o ho

theorem check_magic_bound (s : SbState) (N : Nat) (h : ∀ o, o < N → s.sb o < 256) :
    ∀ o, o < N → (check_magic s).sb o < 256 := by
  intro o ho
  unfold check_magic
  split
  · show set16 s.sb 0 EXPECTED_MAGIC o < 256
    unfold set16
    split_ifs
    · omega
    · omega
    · exact h o ho
  · exact h o ho

/-- The validation leaves bytes in the first 30 bytes of the record. -/
theorem validate_low_bound (b : Buf) (hb : ∀ o, o < 30 → b o < 256) :
    ∀ o, o < 30 → (validate_superblock b).sb o < 256 := by
  intro o ho
  unfold validate_superblock
  dsimp only
  rw [check_inode_count_byte _ _ (Or.inl ho)]
  exact check_field32_bound _ _ _ _ 30 (check_field32_bound _ _ _ _ 30
    (check_field32_bound _ _ _ _ 30 (check_field32_bound _ _ _ _ 30
    (check_field32_bound _ _ _ _ 30 (check_field32_bound _ _ _ _ 30
    (check_field32_bound _ _ _ _ 30 (check_magic_bound _ 30 hb))))))) o ho

theorem get32_bytes_eq (v1 v2 : Buf) (off : Nat) (h : get32 v1 off = get32 v2 off)
    (B1 : ∀ t, t < 4 → v1 (off + t) < 256) (B2 : ∀ t, t < 4 → v2 (off + t) < 256) :
    ∀ t, t < 4 → v1 (off + t) = v2 (off + t) := by
  unfold get32 at h
  have p0 := B1 0 (by omega); have q0 := B2 0 (by omega)
  have p1 := B1 1 (by omega); have q1 := B2 1 (by omega)
  have p2 := B1 2 (by omega); have q2 := B2 2 (by omega)
  have p3 := B1 3 (by omega); have q3 := B2 3 (by omega)
  rw [Nat.add_zero] at p0 q0
  intro t ht
  interval_cases t
  · rw [Nat.add_zero]; omega
  · omega
  · omega
  · omega

theorem get16_bytes_eq (v1 v2 : Buf) (off : Nat) (h : get16 v1 off = get16 v2 off)
    (B1 : ∀ t, t < 2 → v1 (off + t) < 256) (B2 : ∀ t, t < 2 → v2 (off + t) < 256) :
    ∀ t, t < 2 → v1 (off + t) = v2 (off + t) := by
  unfold get16 at h
  have p0 := B1 0 (by omega); have q0 := B2 0 (by omega)
  have p1 := B1 1 (by omega); have q1 := B2 1 (by omega)
  rw [Nat.add_zero] at p0 q0
  intro t ht
  interval_cases t
  · rw [Nat.add_zero]; omega
  · omega

/-- Two canonical records made of bytes agree on their first 30 bytes. -/
theorem canonical_bytes_eq (v1 v2 : Buf) (c1 : Canonical v1) (c2 : Canonical v2)
    (B1 : ∀ o, o < 30 → v1 o < 256) (B2 : ∀ o, o < 30 → v2 o < 256) :
    ∀ o, o < 30 → v1 o = v2 o := by
  obtain ⟨a1, a2, a3, a4, a5, a6, a7, a8, _⟩ := c1
  obtain ⟨e1, e2, e3, e4, e5, e6, e7, e8, _⟩ := c2
  have F : ∀ off, (off = 2 ∨ off = 6 ∨ off = 10 ∨ off = 14 ∨ off = 18 ∨ off = 22 ∨ off = 26) →
      get32 v1 off = get32 v2 off := by
    rintro off (rfl | rfl | rfl | rfl | rfl | rfl | rfl)
    · exact a2.trans e2.symm
    · exact a3.trans e3.symm
    · exact a4.trans e4.symm
    · exact a5.trans e5.symm
    · exact a6.trans e6.symm
    · exact a7.trans e7.symm
    · exact a8.trans e8.symm
  intro o ho
  by_cases h2 : o < 2
  · have h := get16_bytes_eq v1 v2 0 (a1.trans e1.symm) (fun t ht => B1 _ (by omega))
      (fun t ht => B2 _ (by omega)) o h2
    rw [Nat.zero_add] at h
    exact h
  · have h := get32_bytes_eq v1 v2 (2 + 4 * ((o - 2) / 4)) (F _ (by omega))
      (fun t ht => B1 _ (by omega)) (fun t ht => B2 _ (by omega)) ((o - 2) % 4)
      (Nat.mod_lt _ (by omega))
    rw [show 2 + 4 * ((o - 2) / 4) + (o - 2) % 4 = o by omega] at h
    exact h

/-- From offset 30 on, the validated record is the record read, with
`inode_count` replaced by 80 when it was larger. -/
theorem validate_byte_high (b : Buf) (o : Nat) (h : 30 ≤ o) :
    (validate_superblock b).sb o =
      if sb_inode_count b > max_inodes then set32 b 30 max_inodes o else b o := by
  have hcount : ∀ s : SbState, sb_inode_count (check_field32 SbField.inode_size 26 sizeof_Inode
      (check_field32 SbField.first_data_block 22 DATA_BLOCK_START
      (check_field32 SbField.inode_table_start 18 INODE_TABLE_START
      (check_field32 SbField.data_bitmap_block 14 DATA_BITMAP_BLOCK
      (check_field32 SbField.inode_bitmap_block 10 INODE_BITMAP_BLOCK
      (check_field32 SbField.total_blocks 6 TOTAL_BLOCKS
      (check_field32 SbField.block_size 2 BLOCK_SIZE (check_magic s)))))))).sb =
        sb_inode_count s.sb := by
    intro s
    unfold sb_inode_count
    rw [check_field32_other _ _ _ _ _ (Or.inr (by omega)),
      check_field32_other _ _ _ _ _ (Or.inr (by omega)),
      check_field32_other _ _ _ _ _ (Or.inr (by omega)),
      check_field32_other _ _ _ _ _ (Or.inr (by omega)),
      check_field32_other _ _ _ _ _ (Or.inr (by omega)),
      check_field32_other _ _ _ _ _ (Or.inr (by omega)),
      check_field32_other _ _ _ _ _ (Or.inr (by omega)),
      check_magic_other _ _ (by omega)]
  have hbyte : ∀ (s : SbState) (x : Nat), 30 ≤ x →
      (check_field32 SbField.inode_size 26 sizeof_Inode
      (check_field32 SbField.first_data_block 22 DATA_BLOCK_START
      (check_field32 SbField.inode_table_start 18 INODE_TABLE_START
      (check_field32 SbField.data_bitmap_block 14 DATA_BITMAP_BLOCK
      (check_field32 SbField.inode_bitmap_block 10 INODE_BITMAP_BLOCK
      (check_field32 SbField.total_blocks 6 TOTAL_BLOCKS
      (check_field32 SbField.block_size 2 BLOCK_SIZE (check_magic s)))))))).sb x =
        s.sb x := by
    intro s x hx
    rw [check_field32_byte _ _ _ _ _ (Or.inr (by omega)),
      check_field32_byte _ _ _ _ _ (Or.inr (by omega)),
      check_field32_byte _ _ _ _ _ (Or.inr (by omega)),
      check_field32_byte _ _ _ _ _ (Or.inr (by omega)),
      check_field32_byte _ _ _ _ _ (Or.inr (by omega)),
      check_field32_byte _ _ _ _ _ (Or.inr (by omega)),
      check_field32_byte _ _ _ _ _ (Or.inr (by omega)),
      check_magic_byte _ _ (by omega)]
  unfold validate_superblock
  dsimp only
  unfold check_inode_count
  rw [hcount]
  dsimp only
  split
  · show set32 _ 30 max_inodes o = set32 b 30 max_inodes o
    unfold set32
    split_ifs
    · rfl
    · rfl
    · rfl
    · rfl
    · exact hbyte _ o h
  · exact hbyte _ o h

/-- The validated superblock does not depend on the eight layout fields read, as
long as they are made of bytes. -/
theorem validate_layout_free (b1 b2 : Buf) (hb1 : ∀ o, o < 30 → b1 o < 256)
    (hb2 : ∀ o, o < 30 → b2 o < 256) (heq : ∀ o, 30 ≤ o → b2 o = b1 o) :
    (validate_superblock b2).sb = (validate_superblock b1).sb := by
  funext o
  by_cases ho : o < 30
  · exact canonical_bytes_eq _ _ (validate_canonical b2) (validate_canonical b1)
      (validate_low_bound b2 hb2) (validate_low_bound b1 hb1) o ho
  · have hcnt : sb_inode_count b2 = sb_inode_count b1 := by
      unfold sb_inode_count
      exact get32_congr _ _ _ (fun t _ => heq _ (by omega))
    rw [validate_byte_high b2 o (by omega), validate_byte_high b1 o (by omega), hcnt]
    split
    · unfold set32
      split_ifs
      · rfl
      · rfl
      · rfl
      · rfl
      · exact heq o (by omega)
    · exact heq o (by omega)
theorem fread_buf_zero (img : File) (o : Nat) :
    fread_buf img (BLOCK_SIZE * SUPERBLOCK_BLOCK) o = img.data o := by
  unfold fread_buf
  rw [show BLOCK_SIZE * SUPERBLOCK_BLOCK = 0 from rfl, Nat.zero_add]

/-- Claim C22.  For any two images of at least 64 blocks, of the same size, whose
first 30 bytes are bytes, and which agree from byte 30 on (they differ at most in
the superblock fields magic, block_size, total_blocks, inode_bitmap_block,
data_bitmap_block, inode_table_start, first_data_block and inode_size): both
runs complete and leave the same image file.  For every image the validated
superblock places the inode bitmap in block 1, the data bitmap in block 2 and
the inode table from block 3 on, and a pointer is out of range exactly when it
is below 8 or at least 64. -/
theorem layout_fields_independence (img1 img2 : File)
    (hsz : TOTAL_BLOCKS * BLOCK_SIZE ≤ img1.size) (hsize : img2.size = img1.size)
    (hb1 : ∀ o, o < 30 → img1.data o < 256) (hb2 : ∀ o, o < 30 → img2.data o < 256)
    (heq : ∀ o, 30 ≤ o → img2.data o = img1.data o) :
    main img1 = Outcome.done (run_done img1) ∧ main img2 = Outcome.done (run_done img2) ∧
    (run_done img2).fp = (run_done img1).fp ∧
    (∀ img : File, sb_inode_bitmap_block (sb_of img) = 1 ∧
      sb_data_bitmap_block (sb_of img) = 2 ∧ sb_inode_table_start (sb_of img) = 3 ∧
      ∀ p, out_of_range (sb_of img) p = true ↔ (p < 8 ∨ 64 ≤ p)) := by
  have h64 : 64 * 4096 ≤ img1.size := hsz
  have hS : sb_of img2 = sb_of img1 := by
    unfold sb_of
    apply validate_layout_free
    · intro o ho; rw [fread_buf_zero]; exact hb1 o ho
    · intro o ho; rw [fread_buf_zero]; exact hb2 o ho
    · intro o ho; rw [fread_buf_zero, fread_buf_zero]; exact heq o ho
  have hF : fp_after_sb img2 = fp_after_sb img1 := by
    apply File.ext_of
    · rw [fp_after_sb_size img2 (by omega), fp_after_sb_size img1 (by omega), hsize]
    · intro o
      by_cases ho : o < 4092
      · rw [fp_after_sb_data_low img2 o ho, fp_after_sb_data_low img1 o ho, hS]
      · rw [fp_after_sb_data_high img2 o (by omega), fp_after_sb_data_high img1 o (by omega)]
        exact heq o (by omega)
  have hR : ∀ off, 30 ≤ off → fread_buf img2 off = fread_buf img1 off := by
    intro off hoff
    funext o
    unfold fread_buf
    exact heq _ (by omega)
  have hib : (inode_bitmap_end img2).inode_bitmap = (inode_bitmap_end img1).inode_bitmap ∧
      (inode_bitmap_end img2).inode_bitmap_errors =
        (inode_bitmap_end img1).inode_bitmap_errors := by
    rw [inode_bitmap_end_eq, inode_bitmap_end_eq, hS, hR _ (by decide), hR _ (by decide)]
    exact check_inode_bitmap_same _ _ _ _ _
  have hstart : SameButOut (walk_start img1) (walk_start img2) := by
    refine ⟨?_, ?_, ?_, ?_, ?_⟩
    · rw [walk_start_fp, walk_start_fp, hib.1, hib.2, hF]
    · rw [walk_start_inodes, walk_start_inodes, hF]
    · rw [walk_start_data_bitmap, walk_start_data_bitmap, hF]
    · rw [(walk_start_rest img2).1, (walk_start_rest img1).1]
    · rw [(walk_start_rest img2).2.1, (walk_start_rest img1).2.1]
  have hend : SameButOut (walk_end img1) (walk_end img2) := by
    rw [walk_end_eq, walk_end_eq, hS]
    exact walk_inodes_same _ _ _ _ hstart
  have hfin : (final_pass img2).data_bitmap = (final_pass img1).data_bitmap ∧
      (final_pass img2).data_bitmap_errors = (final_pass img1).data_bitmap_errors := by
    unfold final_pass
    dsimp only
    rw [hend.2.2.2.1, hend.2.2.1, hS]
    exact data_bitmap_pass_same _ _ _ _ _ _
  refine ⟨main_completes img1 hsz, main_completes img2 (by rw [hsize]; exact hsz), ?_, ?_⟩
  · rw [run_done_fp_eq, run_done_fp_eq, hfin.1, hfin.2, hend.1, hend.2.1, hS]
  · intro img
    refine ⟨sb_of_inode_bitmap_block img, sb_of_data_bitmap_block img,
      sb_of_inode_table_start img, ?_⟩
    intro p
    unfold out_of_range
    rw [sb_of_first, sb_of_total]
    simp only [Bool.or_eq_true, decide_eq_true_eq]
set_option maxRecDepth 100000 in
/-- Claim C22, at `img_damaged` and `img_other_layout`: the block size recorded is
4096 in the first and 0 in the second; both runs complete and leave the same
image file. -/
theorem layout_fields_independence_witness :
    sb_block_size (fread_buf img_damaged 0) = 4096 ∧
    sb_block_size (fread_buf img_other_layout 0) = 0 ∧
    main img_damaged = Outcome.done (run_done img_damaged) ∧
    main img_other_layout = Outcome.done (run_done img_other_layout) ∧
    (run_done img_other_layout).fp = (run_done img_damaged).fp :=
  have h := layout_fields_independence img_damaged img_other_layout (by decide) rfl
    (by intro o ho; interval_cases o <;> with_unfolding_all decide)
    (fun o ho => by show (if o < 30 then 0 else img_damaged.data o) < 256; rw [if_pos ho]; decide)
    (fun o ho => by
      show (if o < 30 then 0 else img_damaged.data o) = img_damaged.data o
      rw [if_neg (by omega)])
  ⟨by with_unfolding_all decide, by with_unfolding_all decide, h.1, h.2.1, h.2.2.1⟩

/-! ## Counters that pass `INT_MAX` -/

end Vsfsck

namespace Shell

/-! ## The command history -/

theorem history_after_nil : history_after [] = history_start := rfl

theorem history_after_snoc (cmds : List (List Char)) (c : List Char) :
    history_after (cmds ++ [c]) = add_to_history c (history_after cmds) := by
  unfold history_after
  rw [List.foldl_append]
  rfl

/-- A call below the bound appends at index `history_count`. -/
theorem add_to_history_append (cmd : List Char) (h : History)
    (hlt : h.history_count < HISTORY_SIZE) :
    (add_to_history cmd h).history_count = h.history_count + 1 ∧
    (add_to_history cmd h).history h.history_count = some cmd ∧
    ∀ i, i ≠ h.history_count → (add_to_history cmd h).history i = h.history i := by
  unfold add_to_history
  rw [if_pos hlt]
  refine ⟨rfl, Function.update_same _ _ _, ?_⟩
  intro i hi
  exact Function.update_noteq hi _ _

/-- A call at the bound drops slot 0, moves the other 99 slots down by one and
stores the command in slot 99. -/
theorem add_to_history_rotate (cmd : List Char) (h : History)
    (hge : ¬ h.history_count < HISTORY_SIZE) :
    (add_to_history cmd h).history_count = h.history_count ∧
    (add_to_history cmd h).history (HISTORY_SIZE - 1) = some cmd ∧
    ∀ i, i < HISTORY_SIZE - 1 → (add_to_history cmd h).history i = h.history (i + 1) := by
  unfold add_to_history
  rw [if_neg hge]
  refine ⟨rfl, ?_, ?_⟩
  · show Function.update (memmove_down h.history (HISTORY_SIZE - 1)) (HISTORY_SIZE - 1)
      (some cmd) (HISTORY_SIZE - 1) = _
    exact Function.update_same _ _ _
  intro i hi
  show Function.update (memmove_down h.history (HISTORY_SIZE - 1)) (HISTORY_SIZE - 1)
    (some cmd) i = _
  rw [Function.update_noteq (Nat.ne_of_lt hi)]
  unfold memmove_down
  rw [if_pos hi]

/-- The history after any sequence of calls: the count and the slots in use. -/
theorem history_after_spec (cmds : List (List Char)) :
    (history_after cmds).history_count = min cmds.length HISTORY_SIZE ∧
    ∀ i, i < min cmds.length HISTORY_SIZE →
      (history_after cmds).history i = cmds[cmds.length - min cmds.length HISTORY_SIZE + i]? := by
  induction cmds using List.reverseRecOn with
  | nil =>
    refine ⟨rfl, ?_⟩
    intro i hi
    simp at hi
  | append_singleton l a ih =>
    obtain ⟨hc, hs⟩ := ih
    rw [history_after_snoc]
    have hlen : (l ++ [a]).length = l.length + 1 := by simp
    rw [hlen]
    unfold HISTORY_SIZE at hc hs ⊢
    by_cases hlt : l.length < 100
    · have hcnt : (history_after l).history_count = l.length := by rw [hc]; omega
      obtain ⟨h1, h2, h3⟩ := add_to_history_append a (history_after l)
        (by unfold HISTORY_SIZE; omega)
      refine ⟨by rw [h1, hcnt]; omega, ?_⟩
      intro i hi
      have hmin : min (l.length + 1) 100 = l.length + 1 := by omega
      rw [hmin] at hi ⊢
      rw [show l.length + 1 - (l.length + 1) + i = i by omega]
      by_cases hil : i = l.length
      · rw [hil, ← hcnt, h2, hcnt]
        simp
      · rw [h3 i (by rw [hcnt]; exact hil), List.getElem?_append_left (by omega)]
        have := hs i (by omega)
        rw [this, show l.length - min l.length 100 + i = i by omega]
    · have hcnt : (history_after l).history_count = 100 := by rw [hc]; omega
      obtain ⟨h1, h2, h3⟩ := add_to_history_rotate a (history_after l)
        (by unfold HISTORY_SIZE; omega)
      unfold HISTORY_SIZE at h2 h3
      refine ⟨by rw [h1, hcnt]; omega, ?_⟩
      intro i hi
      have hmin : min (l.length + 1) 100 = 100 := by omega
      rw [hmin] at hi ⊢
      by_cases hil : i = 99
      · rw [hil, h2, show l.length + 1 - 100 + 99 = l.length by omega]
        simp
      · rw [h3 i (by omega), List.getElem?_append_left (by omega)]
        have := hs (i + 1) (by omega)
        rw [this]
        congr 1
        omega

/-- Claim C25.  After any sequence of `n` calls of `add_to_history` from program
start, `history_count` is `min n 100` (never above 100) and slot `i` below it
holds the command number `n - min n 100 + i` of the sequence: the most recent
`min n 100` commands, in order.  A further call appends at index `history_count`
and leaves the other slots as they are while fewer than 100 entries are stored;
when 100 are stored it keeps the count, moves the entries of slots 1..99 to
slots 0..98 and stores the command in slot 99. -/
theorem history_bounded_fifo (cmds : List (List Char)) :
    (history_after cmds).history_count = min cmds.length 100 ∧
    (history_after cmds).history_count ≤ HISTORY_SIZE ∧
    (∀ i, i < (history_after cmds).history_count →
      (history_after cmds).history i =
        cmds[cmds.length - (history_after cmds).history_count + i]?) ∧
    (∀ cmd : List Char, (history_after cmds).history_count < 100 →
      (add_to_history cmd (history_after cmds)).history_count =
          (history_after cmds).history_count + 1 ∧
        (add_to_history cmd (history_after cmds)).history (history_after cmds).history_count =
          some cmd ∧
        ∀ i, i ≠ (history_after cmds).history_count →
          (add_to_history cmd (history_after cmds)).history i =
            (history_after cmds).history i) ∧
    (∀ cmd : List Char, (history_after cmds).history_count = 100 →
      (add_to_history cmd (history_after cmds)).history_count = 100 ∧
        (add_to_history cmd (history_after cmds)).history 99 = some cmd ∧
        ∀ i, i < 99 →
          (add_to_history cmd (history_after cmds)).history i =
            (history_after cmds).history (i + 1)) := by
  obtain ⟨hc, hs⟩ := history_after_spec cmds
  unfold HISTORY_SIZE at hc hs
  refine ⟨hc, by rw [hc]; unfold HISTORY_SIZE; omega, ?_, ?_, ?_⟩
  · intro i hi
    rw [hc] at hi ⊢
    exact hs i hi
  · intro cmd hlt
    exact add_to_history_append cmd _ hlt
  · intro cmd h100
    obtain ⟨h1, h2, h3⟩ := add_to_history_rotate cmd (history_after cmds)
      (by rw [h100]; decide)
    exact ⟨h1.trans h100, h2, h3⟩

/-- Claim C25, at 150 commands: the count is 100 and slot 0 holds command number
50. -/
theorem history_bounded_fifo_witness :
    (history_after ((List.range 150).map (fun n => [Char.ofNat n]))).history_count = 100 ∧
    (history_after ((List.range 150).map (fun n => [Char.ofNat n]))).history 0 =
      some [Char.ofNat 50] := by
  have h := history_bounded_fifo ((List.range 150).map (fun n => [Char.ofNat n]))
  have hlen : ((List.range 150).map (fun n => [Char.ofNat n])).length = 150 := by simp
  have hc : (history_after ((List.range 150).map (fun n => [Char.ofNat n]))).history_count
      = 100 := by rw [h.1, hlen]; rfl
  refine ⟨hc, ?_⟩
  rw [h.2.2.1 0 (by rw [hc]; decide), hc, hlen]
  simp

/-! ## Redirection parsing -/

theorem strchr_none_of_not_mem (c : Char) : ∀ s : List Char, c ∉ s → strchr s c = none
  | [], _ => rfl
  | x :: xs, h => by
    have hx : x ≠ c := fun e => h (e ▸ List.mem_cons_self x xs)
    have hxs : c ∉ xs := fun e => h (List.mem_cons_of_mem x e)
    unfold strchr
    rw [if_neg hx, strchr_none_of_not_mem c xs hxs]
    rfl

theorem starts_with_head (c : Char) (t : List Char) :
    ∀ s : List Char, c ∉ s → starts_with s (c :: t) = false
  | [], _ => rfl
  | x :: xs, h => by
    have hx : x ≠ c := fun e => h (e ▸ List.mem_cons_self x xs)
    unfold starts_with
    simp [hx]

theorem strstr_none_of_not_mem (c : Char) (t : List Char) :
    ∀ s : List Char, c ∉ s → strstr s (c :: t) = none
  | [], _ => by
    unfold strstr
    rw [if_neg (by rw [starts_with_head c t [] (List.not_mem_nil c)]; decide)]
  | x :: xs, h => by
    have hxs : c ∉ xs := fun e => h (List.mem_cons_of_mem x e)
    unfold strstr
    rw [if_neg (by rw [starts_with_head c t (x :: xs) h]; decide),
      strstr_none_of_not_mem c t xs hxs]
    rfl

/-- When the first `<` of the command comes before every `>`, the searches for `>>`
and `>` run on the text before `<` and find nothing: no output file is taken,
and the input file name is everything that follows `<`. -/
theorem input_first_loses_output (cmd : List Char) (k : Nat) (hk : strchr cmd '<' = some k)
    (hno : '>' ∉ cmd.take k) :
    handle_redirection cmd =
      { input := some (trim_whitespace (cmd.drop (k + 1))), output := none, append := none,
        command := trim_whitespace (cmd.take k) } := by
  unfold handle_redirection
  simp only [hk, Option.map_some']
  rw [strstr_none_of_not_mem _ _ _ hno, strchr_none_of_not_mem _ _ hno]

/-- Claim C26, evaluated.  On `cat < in.txt > out.txt` (input operator first) the
code takes `in.txt > out.txt` as the input file name and no output file; on
`cat < in.txt >> log.txt` it takes `in.txt >> log.txt` as the input file name and
no append file; with the output operator first, on `cat > out.txt < in.txt` and
`cat >> log.txt < in.txt`, it takes both names as the claim says. -/
theorem redirection_input_first_fails :
    handle_redirection "cat < in.txt > out.txt".toList =
      { input := some "in.txt > out.txt".toList, output := none, append := none,
        command := "cat".toList } ∧
    handle_redirection "cat < in.txt >> log.txt".toList =
      { input := some "in.txt >> log.txt".toList, output := none, append := none,
        command := "cat".toList } ∧
    handle_redirection "cat > out.txt < in.txt".toList =
      { input := some "in.txt".toList, output := some "out.txt".toList, append := none,
        command := "cat".toList } ∧
    handle_redirection "cat >> log.txt < in.txt".toList =
      { input := some "in.txt".toList, output := none, append := some "log.txt".toList,
        command := "cat".toList } := by
  refine ⟨?_, ?_, ?_, ?_⟩ <;> decide

end Shell
